import Mathlib

/-! pcalcShell: the text-to-expression parser of `CalcShell.go`.

A shallow embedding of the parser of `src/CalcShell.go` and the statements
of its specification that concern it.

Conventions of the embedding.

* Text is the list of the characters (runes) of a Go string (`Str`), which
  is taken to be valid UTF-8.  The regular expressions of the program match
  runes; an index of the embedding counts characters where Go counts bytes,
  so on text with characters outside ASCII a span of the embedding is the
  span of the program counted in characters.  The program steps over a single
  byte in three ways.  `ind[0]+1`, `pInd[0]+1` and the `ind[1] - 1` of stage 2
  step over a `(`.  `rune(s[ind[0]-1])` in stage 1 reads the byte before a
  match as a character, and is embedded as such (`isLetterByte`).  `ind[1]-1`
  and `pInd[1]-1` step over the `)` that closes the group or, when
  the group is not closed, over the last byte of the text: there, if the text
  ends in a character outside ASCII, the program cuts that character in two
  where the embedding leaves it out whole.  On every other text the slices of
  the embedding are those of the program.
* The classes `\pL` and `\pN` are the categories L and N of Unicode 14.0
  (`unicodeClasses`); the tables of a Go release follow the Unicode version of
  that release and differ from these only in characters assigned in between.
  `strings.TrimSpace` trims the Unicode white space (`isSpace`); `ParseInt`
  and `ParseFloat` read ASCII digits only.
* A `*pcalc.Expression` is an `Option Expr`; `none` is the nil pointer, the
  "missing" expression of the specification.
* A run-time panic of the Go program (a slice expression out of range) is the
  outcome `Run.panic`; every other outcome is `Run.done`.
* Go maps are association lists with distinct keys.
* Loops and recursions whose argument is not structurally decreasing take a
  fuel argument; the callers pass a bound that cannot be exceeded, and above
  that bound the result does not depend on the fuel (`passLoop_fuel`,
  `parseIntExpressions_fuel` and the like, `parseExpression_eq_fuel`).
* The package `pcalc` (numbers, expression builders, evaluation) is not part
  of the sources; what the parser needs from it is modelled from the
  specification, and marked so.
-/

namespace CalcShell

/-- Text: the characters of the Go string. -/
abbrev Str := List Char

/-! ## Numbers and expressions (package `pcalc`) -/

/-- Modelled from the spec: the `Number` of package `pcalc`, which is missing
from the sources (spec §3).  `fraction n d` is `Exact` with numerator `n` and
denominator `d`.  `sdFloat m k sf` is `Measured`: its value is the float64
nearest to the decimal `m / 10 ^ k` (floating point itself is not modelled) and
`sf` is its significant-figure count. -/
inductive Number where
  | fraction (num : Int) (den : Int)
  | sdFloat (mant : Nat) (scale : Nat) (sf : Nat)
  deriving DecidableEq, Repr

/-- Modelled from the spec: the immutable expression tree of package `pcalc`,
which is missing from the sources (spec §3).  `ln` and `lg` are the two
logarithm nodes behind the function templates of spec §6.  The `Bound` variant
is represented by the substituted tree that spec §4.2 says `call` returns. -/
inductive Expr where
  | const (n : Number)
  | unknown (name : Str)
  | group (inner : Expr)
  | neg (inner : Expr)
  | pow (base exponent : Expr)
  | mul (l r : Expr)
  | div (l r : Expr)
  | add (l r : Expr)
  | sub (l r : Expr)
  | ln (arg : Expr)
  | lg (arg : Expr)
  deriving DecidableEq, Repr

/-- Modelled from the spec: `pcalc.MakeFraction`, missing from the sources.
The parser only calls it with denominator 1, where the fraction is already in
lowest terms (spec §3, §4.5 stage 6). -/
def MakeFraction (n : Int) (d : Int) : Number := Number.fraction n d

/-- Modelled from the spec: `pcalc.MakeSDFloat`, missing from the sources: a
measured value with its significant-figure count (spec §3). -/
def MakeSDFloat (mant : Nat) (scale : Nat) (sf : Nat) : Number :=
  Number.sdFloat mant scale sf

/-- Modelled from the spec: `pcalc.NewExpressionWithConstant`, missing from the
sources: the builder `constant` of spec §4.2. -/
def NewExpressionWithConstant (n : Number) : Option Expr := some (Expr.const n)

/-- Modelled from the spec: `pcalc.NewExpressionWithUnknown`, missing from the
sources: the builder `freeVariable(name)` of spec §4.2. -/
def NewExpressionWithUnknown (name : Str) : Option Expr := some (Expr.unknown name)

/-- Modelled from the spec: `pcalc.ParenthesisEnclosedExpression`, missing from
the sources: the builder `group`; a missing operand gives a missing result
(spec §4.2). -/
def ParenthesisEnclosedExpression : Option Expr → Option Expr
  | some e => some (Expr.group e)
  | none => none

/-- Modelled from the spec: `pcalc.SignInvertedExpression`, missing from the
sources: the builder `negate`; a missing operand gives a missing result. -/
def SignInvertedExpression : Option Expr → Option Expr
  | some e => some (Expr.neg e)
  | none => none

/-- Modelled from the spec: `pcalc.RaiseExpressionToPower`, missing from the
sources: the builder `power`; a missing operand gives a missing result. -/
def RaiseExpressionToPower : Option Expr → Option Expr → Option Expr
  | some a, some b => some (Expr.pow a b)
  | _, _ => none

/-- Modelled from the spec: `pcalc.MultiplyExpressions`, missing from the
sources: the builder `product`; a missing operand gives a missing result. -/
def MultiplyExpressions : Option Expr → Option Expr → Option Expr
  | some a, some b => some (Expr.mul a b)
  | _, _ => none

/-- Modelled from the spec: `pcalc.DivideExpressions`, missing from the
sources: the builder `quotient`; a missing operand gives a missing result. -/
def DivideExpressions : Option Expr → Option Expr → Option Expr
  | some a, some b => some (Expr.div a b)
  | _, _ => none

/-- Modelled from the spec: `pcalc.AddExpressions`, missing from the sources:
the builder `sum`; a missing operand gives a missing result. -/
def AddExpressions : Option Expr → Option Expr → Option Expr
  | some a, some b => some (Expr.add a b)
  | _, _ => none

/-- Modelled from the spec: `pcalc.SubtractExpressions`, missing from the
sources: the builder `difference`; a missing operand gives a missing result. -/
def SubtractExpressions : Option Expr → Option Expr → Option Expr
  | some a, some b => some (Expr.sub a b)
  | _, _ => none

/-- Modelled from the spec: `pcalc.NaturalLogarithmOfExpression`, missing from
the sources; a missing operand gives a missing result. -/
def NaturalLogarithmOfExpression : Option Expr → Option Expr
  | some e => some (Expr.ln e)
  | none => none

/-- Modelled from the spec: `pcalc.DecimalLogarithmOfExpression`, missing from
the sources; a missing operand gives a missing result. -/
def DecimalLogarithmOfExpression : Option Expr → Option Expr
  | some e => some (Expr.lg e)
  | none => none

/-! ## Operator codes (`const ( o_inv = iota - 1 ... )`) -/

def o_inv : Int := -1
def o_pow : Int := 0
def o_npow : Int := 1
def o_mul : Int := 2
def o_nmul : Int := 3
def o_div : Int := 4
def o_ndiv : Int := 5
def o_add : Int := 6
def o_sub : Int := 7

/-! ## The expression reducer: the three loops at the end of `parseExpression` -/

/-- The Go statement `xs = append(xs[:i], xs[i+1:]...)`. -/
def removeAt {α : Type} (xs : List α) (i : Nat) : List α := xs.take i ++ xs.drop (i + 1)

/-- The `//^ loop` of `parseExpression`, started at index `i`.  `exps` and
`operators` have the same length, so every index used is in range.  Each round
either advances `i` or shortens `operators`; `fuel` bounds the rounds. -/
def powLoop : Nat → Nat → List (Option Expr) → List Int → List (Option Expr) × List Int
  | 0, _, exps, operators => (exps, operators)
  | fuel + 1, i, exps, operators =>
    if i < operators.length then
      let v := operators.getD i o_inv
      if ¬(v = o_pow ∨ v = o_npow) then
        powLoop fuel (i + 1) exps operators
      else
        let ne :=
          if v = o_pow then
            RaiseExpressionToPower (exps.getD (i - 1) none) (exps.getD i none)
          else
            RaiseExpressionToPower (exps.getD (i - 1) none)
              (SignInvertedExpression (exps.getD i none))
        powLoop fuel i ((removeAt exps i).set (i - 1) ne) (removeAt operators i)
    else (exps, operators)

/-- The `//*/ loop` of `parseExpression`, started at index `i`. -/
def mulLoop : Nat → Nat → List (Option Expr) → List Int → List (Option Expr) × List Int
  | 0, _, exps, operators => (exps, operators)
  | fuel + 1, i, exps, operators =>
    if i < operators.length then
      let v := operators.getD i o_inv
      if v < o_mul ∨ v > o_ndiv then
        mulLoop fuel (i + 1) exps operators
      else
        let ne :=
          if v = o_mul then
            MultiplyExpressions (exps.getD (i - 1) none) (exps.getD i none)
          else if v = o_nmul then
            MultiplyExpressions (exps.getD (i - 1) none)
              (SignInvertedExpression (exps.getD i none))
          else if v = o_div then
            DivideExpressions (exps.getD (i - 1) none) (exps.getD i none)
          else if v = o_ndiv then
            DivideExpressions (exps.getD (i - 1) none)
              (SignInvertedExpression (exps.getD i none))
          else none
        mulLoop fuel i ((removeAt exps i).set (i - 1) ne) (removeAt operators i)
    else (exps, operators)

/-- The loop after the leading-sign step (`//+- loop`), started at index `i`. -/
def addLoop : Nat → Nat → List (Option Expr) → List Int → List (Option Expr) × List Int
  | 0, _, exps, operators => (exps, operators)
  | fuel + 1, i, exps, operators =>
    if i < operators.length then
      let v := operators.getD i o_inv
      if ¬(v = o_add ∨ v = o_sub) then
        addLoop fuel (i + 1) exps operators
      else
        let ne :=
          if v = o_add then
            AddExpressions (exps.getD (i - 1) none) (exps.getD i none)
          else
            SubtractExpressions (exps.getD (i - 1) none) (exps.getD i none)
        addLoop fuel i ((removeAt exps i).set (i - 1) ne) (removeAt operators i)
    else (exps, operators)

/-- The leading-sign step: `if len(operators) > 0 { if operators[0] == o_sub
{ exps[0] = SignInverted(exps[0]) } ... }`; the other branch only prints. -/
def leadingSign (exps : List (Option Expr)) (operators : List Int) : List (Option Expr) :=
  if 0 < operators.length then
    if operators.getD 0 o_inv = o_sub then
      exps.set 0 (SignInvertedExpression (exps.getD 0 none))
    else exps
  else exps

/-- Lines 244-307 of `parseExpression`: the three passes over the token list
`exps` and the operator codes `operators`, and the final `exps[0]` (nil for an
empty list).  Every loop is given `len(operators)` rounds, which it cannot
exceed. -/
def reduceExpression (exps : List (Option Expr)) (operators : List Int) : Option Expr :=
  let r1 := powLoop operators.length 1 exps operators
  let r2 := mulLoop r1.2.length 1 r1.1 r1.2
  let exps3 := leadingSign r2.1 r2.2
  let r3 := addLoop r2.2.length 1 exps3 r2.2
  match r3.1 with
  | [] => none
  | e :: _ => e

/-! ## The operator resolver: lines 202-242 of `parseExpression` -/

/-- The inner loop `for _, c := range fields` over the characters of one
operator text, with the current `foundOp`.  `none` is the `return nil` after
"Invalid operator". -/
def resolveChars : Int → Str → Option Int
  | foundOp, [] => some foundOp
  | foundOp, c :: cs =>
    if c = ' ' then resolveChars foundOp cs
    else if foundOp = -1 then
      if c = '^' then resolveChars o_pow cs
      else if c = '*' then resolveChars o_mul cs
      else if c = '/' then resolveChars o_div cs
      else if c = '+' then resolveChars o_add cs
      else if c = '-' then resolveChars o_sub cs
      else none
    else if c = '-' then
      if foundOp % 2 = 0 then resolveChars (foundOp + 1) cs
      else resolveChars (foundOp - 1) cs
    else none

/-- The body of `for i, v := range opStrings`: the operator code of the text
`v` in slot `i`. -/
def resolveOperator (i : Nat) (v : Str) : Option Int :=
  resolveChars (if v.length = 0 ∧ i ≠ 0 then o_mul else -1) v

/-- The loop `for i, v := range opStrings`, from slot `i` on: all the codes, or
`none` when some text is an invalid operator. -/
def resolveOperators : Nat → List Str → Option (List Int)
  | _, [] => some []
  | i, v :: vs =>
    match resolveOperator i v with
    | none => none
    | some op =>
      match resolveOperators (i + 1) vs with
      | none => none
      | some ops => some (op :: ops)

/-! ## Strings and regular expressions (Go standard library) -/

/-- The Go slice expression `s[a:b]` on indices that are in range. -/
def slice (s : Str) (a b : Nat) : Str := (s.drop a).take (b - a)

/-- The two Unicode classes the program tests: `\pL` (the categories Lu, Ll,
Lt, Lm, Lo) and `\pN` (the categories Nd, Nl, No). -/
inductive CharClass where
  | L
  | N
  deriving DecidableEq, Repr

/-- The tables `unicode.L` and `unicode.N` of the Go library, as inclusive
ranges of code points in increasing order, each with its class (Unicode
14.0). -/
def unicodeClasses : List (Nat × Nat × CharClass) :=
  open CharClass in
  [(48, 57, N), (65, 90, L), (97, 122, L), (170, 170, L), (178, 179, N), (181, 181, L),
   (185, 185, N), (186, 186, L), (188, 190, N), (192, 214, L), (216, 246, L), (248, 705, L),
   (710, 721, L), (736, 740, L), (748, 748, L), (750, 750, L), (880, 884, L), (886, 887, L),
   (890, 893, L), (895, 895, L), (902, 902, L), (904, 906, L), (908, 908, L), (910, 929, L),
   (931, 1013, L), (1015, 1153, L), (1162, 1327, L), (1329, 1366, L), (1369, 1369, L),
   (1376, 1416, L), (1488, 1514, L), (1519, 1522, L), (1568, 1610, L), (1632, 1641, N),
   (1646, 1647, L), (1649, 1747, L), (1749, 1749, L), (1765, 1766, L), (1774, 1775, L),
   (1776, 1785, N), (1786, 1788, L), (1791, 1791, L), (1808, 1808, L), (1810, 1839, L),
   (1869, 1957, L), (1969, 1969, L), (1984, 1993, N), (1994, 2026, L), (2036, 2037, L),
   (2042, 2042, L), (2048, 2069, L), (2074, 2074, L), (2084, 2084, L), (2088, 2088, L),
   (2112, 2136, L), (2144, 2154, L), (2160, 2183, L), (2185, 2190, L), (2208, 2249, L),
   (2308, 2361, L), (2365, 2365, L), (2384, 2384, L), (2392, 2401, L), (2406, 2415, N),
   (2417, 2432, L), (2437, 2444, L), (2447, 2448, L), (2451, 2472, L), (2474, 2480, L),
   (2482, 2482, L), (2486, 2489, L), (2493, 2493, L), (2510, 2510, L), (2524, 2525, L),
   (2527, 2529, L), (2534, 2543, N), (2544, 2545, L), (2548, 2553, N), (2556, 2556, L),
   (2565, 2570, L), (2575, 2576, L), (2579, 2600, L), (2602, 2608, L), (2610, 2611, L),
   (2613, 2614, L), (2616, 2617, L), (2649, 2652, L), (2654, 2654, L), (2662, 2671, N),
   (2674, 2676, L), (2693, 2701, L), (2703, 2705, L), (2707, 2728, L), (2730, 2736, L),
   (2738, 2739, L), (2741, 2745, L), (2749, 2749, L), (2768, 2768, L), (2784, 2785, L),
   (2790, 2799, N), (2809, 2809, L), (2821, 2828, L), (2831, 2832, L), (2835, 2856, L),
   (2858, 2864, L), (2866, 2867, L), (2869, 2873, L), (2877, 2877, L), (2908, 2909, L),
   (2911, 2913, L), (2918, 2927, N), (2929, 2929, L), (2930, 2935, N), (2947, 2947, L),
   (2949, 2954, L), (2958, 2960, L), (2962, 2965, L), (2969, 2970, L), (2972, 2972, L),
   (2974, 2975, L), (2979, 2980, L), (2984, 2986, L), (2990, 3001, L), (3024, 3024, L),
   (3046, 3058, N), (3077, 3084, L), (3086, 3088, L), (3090, 3112, L), (3114, 3129, L),
   (3133, 3133, L), (3160, 3162, L), (3165, 3165, L), (3168, 3169, L), (3174, 3183, N),
   (3192, 3198, N), (3200, 3200, L), (3205, 3212, L), (3214, 3216, L), (3218, 3240, L),
   (3242, 3251, L), (3253, 3257, L), (3261, 3261, L), (3293, 3294, L), (3296, 3297, L),
   (3302, 3311, N), (3313, 3314, L), (3332, 3340, L), (3342, 3344, L), (3346, 3386, L),
   (3389, 3389, L), (3406, 3406, L), (3412, 3414, L), (3416, 3422, N), (3423, 3425, L),
   (3430, 3448, N), (3450, 3455, L), (3461, 3478, L), (3482, 3505, L), (3507, 3515, L),
   (3517, 3517, L), (3520, 3526, L), (3558, 3567, N), (3585, 3632, L), (3634, 3635, L),
   (3648, 3654, L), (3664, 3673, N), (3713, 3714, L), (3716, 3716, L), (3718, 3722, L),
   (3724, 3747, L), (3749, 3749, L), (3751, 3760, L), (3762, 3763, L), (3773, 3773, L),
   (3776, 3780, L), (3782, 3782, L), (3792, 3801, N), (3804, 3807, L), (3840, 3840, L),
   (3872, 3891, N), (3904, 3911, L), (3913, 3948, L), (3976, 3980, L), (4096, 4138, L),
   (4159, 4159, L), (4160, 4169, N), (4176, 4181, L), (4186, 4189, L), (4193, 4193, L),
   (4197, 4198, L), (4206, 4208, L), (4213, 4225, L), (4238, 4238, L), (4240, 4249, N),
   (4256, 4293, L), (4295, 4295, L), (4301, 4301, L), (4304, 4346, L), (4348, 4680, L),
   (4682, 4685, L), (4688, 4694, L), (4696, 4696, L), (4698, 4701, L), (4704, 4744, L),
   (4746, 4749, L), (4752, 4784, L), (4786, 4789, L), (4792, 4798, L), (4800, 4800, L),
   (4802, 4805, L), (4808, 4822, L), (4824, 4880, L), (4882, 4885, L), (4888, 4954, L),
   (4969, 4988, N), (4992, 5007, L), (5024, 5109, L), (5112, 5117, L), (5121, 5740, L),
   (5743, 5759, L), (5761, 5786, L), (5792, 5866, L), (5870, 5872, N), (5873, 5880, L),
   (5888, 5905, L), (5919, 5937, L), (5952, 5969, L), (5984, 5996, L), (5998, 6000, L),
   (6016, 6067, L), (6103, 6103, L), (6108, 6108, L), (6112, 6121, N), (6128, 6137, N),
   (6160, 6169, N), (6176, 6264, L), (6272, 6276, L), (6279, 6312, L), (6314, 6314, L),
   (6320, 6389, L), (6400, 6430, L), (6470, 6479, N), (6480, 6509, L), (6512, 6516, L),
   (6528, 6571, L), (6576, 6601, L), (6608, 6618, N), (6656, 6678, L), (6688, 6740, L),
   (6784, 6793, N), (6800, 6809, N), (6823, 6823, L), (6917, 6963, L), (6981, 6988, L),
   (6992, 7001, N), (7043, 7072, L), (7086, 7087, L), (7088, 7097, N), (7098, 7141, L),
   (7168, 7203, L), (7232, 7241, N), (7245, 7247, L), (7248, 7257, N), (7258, 7293, L),
   (7296, 7304, L), (7312, 7354, L), (7357, 7359, L), (7401, 7404, L), (7406, 7411, L),
   (7413, 7414, L), (7418, 7418, L), (7424, 7615, L), (7680, 7957, L), (7960, 7965, L),
   (7968, 8005, L), (8008, 8013, L), (8016, 8023, L), (8025, 8025, L), (8027, 8027, L),
   (8029, 8029, L), (8031, 8061, L), (8064, 8116, L), (8118, 8124, L), (8126, 8126, L),
   (8130, 8132, L), (8134, 8140, L), (8144, 8147, L), (8150, 8155, L), (8160, 8172, L),
   (8178, 8180, L), (8182, 8188, L), (8304, 8304, N), (8305, 8305, L), (8308, 8313, N),
   (8319, 8319, L), (8320, 8329, N), (8336, 8348, L), (8450, 8450, L), (8455, 8455, L),
   (8458, 8467, L), (8469, 8469, L), (8473, 8477, L), (8484, 8484, L), (8486, 8486, L),
   (8488, 8488, L), (8490, 8493, L), (8495, 8505, L), (8508, 8511, L), (8517, 8521, L),
   (8526, 8526, L), (8528, 8578, N), (8579, 8580, L), (8581, 8585, N), (9312, 9371, N),
   (9450, 9471, N), (10102, 10131, N), (11264, 11492, L), (11499, 11502, L), (11506, 11507, L),
   (11517, 11517, N), (11520, 11557, L), (11559, 11559, L), (11565, 11565, L), (11568, 11623, L),
   (11631, 11631, L), (11648, 11670, L), (11680, 11686, L), (11688, 11694, L), (11696, 11702, L),
   (11704, 11710, L), (11712, 11718, L), (11720, 11726, L), (11728, 11734, L), (11736, 11742, L),
   (11823, 11823, L), (12293, 12294, L), (12295, 12295, N), (12321, 12329, N), (12337, 12341, L),
   (12344, 12346, N), (12347, 12348, L), (12353, 12438, L), (12445, 12447, L), (12449, 12538, L),
   (12540, 12543, L), (12549, 12591, L), (12593, 12686, L), (12690, 12693, N), (12704, 12735, L),
   (12784, 12799, L), (12832, 12841, N), (12872, 12879, N), (12881, 12895, N), (12928, 12937, N),
   (12977, 12991, N), (13312, 19903, L), (19968, 42124, L), (42192, 42237, L), (42240, 42508, L),
   (42512, 42527, L), (42528, 42537, N), (42538, 42539, L), (42560, 42606, L), (42623, 42653, L),
   (42656, 42725, L), (42726, 42735, N), (42775, 42783, L), (42786, 42888, L), (42891, 42954, L),
   (42960, 42961, L), (42963, 42963, L), (42965, 42969, L), (42994, 43009, L), (43011, 43013, L),
   (43015, 43018, L), (43020, 43042, L), (43056, 43061, N), (43072, 43123, L), (43138, 43187, L),
   (43216, 43225, N), (43250, 43255, L), (43259, 43259, L), (43261, 43262, L), (43264, 43273, N),
   (43274, 43301, L), (43312, 43334, L), (43360, 43388, L), (43396, 43442, L), (43471, 43471, L),
   (43472, 43481, N), (43488, 43492, L), (43494, 43503, L), (43504, 43513, N), (43514, 43518, L),
   (43520, 43560, L), (43584, 43586, L), (43588, 43595, L), (43600, 43609, N), (43616, 43638, L),
   (43642, 43642, L), (43646, 43695, L), (43697, 43697, L), (43701, 43702, L), (43705, 43709, L),
   (43712, 43712, L), (43714, 43714, L), (43739, 43741, L), (43744, 43754, L), (43762, 43764, L),
   (43777, 43782, L), (43785, 43790, L), (43793, 43798, L), (43808, 43814, L), (43816, 43822, L),
   (43824, 43866, L), (43868, 43881, L), (43888, 44002, L), (44016, 44025, N), (44032, 55203, L),
   (55216, 55238, L), (55243, 55291, L), (63744, 64109, L), (64112, 64217, L), (64256, 64262, L),
   (64275, 64279, L), (64285, 64285, L), (64287, 64296, L), (64298, 64310, L), (64312, 64316, L),
   (64318, 64318, L), (64320, 64321, L), (64323, 64324, L), (64326, 64433, L), (64467, 64829, L),
   (64848, 64911, L), (64914, 64967, L), (65008, 65019, L), (65136, 65140, L), (65142, 65276, L),
   (65296, 65305, N), (65313, 65338, L), (65345, 65370, L), (65382, 65470, L), (65474, 65479, L),
   (65482, 65487, L), (65490, 65495, L), (65498, 65500, L), (65536, 65547, L), (65549, 65574, L),
   (65576, 65594, L), (65596, 65597, L), (65599, 65613, L), (65616, 65629, L), (65664, 65786, L),
   (65799, 65843, N), (65856, 65912, N), (65930, 65931, N), (66176, 66204, L), (66208, 66256, L),
   (66273, 66299, N), (66304, 66335, L), (66336, 66339, N), (66349, 66368, L), (66369, 66369, N),
   (66370, 66377, L), (66378, 66378, N), (66384, 66421, L), (66432, 66461, L), (66464, 66499, L),
   (66504, 66511, L), (66513, 66517, N), (66560, 66717, L), (66720, 66729, N), (66736, 66771, L),
   (66776, 66811, L), (66816, 66855, L), (66864, 66915, L), (66928, 66938, L), (66940, 66954, L),
   (66956, 66962, L), (66964, 66965, L), (66967, 66977, L), (66979, 66993, L), (66995, 67001, L),
   (67003, 67004, L), (67072, 67382, L), (67392, 67413, L), (67424, 67431, L), (67456, 67461, L),
   (67463, 67504, L), (67506, 67514, L), (67584, 67589, L), (67592, 67592, L), (67594, 67637, L),
   (67639, 67640, L), (67644, 67644, L), (67647, 67669, L), (67672, 67679, N), (67680, 67702, L),
   (67705, 67711, N), (67712, 67742, L), (67751, 67759, N), (67808, 67826, L), (67828, 67829, L),
   (67835, 67839, N), (67840, 67861, L), (67862, 67867, N), (67872, 67897, L), (67968, 68023, L),
   (68028, 68029, N), (68030, 68031, L), (68032, 68047, N), (68050, 68095, N), (68096, 68096, L),
   (68112, 68115, L), (68117, 68119, L), (68121, 68149, L), (68160, 68168, N), (68192, 68220, L),
   (68221, 68222, N), (68224, 68252, L), (68253, 68255, N), (68288, 68295, L), (68297, 68324, L),
   (68331, 68335, N), (68352, 68405, L), (68416, 68437, L), (68440, 68447, N), (68448, 68466, L),
   (68472, 68479, N), (68480, 68497, L), (68521, 68527, N), (68608, 68680, L), (68736, 68786, L),
   (68800, 68850, L), (68858, 68863, N), (68864, 68899, L), (68912, 68921, N), (69216, 69246, N),
   (69248, 69289, L), (69296, 69297, L), (69376, 69404, L), (69405, 69414, N), (69415, 69415, L),
   (69424, 69445, L), (69457, 69460, N), (69488, 69505, L), (69552, 69572, L), (69573, 69579, N),
   (69600, 69622, L), (69635, 69687, L), (69714, 69743, N), (69745, 69746, L), (69749, 69749, L),
   (69763, 69807, L), (69840, 69864, L), (69872, 69881, N), (69891, 69926, L), (69942, 69951, N),
   (69956, 69956, L), (69959, 69959, L), (69968, 70002, L), (70006, 70006, L), (70019, 70066, L),
   (70081, 70084, L), (70096, 70105, N), (70106, 70106, L), (70108, 70108, L), (70113, 70132, N),
   (70144, 70161, L), (70163, 70187, L), (70272, 70278, L), (70280, 70280, L), (70282, 70285, L),
   (70287, 70301, L), (70303, 70312, L), (70320, 70366, L), (70384, 70393, N), (70405, 70412, L),
   (70415, 70416, L), (70419, 70440, L), (70442, 70448, L), (70450, 70451, L), (70453, 70457, L),
   (70461, 70461, L), (70480, 70480, L), (70493, 70497, L), (70656, 70708, L), (70727, 70730, L),
   (70736, 70745, N), (70751, 70753, L), (70784, 70831, L), (70852, 70853, L), (70855, 70855, L),
   (70864, 70873, N), (71040, 71086, L), (71128, 71131, L), (71168, 71215, L), (71236, 71236, L),
   (71248, 71257, N), (71296, 71338, L), (71352, 71352, L), (71360, 71369, N), (71424, 71450, L),
   (71472, 71483, N), (71488, 71494, L), (71680, 71723, L), (71840, 71903, L), (71904, 71922, N),
   (71935, 71942, L), (71945, 71945, L), (71948, 71955, L), (71957, 71958, L), (71960, 71983, L),
   (71999, 71999, L), (72001, 72001, L), (72016, 72025, N), (72096, 72103, L), (72106, 72144, L),
   (72161, 72161, L), (72163, 72163, L), (72192, 72192, L), (72203, 72242, L), (72250, 72250, L),
   (72272, 72272, L), (72284, 72329, L), (72349, 72349, L), (72368, 72440, L), (72704, 72712, L),
   (72714, 72750, L), (72768, 72768, L), (72784, 72812, N), (72818, 72847, L), (72960, 72966, L),
   (72968, 72969, L), (72971, 73008, L), (73030, 73030, L), (73040, 73049, N), (73056, 73061, L),
   (73063, 73064, L), (73066, 73097, L), (73112, 73112, L), (73120, 73129, N), (73440, 73458, L),
   (73648, 73648, L), (73664, 73684, N), (73728, 74649, L), (74752, 74862, N), (74880, 75075, L),
   (77712, 77808, L), (77824, 78894, L), (82944, 83526, L), (92160, 92728, L), (92736, 92766, L),
   (92768, 92777, N), (92784, 92862, L), (92864, 92873, N), (92880, 92909, L), (92928, 92975, L),
   (92992, 92995, L), (93008, 93017, N), (93019, 93025, N), (93027, 93047, L), (93053, 93071, L),
   (93760, 93823, L), (93824, 93846, N), (93952, 94026, L), (94032, 94032, L), (94099, 94111, L),
   (94176, 94177, L), (94179, 94179, L), (94208, 100343, L), (100352, 101589, L),
   (101632, 101640, L), (110576, 110579, L), (110581, 110587, L), (110589, 110590, L),
   (110592, 110882, L), (110928, 110930, L), (110948, 110951, L), (110960, 111355, L),
   (113664, 113770, L), (113776, 113788, L), (113792, 113800, L), (113808, 113817, L),
   (119520, 119539, N), (119648, 119672, N), (119808, 119892, L), (119894, 119964, L),
   (119966, 119967, L), (119970, 119970, L), (119973, 119974, L), (119977, 119980, L),
   (119982, 119993, L), (119995, 119995, L), (119997, 120003, L), (120005, 120069, L),
   (120071, 120074, L), (120077, 120084, L), (120086, 120092, L), (120094, 120121, L),
   (120123, 120126, L), (120128, 120132, L), (120134, 120134, L), (120138, 120144, L),
   (120146, 120485, L), (120488, 120512, L), (120514, 120538, L), (120540, 120570, L),
   (120572, 120596, L), (120598, 120628, L), (120630, 120654, L), (120656, 120686, L),
   (120688, 120712, L), (120714, 120744, L), (120746, 120770, L), (120772, 120779, L),
   (120782, 120831, N), (122624, 122654, L), (123136, 123180, L), (123191, 123197, L),
   (123200, 123209, N), (123214, 123214, L), (123536, 123565, L), (123584, 123627, L),
   (123632, 123641, N), (124896, 124902, L), (124904, 124907, L), (124909, 124910, L),
   (124912, 124926, L), (124928, 125124, L), (125127, 125135, N), (125184, 125251, L),
   (125259, 125259, L), (125264, 125273, N), (126065, 126123, N), (126125, 126127, N),
   (126129, 126132, N), (126209, 126253, N), (126255, 126269, N), (126464, 126467, L),
   (126469, 126495, L), (126497, 126498, L), (126500, 126500, L), (126503, 126503, L),
   (126505, 126514, L), (126516, 126519, L), (126521, 126521, L), (126523, 126523, L),
   (126530, 126530, L), (126535, 126535, L), (126537, 126537, L), (126539, 126539, L),
   (126541, 126543, L), (126545, 126546, L), (126548, 126548, L), (126551, 126551, L),
   (126553, 126553, L), (126555, 126555, L), (126557, 126557, L), (126559, 126559, L),
   (126561, 126562, L), (126564, 126564, L), (126567, 126570, L), (126572, 126578, L),
   (126580, 126583, L), (126585, 126588, L), (126590, 126590, L), (126592, 126601, L),
   (126603, 126619, L), (126625, 126627, L), (126629, 126633, L), (126635, 126651, L),
   (127232, 127244, N), (130032, 130041, N), (131072, 173791, L), (173824, 177976, L),
   (177984, 178205, L), (178208, 183969, L), (183984, 191456, L), (194560, 195101, L),
   (196608, 201546, L)]

/-- The class of a code point in a table of ranges in increasing order. -/
def classIn : List (Nat × Nat × CharClass) → Nat → Option CharClass
  | [], _ => none
  | (lo, hi, k) :: rs, n =>
    if n < lo then none else if n ≤ hi then some k else classIn rs n

/-- The class `\pN`. -/
def isN (c : Char) : Bool := classIn unicodeClasses c.toNat = some CharClass.N

/-- The class `\pL`, and `unicode.IsLetter`. -/
def isL (c : Char) : Bool := classIn unicodeClasses c.toNat = some CharClass.L

/-- The test `unicode.IsLetter(rune(s[i]))` on the byte `s[i]` that ends the
UTF-8 encoding of the character `c`: the byte is `c` itself below 128 and a
continuation byte `0x80 + c mod 64` otherwise, and it is tested as the code
point of that number. -/
def isLetterByte (c : Char) : Bool :=
  isL (Char.ofNat (if c.toNat < 128 then c.toNat else 128 + c.toNat % 64))

/-- The class `[\pL\pN]`. -/
def isLN (c : Char) : Bool := isL c || isN c

/-- The function `unicode.IsSpace`: tab, line feed, vertical tab, form feed,
carriage return, space, U+0085, U+00A0, and the other characters with the
property White_Space. -/
def isSpace (c : Char) : Bool :=
  (9 ≤ c.toNat && c.toNat ≤ 13) || c.toNat = 32 || c.toNat = 0x85 || c.toNat = 0xA0 ||
    c.toNat = 0x1680 || (0x2000 ≤ c.toNat && c.toNat ≤ 0x200A) || c.toNat = 0x2028 ||
    c.toNat = 0x2029 || c.toNat = 0x202F || c.toNat = 0x205F || c.toNat = 0x3000

/-- The function `strings.TrimSpace`. -/
def TrimSpace (s : Str) : Str := ((s.dropWhile isSpace).reverse.dropWhile isSpace).reverse

/-- The function `strings.Split(s, sep)` for a one-character separator: the
pieces between the occurrences of `sep`, one more than there are occurrences. -/
def splitOn (sep : Char) : Str → List Str
  | [] => [[]]
  | c :: cs =>
    if c = sep then [] :: splitOn sep cs
    else
      match splitOn sep cs with
      | [] => [[c]]
      | h :: t => (c :: h) :: t

/-- The leftmost match: `m` gives the length of the match of a pattern anchored
at the start of a text (the one Go's leftmost-first rule prefers), and the
search tries the start offsets `i, i + 1, ...` in turn.  The result is the index
pair of `FindStringIndex`, `none` when it returns nil. -/
def leftmost (m : Str → Option Nat) : Nat → Str → Option (Nat × Nat)
  | i, [] => (m []).map fun n => (i, i + n)
  | i, c :: cs =>
    match m (c :: cs) with
    | some n => some (i, i + n)
    | none => leftmost m (i + 1) cs

/-- An anchored match of nonfuncParRe, the pattern `([\pN]*)\(`: a run of
digits, which is greedy and cannot give a digit back to match `(`, then `(`. -/
def matchNonfuncPar (s : Str) : Option Nat :=
  if (s.dropWhile isN).head? = some '(' then some ((s.takeWhile isN).length + 1) else none

/-- The call `nonfuncParRe.FindStringIndex(s)`. -/
def findNonfuncPar (s : Str) : Option (Nat × Nat) := leftmost matchNonfuncPar 0 s

/-- The call `stdfuncParRE.FindStringIndex(s)` for the pattern
`^.[\pL\pN]+\(`: it is anchored at the start of the text, `.` is any character
but a newline, then come one or more letters or digits, then `(`. -/
def findStdfuncPar (s : Str) : Option (Nat × Nat) :=
  match s with
  | [] => none
  | c :: r =>
    if c = '\n' then none
    else if r.takeWhile isLN = [] then none
    else if (r.dropWhile isLN).head? = some '(' then some (0, 1 + (r.takeWhile isLN).length + 1)
    else none

/-- An anchored match of nsfuncRE, the pattern
`([\pL]+[\pN]*){0,}\.([\pL]+[\pN]*){1,}`.  Before the dot stands a run of
letters and digits that is empty or starts with a letter; after the dot a run
of letters and digits that starts with a letter, taken whole (greedy). -/
def matchNsfunc (s : Str) : Option Nat :=
  let pre := s.takeWhile isLN
  let rest := s.dropWhile isLN
  if (pre = [] ∨ (pre.head?.map isL) = some true) ∧ rest.head? = some '.' then
    let post := rest.tail.takeWhile isLN
    if (post.head?.map isL) = some true then some (pre.length + 1 + post.length) else none
  else none

/-- The call `nsfuncRE.FindStringIndex(s)`. -/
def findNsfunc (s : Str) : Option (Nat × Nat) := leftmost matchNsfunc 0 s

/-- An anchored match of unknownRE, the pattern `([\pL]+[\pN]*){1,}`: a run of
letters and digits that starts with a letter, taken whole. -/
def matchUnknown (s : Str) : Option Nat :=
  if (s.head?.map isL) = some true then some (s.takeWhile isLN).length else none

/-- The call `unknownRE.FindStringIndex(s)`. -/
def findUnknown (s : Str) : Option (Nat × Nat) := leftmost matchUnknown 0 s

/-- An anchored match of sdFloatRE, the pattern
`([\pN]+\.[\pN]*)|([\pN]*\.[\pN]+)`: digits, a dot, digits, with at least one
digit on one side; both alternatives take every digit. -/
def matchSdFloat (s : Str) : Option Nat :=
  let d1 := s.takeWhile isN
  let rest := s.dropWhile isN
  if rest.head? = some '.' then
    let d2 := rest.tail.takeWhile isN
    if d1 ≠ [] ∨ d2 ≠ [] then some (d1.length + 1 + d2.length) else none
  else none

/-- The call `sdFloatRE.FindStringIndex(s)`. -/
def findSdFloat (s : Str) : Option (Nat × Nat) := leftmost matchSdFloat 0 s

/-- An anchored match of intRE, the pattern `[\pN]+`. -/
def matchInt (s : Str) : Option Nat :=
  if s.takeWhile isN ≠ [] then some (s.takeWhile isN).length else none

/-- The call `intRE.FindStringIndex(s)`. -/
def findInt (s : Str) : Option (Nat × Nat) := leftmost matchInt 0 s

/-- The value of a run of decimal digits. -/
def digitsValue (s : Str) : Nat := s.foldl (fun acc c => 10 * acc + (c.toNat - 48)) 0

/-- The loop of `firstParenthesisIndex` over the rest of the text: `i` is the
index reached, `ret0` is `ret[0]`, `pc` the count of open parentheses.  At the
end of the text `ret[1] = len(s)`, which is `i`. -/
def firstParenthesisLoop : Str → Nat → Int → Nat → Int × Int
  | [], i, ret0, _ => (ret0, i)
  | v :: rest, i, ret0, pc =>
    if v = '(' then
      firstParenthesisLoop rest (i + 1) (if ret0 = -1 then i else ret0) (pc + 1)
    else if v = ')' then
      if pc > 0 then
        if pc - 1 = 0 then (ret0, i + 1)
        else firstParenthesisLoop rest (i + 1) ret0 (pc - 1)
      else firstParenthesisLoop rest (i + 1) ret0 pc
    else firstParenthesisLoop rest (i + 1) ret0 pc

/-- The function `firstParenthesisIndex`. -/
def firstParenthesisIndex (s : Str) : Int × Int := firstParenthesisLoop s 0 (-1) 0

/-! ## Outcomes, tokens and tables -/

/-- The outcome of a run of Go code: `panic` is a run-time panic (here always
a slice expression whose bounds are out of range), `done a` a normal return. -/
inductive Run (α : Type) where
  | panic : Run α
  | done (a : α) : Run α
  deriving DecidableEq, Repr

/-- Sequencing of two runs: a panic ends the run. -/
def Run.bind {α β : Type} : Run α → (α → Run β) → Run β
  | Run.panic, _ => Run.panic
  | Run.done a, f => f a

/-- The result of a run mapped through a function. -/
def Run.map {α β : Type} (f : α → β) : Run α → Run β
  | Run.panic => Run.panic
  | Run.done a => Run.done (f a)

/-- The struct `pElement`: an expression (possibly nil) and `inds`, the span
`[lo, hi)` of the text it was parsed from. -/
structure PElement where
  exp : Option Expr
  lo : Nat
  hi : Nat
  deriving DecidableEq, Repr

/-- A Go `map[string]*pcalc.Expression` built by `parseArgumentString`: distinct
keys, each bound to an expression that may be nil. -/
abbrev ArgMap := List (Str × Option Expr)

/-- The test `_, e := m[k]; e`. -/
def ArgMap.hasKey (m : ArgMap) (k : Str) : Bool := m.any fun p => p.1 == k

/-- The assignment `m[k] = v`. -/
def ArgMap.assign (m : ArgMap) (k : Str) (v : Option Expr) : ArgMap :=
  if m.hasKey k then m.map fun p => if p.1 == k then (k, v) else p
  else m ++ [(k, v)]

/-- The read `m[k]` with its presence flag. -/
def ArgMap.get (m : ArgMap) (k : Str) : Option (Option Expr) := m.lookup k

/-- One of the global tables: a map from names to non-nil expressions. -/
abbrev Table := List (Str × Expr)

/-- The five global maps of `CalcShell.go`. -/
structure Tables where
  mathematicalConstants : Table
  chemicalConstants : Table
  physicalConstants : Table
  userVars : Table
  standardFuncs : Table
  deriving DecidableEq, Repr

/-- A pointer to one of the five global maps. -/
inductive Namespace where
  | mathematicalConstants
  | chemicalConstants
  | physicalConstants
  | userVars
  | standardFuncs
  deriving DecidableEq, Repr

/-- The variable `selectedNamespace`, which is `&userVars` and never assigned. -/
def selectedNamespace : Namespace := Namespace.userVars

/-- The map a namespace pointer designates. -/
def Tables.table (T : Tables) : Namespace → Table
  | Namespace.mathematicalConstants => T.mathematicalConstants
  | Namespace.chemicalConstants => T.chemicalConstants
  | Namespace.physicalConstants => T.physicalConstants
  | Namespace.userVars => T.userVars
  | Namespace.standardFuncs => T.standardFuncs

/-- The occurrences of free variables of a tree, left to right. -/
def unknownOccurrences : Expr → List Str
  | Expr.const _ => []
  | Expr.unknown x => [x]
  | Expr.group e => unknownOccurrences e
  | Expr.neg e => unknownOccurrences e
  | Expr.pow a b => unknownOccurrences a ++ unknownOccurrences b
  | Expr.mul a b => unknownOccurrences a ++ unknownOccurrences b
  | Expr.div a b => unknownOccurrences a ++ unknownOccurrences b
  | Expr.add a b => unknownOccurrences a ++ unknownOccurrences b
  | Expr.sub a b => unknownOccurrences a ++ unknownOccurrences b
  | Expr.ln e => unknownOccurrences e
  | Expr.lg e => unknownOccurrences e

/-- A list without its repetitions, every name at its first occurrence. -/
def firstOccurrences : List Str → List Str
  | [] => []
  | x :: xs => x :: (firstOccurrences xs).filter fun y => y ≠ x

/-- Modelled from the spec: `Expression.ListUnknowns`, missing from the
sources: the free-variable names of the tree, without repetition, in the order
of first appearance in a left-to-right walk (spec §4.2). -/
def ListUnknowns (e : Expr) : List Str := firstOccurrences (unknownOccurrences e)

/-- Modelled from the spec: `Expression.Call`, missing from the sources: the
receiver with every free variable that is a key of the bindings replaced by the
expression bound to it, the other variables left free (spec §4.2); a variable
replaced by a missing expression makes the result missing (spec §3). -/
def Call (m : ArgMap) : Expr → Option Expr
  | Expr.const n => some (Expr.const n)
  | Expr.unknown x =>
    match m.get x with
    | some v => v
    | none => some (Expr.unknown x)
  | Expr.group e => ParenthesisEnclosedExpression (Call m e)
  | Expr.neg e => SignInvertedExpression (Call m e)
  | Expr.pow a b => RaiseExpressionToPower (Call m a) (Call m b)
  | Expr.mul a b => MultiplyExpressions (Call m a) (Call m b)
  | Expr.div a b => DivideExpressions (Call m a) (Call m b)
  | Expr.add a b => AddExpressions (Call m a) (Call m b)
  | Expr.sub a b => SubtractExpressions (Call m a) (Call m b)
  | Expr.ln e => NaturalLogarithmOfExpression (Call m e)
  | Expr.lg e => DecimalLogarithmOfExpression (Call m e)

/-- The function `setupConstantExps`: the tables after start-up.  A float
constant of the Go source is given by its decimal digits. -/
def setupConstantExps : Tables where
  standardFuncs :=
    [("ln".toList, Expr.ln (Expr.unknown "a".toList)),
     ("lg".toList, Expr.lg (Expr.unknown "a".toList))]
  chemicalConstants :=
    [("R".toList, Expr.const (MakeSDFloat 83144 4 5)),
     ("r".toList, Expr.const (MakeSDFloat 83144 4 5)),
     ("F".toList, Expr.const (MakeSDFloat 9648533 2 7)),
     ("f".toList, Expr.const (MakeSDFloat 9648533 2 7))]
  physicalConstants :=
    [("C".toList, Expr.const (MakeSDFloat 299792458 0 9)),
     ("c".toList, Expr.const (MakeSDFloat 299792458 0 9)),
     ("G".toList, Expr.const (MakeSDFloat 980665 5 6)),
     ("g".toList, Expr.const (MakeSDFloat 980665 5 6))]
  mathematicalConstants :=
    [("pi".toList, Expr.const (MakeSDFloat 3141592653589793 15 15)),
     ("e".toList, Expr.const (MakeSDFloat 2718281828459045 15 15))]
  userVars := []

/-! ## Name resolution and argument binding -/

/-- The function `parseVarName`: the namespace pointer (nil is `none`) and the
key. -/
def parseVarName (s : Str) : Option Namespace × Str :=
  let fields := splitOn '.' (TrimSpace s)
  if fields.length = 1 then
    (some Namespace.standardFuncs, fields.getD 0 [])
  else if fields.length = 2 then
    let f0 := fields.getD 0 []
    let ns :=
      if f0 = [] then some selectedNamespace
      else if f0 = ['u'] then some Namespace.userVars
      else if f0 = ['m'] then some Namespace.mathematicalConstants
      else if f0 = ['c'] then some Namespace.chemicalConstants
      else if f0 = ['p'] then some Namespace.physicalConstants
      else none
    (ns, fields.getD 1 [])
  else (none, [])

/-- The first loop of `parseArgumentString` over the remaining `fields`: the
entries with one `=`.  The flag is true when the loop left the function through
`return &ret` (more than one `=` in an entry). -/
def namedLoop (parse : Str → Run (Option Expr)) (unknowns : List Str) :
    List Str → ArgMap → Run (ArgMap × Bool)
  | [], ret => Run.done (ret, false)
  | v :: vs, ret =>
    let subF := splitOn '=' v
    if subF.length = 2 then
      let k := TrimSpace (subF.getD 0 [])
      if unknowns.contains k then
        match parse (TrimSpace (subF.getD 1 [])) with
        | Run.panic => Run.panic
        | Run.done e => namedLoop parse unknowns vs (ret.assign k e)
      else namedLoop parse unknowns vs ret
    else if subF.length > 2 then Run.done (ret, true)
    else namedLoop parse unknowns vs ret

/-- The second loop of `parseArgumentString` over the remaining `fields`: the
entries without `=`, each bound to the first name of `unknowns` that is not yet
a key. -/
def positionalLoop (parse : Str → Run (Option Expr)) (unknowns : List Str) :
    List Str → ArgMap → Run ArgMap
  | [], ret => Run.done ret
  | v :: vs, ret =>
    if ret.length ≥ unknowns.length then Run.done ret
    else if ¬ v.contains '=' then
      match unknowns.find? (fun u => ¬ ret.hasKey u) with
      | some u =>
        match parse (TrimSpace v) with
        | Run.panic => Run.panic
        | Run.done e => positionalLoop parse unknowns vs (ret.assign u e)
      | none => positionalLoop parse unknowns vs ret
    else positionalLoop parse unknowns vs ret

/-- The function `parseArgumentString`; `parse` is `parseExpression`. -/
def parseArgumentString (parse : Str → Run (Option Expr)) (s : Str) (unknowns : List Str) :
    Run ArgMap :=
  let fields := splitOn ',' s
  match namedLoop parse unknowns fields [] with
  | Run.panic => Run.panic
  | Run.done (ret, true) => Run.done ret
  | Run.done (ret, false) => positionalLoop parse unknowns fields ret

/-! ## The precedence cascade: the six stage functions -/

/-- The call `strconv.ParseInt(lit, 10, 64)` on a match of `[\pN]+` followed by
the two builders, as in `parseIntExpressions`: nil when a character is not one
of the digits `0` to `9`, or the value does not fit a signed 64-bit integer. -/
def intExpression (lit : Str) : Option Expr :=
  if lit.all Char.isDigit = true ∧ digitsValue lit < 2 ^ 63 then
    NewExpressionWithConstant (MakeFraction (digitsValue lit) 1)
  else none

/-- The call `strconv.ParseFloat(lit, 64)` on a match of sdFloatRE (characters
of `\pN` with one dot), followed by `MakeSDFloat(in, uint8(ind[1]-ind[0]-1))`
and the constant builder, as in `parseFloatExpressions`.  `ParseFloat` fails
when a character is neither the dot nor one of the digits `0` to `9`.
Otherwise the literal denotes `m / 10 ^ k` with `m` its digits and `k` the
number of digits after the dot, and `ParseFloat` fails when that value rounds
to infinity, that is from `2 ^ 1024 - 2 ^ 970` on.  The literal is ASCII
when the call succeeds, so its length in bytes is its length. -/
def floatExpression (lit : Str) : Option Expr :=
  let m := digitsValue (lit.filter isN)
  let k := ((lit.dropWhile isN).tail).length
  if lit.all (fun c => c.isDigit || c = '.') = true ∧ m < (2 ^ 1024 - 2 ^ 970) * 10 ^ k then
    NewExpressionWithConstant (MakeSDFloat m k ((lit.length - 1) % 256))
  else none

/-- The function `parseIntExpressions`; `fuel` bounds the depth of the
recursion on the text after a match. -/
def parseIntExpressionsAux : Nat → Str → Nat → List PElement
  | 0, _, _ => []
  | fuel + 1, s, starti =>
    match findInt s with
    | none => []
    | some (i0, i1) =>
      (if i0 < i1 then
        [{ exp := intExpression (slice s i0 i1), lo := starti + i0, hi := starti + i1 }]
       else []) ++
      (if i1 < s.length then parseIntExpressionsAux fuel (s.drop i1) (starti + i1) else [])

/-- The function `parseIntExpressions` (stage 6). -/
def parseIntExpressions (s : Str) (starti : Nat) : List PElement :=
  parseIntExpressionsAux (s.length + 1) s starti

/-- The function `parseFloatExpressions`, with fuel for its recursion. -/
def parseFloatExpressionsAux : Nat → Str → Nat → List PElement
  | 0, _, _ => []
  | fuel + 1, s, starti =>
    match findSdFloat s with
    | none => parseIntExpressions s starti
    | some (i0, i1) =>
      (if i0 > 0 then parseIntExpressions (s.take i0) starti else []) ++
      (if i0 < i1 then
        [{ exp := floatExpression (slice s i0 i1), lo := starti + i0, hi := starti + i1 }]
       else []) ++
      (if i1 < s.length then parseFloatExpressionsAux fuel (s.drop i1) (starti + i1) else [])

/-- The function `parseFloatExpressions` (stage 5). -/
def parseFloatExpressions (s : Str) (starti : Nat) : List PElement :=
  parseFloatExpressionsAux (s.length + 1) s starti

/-- The function `parseUnknownExpressions`, with fuel for its recursion. -/
def parseUnknownExpressionsAux : Nat → Str → Nat → List PElement
  | 0, _, _ => []
  | fuel + 1, s, starti =>
    match findUnknown s with
    | none => parseFloatExpressions s starti
    | some (i0, i1) =>
      (if i0 > 0 then parseFloatExpressions (s.take i0) starti else []) ++
      (if i0 < i1 then
        [{ exp := NewExpressionWithUnknown (slice s i0 i1), lo := starti + i0, hi := starti + i1 }]
       else []) ++
      (if i1 < s.length then parseUnknownExpressionsAux fuel (s.drop i1) (starti + i1) else [])

/-- The function `parseUnknownExpressions` (stage 4). -/
def parseUnknownExpressions (s : Str) (starti : Nat) : List PElement :=
  parseUnknownExpressionsAux (s.length + 1) s starti

/-- The argument map of a call whose parenthesis has the index pair
`(p0, p1)` in `s`: empty when nothing stands between the parentheses, else
`parseArgumentString` of that text. -/
def callArguments (parse : Str → Run (Option Expr)) (s : Str) (p0 p1 : Nat) (exp : Expr) :
    Run ArgMap :=
  if p0 + 1 ≥ p1 - 1 then Run.done []
  else parseArgumentString parse (slice s (p0 + 1) (p1 - 1)) (ListUnknowns exp)

/-- The block of `parseNonStandardExpression` that builds the token of the
match `(i0, i1)`: the expression and `pInd[1]`. -/
def nonStandardToken (T : Tables) (parse : Str → Run (Option Expr)) (s : Str) (i0 i1 : Nat) :
    Run (Option Expr × Nat) :=
  match parseVarName (slice s i0 i1) with
  | (none, _) => Run.done (none, i1)
  | (some ns, key) =>
    match (T.table ns).lookup key with
    | none => Run.done (none, i1)
    | some exp =>
      if i1 < s.length ∧ s.getD i1 ' ' = '(' then
        let p := firstParenthesisIndex (s.drop i1)
        let p0 := (p.1 + i1).toNat
        let p1 := (p.2 + i1).toNat
        match callArguments parse s p0 p1 exp with
        | Run.panic => Run.panic
        | Run.done argmap => Run.done (Call argmap exp, p1)
      else Run.done (some exp, i1)

/-- The function `parseNonStandardExpression`, with fuel for its recursion. -/
def parseNonStandardExpressionAux (T : Tables) (parse : Str → Run (Option Expr)) :
    Nat → Str → Nat → Run (List PElement)
  | 0, _, _ => Run.done []
  | fuel + 1, s, starti =>
    match findNsfunc s with
    | none => Run.done (parseUnknownExpressions s starti)
    | some (i0, i1) =>
      let before := if i0 > 0 then parseUnknownExpressions (s.take i0) starti else []
      (if i0 < i1 then
        (nonStandardToken T parse s i0 i1).map fun r =>
          (([{ exp := r.1, lo := starti + i0, hi := starti + r.2 }] : List PElement), r.2)
       else Run.done ([], i1)).bind fun tok =>
      (if tok.2 < s.length then
        parseNonStandardExpressionAux T parse fuel (s.drop i1) (starti + i1)
       else Run.done []).bind fun after =>
      Run.done (before ++ tok.1 ++ after)

/-- The function `parseNonStandardExpression` (stage 3). -/
def parseNonStandardExpression (T : Tables) (parse : Str → Run (Option Expr)) (s : Str)
    (starti : Nat) : Run (List PElement) :=
  parseNonStandardExpressionAux T parse (s.length + 1) s starti

/-- The block of `parseStandardExpressions` that builds the expression of the
call whose name is `s[i0:i1]` and whose parenthesis has the index pair
`(p0, p1)`. -/
def standardToken (T : Tables) (parse : Str → Run (Option Expr)) (s : Str) (i0 i1 p0 p1 : Nat) :
    Run (Option Expr) :=
  match T.standardFuncs.lookup (parseVarName (slice s i0 i1)).2 with
  | none => Run.done none
  | some exp =>
    match callArguments parse s p0 p1 exp with
    | Run.panic => Run.panic
    | Run.done argmap => Run.done (Call argmap exp)

/-- The function `parseStandardExpressions`, with fuel for its recursion. -/
def parseStandardExpressionsAux (T : Tables) (parse : Str → Run (Option Expr)) :
    Nat → Str → Nat → Run (List PElement)
  | 0, _, _ => Run.done []
  | fuel + 1, s, starti =>
    match findStdfuncPar s with
    | none => parseNonStandardExpression T parse s starti
    | some (i0, e1) =>
      let i1 := e1 - 1
      let p := firstParenthesisIndex (s.drop i1)
      let p0 := (p.1 + i1).toNat
      let p1 := (p.2 + i1).toNat
      (if i0 > 0 then parseNonStandardExpression T parse (s.take i0) starti
       else Run.done []).bind fun before =>
      (if i0 < i1 then
        (standardToken T parse s i0 i1 p0 p1).map fun exp =>
          ([{ exp := exp, lo := starti + i0, hi := starti + p1 }] : List PElement)
       else Run.done []).bind fun tok =>
      (if p1 < s.length then
        parseStandardExpressionsAux T parse fuel (s.drop i1) (starti + i1)
       else Run.done []).bind fun after =>
      Run.done (before ++ tok ++ after)

/-- The function `parseStandardExpressions` (stage 2). -/
def parseStandardExpressions (T : Tables) (parse : Str → Run (Option Expr)) (s : Str)
    (starti : Nat) : Run (List PElement) :=
  parseStandardExpressionsAux T parse (s.length + 1) s starti

/-- The function `parseParenthesisEnclosedExpressions`, with fuel for its
recursion; `parse` is `parseExpression`. -/
def parseParenthesisEnclosedExpressionsAux (T : Tables) (parse : Str → Run (Option Expr)) :
    Nat → Str → Nat → Run (List PElement)
  | 0, _, _ => Run.done []
  | fuel + 1, s, starti =>
    match findNonfuncPar s with
    | none => parseStandardExpressions T parse s starti
    | some (i0, _) =>
      if i0 ≠ 0 ∧ isLetterByte (s.getD (i0 - 1) ' ') then parseStandardExpressions T parse s starti
      else
        let p := firstParenthesisIndex (s.drop i0)
        let ind0 := (p.1 + i0).toNat
        let ind1 := (p.2 + i0).toNat
        (if ind0 > 0 then parseStandardExpressions T parse (s.take ind0) starti
         else Run.done []).bind fun before =>
        (if ind0 < ind1 then
          (if ind0 + 1 ≥ ind1 - 1 then Run.done none
           else parse (slice s (ind0 + 1) (ind1 - 1))).map fun exp =>
            ([{ exp := ParenthesisEnclosedExpression exp,
                lo := starti + ind0, hi := starti + ind1 }] : List PElement)
         else Run.done []).bind fun tok =>
        (if ind1 < s.length then
          parseParenthesisEnclosedExpressionsAux T parse fuel (s.drop ind1) (starti + ind1)
         else Run.done []).bind fun after =>
        Run.done (before ++ tok ++ after)

/-- The function `parseParenthesisEnclosedExpressions` (stage 1). -/
def parseParenthesisEnclosedExpressions (T : Tables) (parse : Str → Run (Option Expr))
    (s : Str) (starti : Nat) : Run (List PElement) :=
  parseParenthesisEnclosedExpressionsAux T parse (s.length + 1) s starti

/-! ## `parseExpression` -/

/-- The loop `for i = range values { opStrings[i] = s[lasti:values[i].inds[0]];
lasti = values[i].inds[1] }`.  The slice expression panics unless
`lasti ≤ inds[0] ≤ len(s)`. -/
def opStrings (s : Str) : Nat → List PElement → Run (List Str)
  | _, [] => Run.done []
  | lasti, v :: vs =>
    if lasti ≤ v.lo ∧ v.lo ≤ s.length then
      (opStrings s v.hi vs).map fun rest => slice s lasti v.lo :: rest
    else Run.panic

/-- The body of `parseExpression`, with `parse` for its recursive calls (on the
text inside a parenthesis and on the arguments of a call). -/
def parseExpressionBody (T : Tables) (parse : Str → Run (Option Expr)) (s : Str) :
    Run (Option Expr) :=
  (parseParenthesisEnclosedExpressions T parse s 0).bind fun values =>
  (opStrings s 0 values).bind fun ops =>
  match resolveOperators 0 ops with
  | none => Run.done none
  | some operators => Run.done (reduceExpression (values.map fun v => v.exp) operators)

/-- The function `parseExpression`, under the tables `T`.  Its recursive calls
are on texts strictly shorter than `s` (the inside of a parenthesis, an
argument of a call), which is what the guard states: the body consults `parse`
on shorter texts only (`parseExpressionBody_congr`). -/
def parseExpression (T : Tables) (s : Str) : Run (Option Expr) :=
  parseExpressionBody T
    (fun t => if _h : t.length < s.length then parseExpression T t else Run.done none) s
termination_by s.length

/-- The function `parseExpression` computed with a bound `n` on the depth of
its recursive calls; it agrees with `parseExpression` once `n` exceeds the
length of the text (`parseExpression_eq_fuel`). -/
def parseExpressionFuel (T : Tables) : Nat → Str → Run (Option Expr)
  | 0 => fun _ => Run.done none
  | n + 1 => fun s => parseExpressionBody T (parseExpressionFuel T n) s

/-! ## `parseLine` -/

/-- The function `strings.Index`: the index of the first occurrence of `sub`
in the text, `none` for -1. -/
def strIndex (sub : Str) : Str → Option Nat
  | [] => if sub = [] then some 0 else none
  | c :: cs =>
    if sub.isPrefixOf (c :: cs) then some 0 else (strIndex sub cs).map fun i => i + 1

/-- The assignment `m[k] = v` on one of the global tables. -/
def Table.assign (t : Table) (k : Str) (v : Expr) : Table :=
  if t.any (fun p => p.1 == k) then t.map fun p => if p.1 == k then (k, v) else p
  else t ++ [(k, v)]

/-- The body of `parseLine`, with `parse` for `parseExpression`: the tables
after the line, and the outcome of the run (`done true` when the line asks to
leave the program).  What the function prints is not modelled.  The only
statement that writes a table is `userVars[key] = exp`; it comes after the
call of `parseExpression`, so a run that panics leaves the tables as they
were.  The index expression `s[ind+5]` panics unless `ind+5 < len(s)`. -/
def parseLineBody (parse : Str → Run (Option Expr)) (T : Tables) (line : Str) :
    Tables × Run Bool :=
  let s := TrimSpace line
  if s.length ≥ 4 ∧ slice s 0 4 = "exit".toList then (T, Run.done true)
  else
    match strIndex "list ".toList s with
    | some ind => if ind + 5 < s.length then (T, Run.done false) else (T, Run.panic)
    | none =>
      match strIndex "<<".toList s with
      | some ind =>
        match parse (s.drop (ind + 2)) with
        | Run.panic => (T, Run.panic)
        | Run.done none => (T, Run.done false)
        | Run.done (some exp) =>
          ({ T with userVars := Table.assign T.userVars (parseVarName (s.take ind)).2 exp },
            Run.done false)
      | none =>
        match parse s with
        | Run.panic => (T, Run.panic)
        | Run.done _ => (T, Run.done false)

/-- The function `parseLine`, under the tables `T`. -/
def parseLine (T : Tables) (line : Str) : Tables × Run Bool :=
  parseLineBody (parseExpression T) T line

/-! ## Evaluation of exact expressions (package `pcalc`) -/

/-- Modelled from the spec: `Expression.Value`, missing from the sources, on
the exact fragment: the rational number when the value is `Exact`, and `none`
when the value is missing or is a `Measured` number (floating point is not
modelled).  Exact arithmetic is ordinary rational arithmetic, division by zero
fails (spec §4.1), a free variable has no value (spec §4.2), a logarithm is
never exact.  A power is taken with an integer exponent; the specification does
not fix the value for another exponent, and none is given. -/
def exactValue : Expr → Option ℚ
  | Expr.const (Number.fraction n d) => if d = 0 then none else some ((n : ℚ) / (d : ℚ))
  | Expr.const (Number.sdFloat _ _ _) => none
  | Expr.unknown _ => none
  | Expr.group e => exactValue e
  | Expr.neg e => (exactValue e).map fun x => -x
  | Expr.pow a b =>
    match exactValue a, exactValue b with
    | some x, some y =>
      if y.den = 1 then
        if 0 ≤ y.num then some (x ^ y.num.toNat)
        else if x = 0 then none
        else some ((1 / x) ^ (-y.num).toNat)
      else none
    | _, _ => none
  | Expr.mul a b =>
    match exactValue a, exactValue b with
    | some x, some y => some (x * y)
    | _, _ => none
  | Expr.div a b =>
    match exactValue a, exactValue b with
    | some x, some y => if y = 0 then none else some (x / y)
    | _, _ => none
  | Expr.add a b =>
    match exactValue a, exactValue b with
    | some x, some y => some (x + y)
    | _, _ => none
  | Expr.sub a b =>
    match exactValue a, exactValue b with
    | some x, some y => some (x - y)
    | _, _ => none
  | Expr.ln _ => none
  | Expr.lg _ => none

/-! ## The reference parse: three tiers, each associating to the left -/

/-- A sequence: a first item followed by (operator code, item) pairs. -/
abbrev Chain (α : Type) := α × List (Int × α)

/-- A sequence cut at the operators that satisfy `sep`: the segment before the
first such operator, then each such operator with the segment that follows
it.  A segment is itself a sequence, with the operators that do not satisfy
`sep`. -/
def segments {α : Type} (sep : Int → Bool) : α → List (Int × α) → Chain (Chain α)
  | a, [] => ((a, []), [])
  | a, (o, e) :: r =>
    if sep o then ((a, []), (o, (segments sep e r).1) :: (segments sep e r).2)
    else ((a, (o, e) :: (segments sep e r).1.2), (segments sep e r).2)

/-- The add/subtract tier. -/
def isAddSub (o : Int) : Bool := o = o_add || o = o_sub

/-- The multiply/divide tier. -/
def isMulDiv (o : Int) : Bool := o = o_mul || o = o_nmul || o = o_div || o = o_ndiv

/-- The power tier. -/
def isPower (o : Int) : Bool := o = o_pow || o = o_npow

/-- One of the eight operator codes. -/
def isOperator (o : Int) : Bool := isPower o || isMulDiv o || isAddSub o

/-- A power applied to what stands on its left: the negated variant inverts the
sign of the single token on its right. -/
def powerOf (acc : Option Expr) (o : Int) (t : Option Expr) : Option Expr :=
  if o = o_npow then RaiseExpressionToPower acc (SignInvertedExpression t)
  else RaiseExpressionToPower acc t

/-- A product or quotient applied to what stands on its left: a negated variant
inverts the sign of the whole operand on its right. -/
def productOf (acc : Option Expr) (o : Int) (t : Option Expr) : Option Expr :=
  if o = o_mul then MultiplyExpressions acc t
  else if o = o_nmul then MultiplyExpressions acc (SignInvertedExpression t)
  else if o = o_div then DivideExpressions acc t
  else DivideExpressions acc (SignInvertedExpression t)

/-- A sum or difference applied to what stands on its left. -/
def sumOf (acc : Option Expr) (o : Int) (t : Option Expr) : Option Expr :=
  if o = o_add then AddExpressions acc t else SubtractExpressions acc t

/-- The tightest tier: a token followed by powers, folded from the left. -/
def referencePower (c : Chain (Option Expr)) : Option Expr :=
  c.2.foldl (fun acc p => powerOf acc p.1 p.2) c.1

/-- The middle tier: a segment without add/subtract is cut at its
multiply/divide operators into power chains, and these are folded from the
left. -/
def referenceTerm (c : Chain (Option Expr)) : Option Expr :=
  (segments isMulDiv c.1 c.2).2.foldl (fun acc p => productOf acc p.1 (referencePower p.2))
    (referencePower (segments isMulDiv c.1 c.2).1)

/-- The terms after the first, folded from the left onto `first`. -/
def referenceSum (first : Option Expr) (terms : List (Int × Chain (Option Expr))) :
    Option Expr :=
  terms.foldl (fun acc p => sumOf acc p.1 (referenceTerm p.2)) first

/-- The reference parse of the token `t0` followed by the (operator, token)
pairs `rest`: the sequence is cut at its add/subtract operators into terms, and
the terms are folded from the left. -/
def referenceParse (t0 : Option Expr) (rest : List (Int × Option Expr)) : Option Expr :=
  referenceSum (referenceTerm (segments isAddSub t0 rest).1) (segments isAddSub t0 rest).2

/-! ## Reference definitions for the operator resolver -/

/-- The plain code of a base operator character. -/
def plainCode (b : Char) : Int :=
  if b = '^' then o_pow
  else if b = '*' then o_mul
  else if b = '/' then o_div
  else if b = '+' then o_add
  else o_sub

/-- The counterpart of an operator code: power and negated power, multiply and
negated multiply, divide and negated divide, add and subtract. -/
def counterpart (o : Int) : Int :=
  if o = o_pow then o_npow
  else if o = o_npow then o_pow
  else if o = o_mul then o_nmul
  else if o = o_nmul then o_mul
  else if o = o_div then o_ndiv
  else if o = o_ndiv then o_div
  else if o = o_add then o_sub
  else if o = o_sub then o_add
  else o

/-- The five base operator characters. -/
def baseOperators : List Char := ['^', '*', '/', '+', '-']

/-- A text without its spaces. -/
def withoutSpaces (v : Str) : Str := v.filter fun c => c ≠ ' '

/-! ## Properly nested parentheses -/

/-- The text closes exactly the `depth` parentheses that are open before it and
never closes one that is not open. -/
def nested : Str → Nat → Bool
  | [], depth => depth = 0
  | c :: cs, depth =>
    if c = '(' then nested cs (depth + 1)
    else if c = ')' then (0 < depth) && nested cs (depth - 1)
    else nested cs depth

/-- The parentheses of the text are properly nested. -/
def properlyNested (t : Str) : Bool := nested t 0

/-! ## Reference definition of argument binding -/

/-- The common shape of the three loops of the reducer: `hit` selects the
operator codes the loop collapses, `comb` builds the combination. -/
def passLoop (hit : Int → Bool) (comb : Int → Option Expr → Option Expr → Option Expr) :
    Nat → Nat → List (Option Expr) → List Int → List (Option Expr) × List Int
  | 0, _, exps, operators => (exps, operators)
  | fuel + 1, i, exps, operators =>
    if i < operators.length then
      if hit (operators.getD i o_inv) then
        passLoop hit comb fuel i
          ((removeAt exps i).set (i - 1)
            (comb (operators.getD i o_inv) (exps.getD (i - 1) none) (exps.getD i none)))
          (removeAt operators i)
      else passLoop hit comb fuel (i + 1) exps operators
    else (exps, operators)

/-- One pass over a sequence: every operator that satisfies `hit` is collapsed
into the item on its left. -/
def collapse (hit : Int → Bool) (comb : Int → Option Expr → Option Expr → Option Expr) :
    Option Expr → List (Int × Option Expr) → Chain (Option Expr)
  | a, [] => (a, [])
  | a, (o, e) :: r =>
    if hit o then collapse hit comb (comb o a e) r
    else (a, (o, (collapse hit comb e r).1) :: (collapse hit comb e r).2)

/-- The combination built by the `//^ loop`. -/
def combPow (v : Int) (a b : Option Expr) : Option Expr :=
  if v = o_pow then RaiseExpressionToPower a b
  else RaiseExpressionToPower a (SignInvertedExpression b)

/-- The combination built by the `//*/ loop`. -/
def combMul (v : Int) (a b : Option Expr) : Option Expr :=
  if v = o_mul then MultiplyExpressions a b
  else if v = o_nmul then MultiplyExpressions a (SignInvertedExpression b)
  else if v = o_div then DivideExpressions a b
  else if v = o_ndiv then DivideExpressions a (SignInvertedExpression b)
  else none

/-- The combination built by the `//+- loop`. -/
def combAdd (v : Int) (a b : Option Expr) : Option Expr :=
  if v = o_add then AddExpressions a b else SubtractExpressions a b

/-- A function applied to every item of a sequence. -/
def Chain.map {α β : Type} (f : α → β) (c : Chain α) : Chain β :=
  (f c.1, c.2.map fun p => (p.1, f p.2))

/-- A sequence folded from the left. -/
def Chain.fold (comb : Int → Option Expr → Option Expr → Option Expr)
    (c : Chain (Option Expr)) : Option Expr :=
  c.2.foldl (fun acc p => comb p.1 acc p.2) c.1

/-- The result of the power pass followed by the multiply/divide pass. -/
def termsOf (t0 : Option Expr) (rest : List (Int × Option Expr)) : Chain (Option Expr) :=
  collapse isMulDiv combMul (collapse isPower combPow t0 rest).1
    (collapse isPower combPow t0 rest).2

/-! ## Auxiliary definitions for the proofs about argument binding -/

/-- The table a namespace prefix selects: the empty prefix and `u` the user
variables, `m`, `c` and `p` the three tables of constants; no other prefix
selects a table. -/
def prefixNamespace (p : Str) : Option Namespace :=
  if p = [] ∨ p = ['u'] then some Namespace.userVars
  else if p = ['m'] then some Namespace.mathematicalConstants
  else if p = ['c'] then some Namespace.chemicalConstants
  else if p = ['p'] then some Namespace.physicalConstants
  else none

/-! ## Reference definitions for the reducer's use of its tokens -/

/-- The expression is assembled from the tokens of the list: every token of
the list is an operand of it exactly once, in the order of the list, under
sign inversions and the five binary builders. -/
inductive Assembles : List Expr → Expr → Prop
  | token (e : Expr) : Assembles [e] e
  | neg {l : List Expr} {e : Expr} : Assembles l e → Assembles l (Expr.neg e)
  | pow {l1 l2 : List Expr} {a b : Expr} :
    Assembles l1 a → Assembles l2 b → Assembles (l1 ++ l2) (Expr.pow a b)
  | mul {l1 l2 : List Expr} {a b : Expr} :
    Assembles l1 a → Assembles l2 b → Assembles (l1 ++ l2) (Expr.mul a b)
  | div {l1 l2 : List Expr} {a b : Expr} :
    Assembles l1 a → Assembles l2 b → Assembles (l1 ++ l2) (Expr.div a b)
  | add {l1 l2 : List Expr} {a b : Expr} :
    Assembles l1 a → Assembles l2 b → Assembles (l1 ++ l2) (Expr.add a b)
  | sub {l1 l2 : List Expr} {a b : Expr} :
    Assembles l1 a → Assembles l2 b → Assembles (l1 ++ l2) (Expr.sub a b)

/-- Every item of the sequence is assembled from its own stretch of the token
list, the stretches in the order of the items. -/
inductive AssemblesAll : List Expr → List (Int × Option Expr) → Prop
  | nil : AssemblesAll [] []
  | cons {l L : List Expr} {e : Expr} {r : List (Int × Option Expr)} (o : Int) :
    Assembles l e → AssemblesAll L r → AssemblesAll (l ++ L) ((o, some e) :: r)

/-- The number of rounds of a loop of the reducer that build a combination
(the rounds that do not take the `continue` branch); the loop is given by the
operator codes `hit` it collapses, and its course depends on the operator list
only. -/
def passLoopCount (hit : Int → Bool) : Nat → Nat → List Int → Nat
  | 0, _, _ => 0
  | fuel + 1, i, operators =>
    if i < operators.length then
      if hit (operators.getD i o_inv) then passLoopCount hit fuel i (removeAt operators i) + 1
      else passLoopCount hit fuel (i + 1) operators
    else 0

/-- The lists `exps` and `operators` after the three loops of the reducer. -/
def reducePasses (exps : List (Option Expr)) (operators : List Int) :
    List (Option Expr) × List Int :=
  let r1 := powLoop operators.length 1 exps operators
  let r2 := mulLoop r1.2.length 1 r1.1 r1.2
  addLoop r2.2.length 1 (leadingSign r2.1 r2.2) r2.2

/-- The number of combinations the three loops of the reducer build. -/
def combinations (exps : List (Option Expr)) (operators : List Int) : Nat :=
  let r1 := powLoop operators.length 1 exps operators
  let r2 := mulLoop r1.2.length 1 r1.1 r1.2
  passLoopCount isPower operators.length 1 operators +
    passLoopCount isMulDiv r1.2.length 1 r1.2 +
    passLoopCount isAddSub r2.2.length 1 r2.2

/-- The three loops of the reducer, each given `fuel` rounds. -/
def reducePassesFuel (fuel : Nat) (exps : List (Option Expr)) (operators : List Int) :
    List (Option Expr) × List Int :=
  let r1 := powLoop fuel 1 exps operators
  let r2 := mulLoop fuel 1 r1.1 r1.2
  addLoop fuel 1 (leadingSign r2.1 r2.2) r2.2

/-! ## Reference definitions for identifiers -/

/-- An identifier: a letter followed by letters and digits (a text that
`unknownRE` matches whole). -/
def isIdentifier (x : Str) : Bool := (x.head?.map isL = some true) && x.all isLN

section Reducer

theorem powLoop_eq_passLoop (fuel i : Nat) (exps : List (Option Expr)) (ops : List Int) :
    powLoop fuel i exps ops = passLoop isPower combPow fuel i exps ops := by
  induction fuel generalizing i exps ops with
  | zero => rfl
  | succ n ih =>
    rw [powLoop, passLoop]
    simp only [ih]
    generalize ops.getD i o_inv = v
    by_cases h1 : i < ops.length
    · by_cases h2 : v = o_pow ∨ v = o_npow
      · have h3 : isPower v = true := by simpa [isPower] using h2
        simp only [if_pos h1, h2, not_true_eq_false, if_false, h3, if_true, combPow]
      · have h3 : isPower v = false := by simpa [isPower] using h2
        simp [h1, h2, h3]
    · simp only [if_neg h1]

theorem mulLoop_eq_passLoop (fuel i : Nat) (exps : List (Option Expr)) (ops : List Int) :
    mulLoop fuel i exps ops = passLoop isMulDiv combMul fuel i exps ops := by
  induction fuel generalizing i exps ops with
  | zero => rfl
  | succ n ih =>
    rw [mulLoop, passLoop]
    simp only [ih]
    generalize ops.getD i o_inv = v
    by_cases h1 : i < ops.length
    · by_cases h2 : v < o_mul ∨ v > o_ndiv
      · have h3 : isMulDiv v = false := by
          simp only [isMulDiv, o_mul, o_nmul, o_div, o_ndiv] at *
          simp only [Bool.or_eq_false_iff, decide_eq_false_iff_not]
          omega
        simp only [if_pos h1, if_pos h2, h3, Bool.false_eq_true, if_false]
      · have h3 : isMulDiv v = true := by
          simp only [isMulDiv, o_mul, o_nmul, o_div, o_ndiv] at *
          simp only [Bool.or_eq_true, decide_eq_true_eq]
          omega
        simp only [if_pos h1, if_neg h2, h3, if_true, combMul]
    · simp only [if_neg h1]

theorem addLoop_eq_passLoop (fuel i : Nat) (exps : List (Option Expr)) (ops : List Int) :
    addLoop fuel i exps ops = passLoop isAddSub combAdd fuel i exps ops := by
  induction fuel generalizing i exps ops with
  | zero => rfl
  | succ n ih =>
    rw [addLoop, passLoop]
    simp only [ih]
    generalize ops.getD i o_inv = v
    by_cases h1 : i < ops.length
    · by_cases h2 : v = o_add ∨ v = o_sub
      · have h3 : isAddSub v = true := by simpa [isAddSub] using h2
        simp only [if_pos h1, h2, not_true_eq_false, if_false, h3, if_true, combAdd]
      · have h3 : isAddSub v = false := by simpa [isAddSub] using h2
        simp [h1, h2, h3]
    · simp only [if_neg h1]

theorem getD_append_cons {α : Type} (pre : List α) (a : α) (l : List α) (d : α) :
    (pre ++ a :: l).getD pre.length d = a := by
  induction pre with
  | nil => rfl
  | cons x xs ih => simpa using ih

theorem getD_append_cons_succ {α : Type} (pre : List α) (a e : α) (l : List α) (d : α) :
    (pre ++ a :: e :: l).getD (pre.length + 1) d = e := by
  induction pre with
  | nil => rfl
  | cons x xs ih => simpa using ih

theorem removeAt_append_cons_succ {α : Type} (pre : List α) (a e : α) (l : List α) :
    removeAt (pre ++ a :: e :: l) (pre.length + 1) = pre ++ a :: l := by
  induction pre with
  | nil => rfl
  | cons x xs ih =>
    simp only [removeAt, List.cons_append, List.length_cons, List.take_succ_cons,
      List.drop_succ_cons] at ih ⊢
    rw [ih]

/-- A loop of the reducer that stands at index `|pre| + 1` leaves the items
before `a` alone and collapses the sequence that starts at `a`. -/
theorem passLoop_eq_collapse (hit : Int → Bool)
    (comb : Int → Option Expr → Option Expr → Option Expr)
    (r : List (Int × Option Expr)) :
    ∀ (fuel : Nat) (pre : List (Option Expr)) (opre : List Int) (a : Option Expr) (o0 : Int),
      pre.length = opre.length → r.length ≤ fuel →
      passLoop hit comb fuel (pre.length + 1)
          (pre ++ a :: r.map Prod.snd) (opre ++ o0 :: r.map Prod.fst) =
        (pre ++ (collapse hit comb a r).1 :: (collapse hit comb a r).2.map Prod.snd,
         opre ++ o0 :: (collapse hit comb a r).2.map Prod.fst) := by
  induction r with
  | nil =>
    intro fuel pre opre a o0 hlen _
    cases fuel with
    | zero => rfl
    | succ n => simp [passLoop, collapse, hlen]
  | cons p r ih =>
    intro fuel pre opre a o0 hlen hfuel
    obtain ⟨o, e⟩ := p
    cases fuel with
    | zero => simp at hfuel
    | succ n =>
      have hn : r.length ≤ n := by simpa using hfuel
      have hi : pre.length + 1 < (opre ++ o0 :: (List.map Prod.fst ((o, e) :: r))).length := by
        simp [hlen]
      have hv : (opre ++ o0 :: (List.map Prod.fst ((o, e) :: r))).getD (pre.length + 1) o_inv = o := by
        rw [hlen]; exact getD_append_cons_succ opre o0 o _ _
      rw [passLoop, if_pos hi, hv]
      by_cases hh : hit o = true
      · rw [if_pos hh]
        have e1 : (pre ++ a :: List.map Prod.snd ((o, e) :: r)).getD (pre.length + 1 - 1) none = a := by
          simpa using getD_append_cons pre a _ none
        have e2 : (pre ++ a :: List.map Prod.snd ((o, e) :: r)).getD (pre.length + 1) none = e :=
          getD_append_cons_succ pre a e _ none
        have e3 : removeAt (pre ++ a :: List.map Prod.snd ((o, e) :: r)) (pre.length + 1) =
            pre ++ a :: r.map Prod.snd := removeAt_append_cons_succ pre a e _
        have e4 : removeAt (opre ++ o0 :: List.map Prod.fst ((o, e) :: r)) (pre.length + 1) =
            opre ++ o0 :: r.map Prod.fst := by
          rw [hlen]; exact removeAt_append_cons_succ opre o0 o _
        rw [e1, e2, e3, e4]
        have e5 : (pre ++ a :: r.map Prod.snd).set (pre.length + 1 - 1) (comb o a e) =
            pre ++ comb o a e :: r.map Prod.snd := by
          simp
        rw [e5, ih n pre opre (comb o a e) o0 hlen hn]
        simp [collapse, hh]
      · rw [if_neg hh]
        have := ih n (pre ++ [a]) (opre ++ [o0]) e o (by simp [hlen]) hn
        simp only [List.length_append, List.length_singleton, List.append_assoc,
          List.singleton_append] at this
        simp only [List.map_cons]
        rw [this]
        simp [collapse, hh]

end Reducer

/-! ## Sequences cut into segments -/

section Segments

variable {α β : Type}

theorem segments_head (sep : Int → Bool) (a : α) (r : List (Int × α)) :
    (segments sep a r).1.1 = a := by
  cases r with
  | nil => rfl
  | cons p r =>
    obtain ⟨o, e⟩ := p
    simp only [segments]
    split <;> rfl

theorem segments_indep (sep : Int → Bool) (a b : α) (r : List (Int × α)) :
    (segments sep a r).1.2 = (segments sep b r).1.2 ∧
      (segments sep a r).2 = (segments sep b r).2 := by
  cases r with
  | nil => exact ⟨rfl, rfl⟩
  | cons p r =>
    obtain ⟨o, e⟩ := p
    simp only [segments]
    split <;> exact ⟨rfl, rfl⟩

theorem segments_eq_of_head (sep : Int → Bool) (a b : α) (r : List (Int × α)) :
    segments sep a r = ((a, (segments sep b r).1.2), (segments sep b r).2) := by
  have h1 := segments_head sep a r
  have h2 := segments_indep sep a b r
  apply Prod.ext
  · apply Prod.ext
    · exact h1
    · exact h2.1
  · exact h2.2

theorem segments_cons_cut (sep : Int → Bool) (a e : α) (o : Int) (r : List (Int × α))
    (h : sep o = true) :
    segments sep a ((o, e) :: r) = ((a, []), (o, (segments sep e r).1) :: (segments sep e r).2) := by
  simp only [segments, h, if_true]

theorem segments_cons_keep (sep : Int → Bool) (a e : α) (o : Int) (r : List (Int × α))
    (h : sep o = false) :
    segments sep a ((o, e) :: r) = ((a, (o, e) :: (segments sep e r).1.2), (segments sep e r).2) := by
  simp only [segments, h, Bool.false_eq_true, if_false]

theorem segments_congr (sep sep' : Int → Bool) (a : α) (r : List (Int × α))
    (h : ∀ p ∈ r, sep p.1 = sep' p.1) : segments sep a r = segments sep' a r := by
  induction r generalizing a with
  | nil => rfl
  | cons p r ih =>
    obtain ⟨o, e⟩ := p
    have ho : sep o = sep' o := h (o, e) (List.mem_cons_self _ _)
    have ih' := ih e fun p hp => h p (List.mem_cons_of_mem _ hp)
    simp only [segments, ho, ih']

/-- The operators at which a sequence is cut satisfy `sep` and are operators
of the sequence. -/
theorem segments_cut_ops (sep : Int → Bool) (a : α) (r : List (Int × α)) :
    ∀ p ∈ (segments sep a r).2, sep p.1 = true ∧ p.1 ∈ r.map Prod.fst := by
  induction r generalizing a with
  | nil => intro p hp; simp [segments] at hp
  | cons q r ih =>
    obtain ⟨o, e⟩ := q
    intro p hp
    cases ho : sep o with
    | true =>
      rw [segments_cons_cut sep a e o r ho] at hp
      rcases List.mem_cons.1 hp with rfl | hp
      · exact ⟨ho, List.mem_cons_self _ _⟩
      · exact ⟨(ih e p hp).1, List.mem_cons_of_mem _ (ih e p hp).2⟩
    | false =>
      rw [segments_cons_keep sep a e o r ho] at hp
      exact ⟨(ih e p hp).1, List.mem_cons_of_mem _ (ih e p hp).2⟩

/-- The operators inside the segments do not satisfy `sep` and are operators of
the sequence. -/
theorem segments_inner_ops (sep : Int → Bool) (a : α) (r : List (Int × α)) :
    (∀ q ∈ (segments sep a r).1.2, sep q.1 = false ∧ q.1 ∈ r.map Prod.fst) ∧
      ∀ p ∈ (segments sep a r).2, ∀ q ∈ p.2.2, sep q.1 = false ∧ q.1 ∈ r.map Prod.fst := by
  induction r generalizing a with
  | nil =>
    constructor
    · intro q hq; simp [segments] at hq
    · intro p hp; simp [segments] at hp
  | cons x r ih =>
    obtain ⟨o, e⟩ := x
    obtain ⟨ih1, ih2⟩ := ih e
    cases ho : sep o with
    | true =>
      rw [segments_cons_cut sep a e o r ho]
      constructor
      · intro q hq; simp at hq
      · intro p hp q hq
        rcases List.mem_cons.1 hp with rfl | hp
        · exact ⟨(ih1 q hq).1, List.mem_cons_of_mem _ (ih1 q hq).2⟩
        · exact ⟨(ih2 p hp q hq).1, List.mem_cons_of_mem _ (ih2 p hp q hq).2⟩
    | false =>
      rw [segments_cons_keep sep a e o r ho]
      constructor
      · intro q hq
        rcases List.mem_cons.1 hq with rfl | hq
        · exact ⟨ho, List.mem_cons_self _ _⟩
        · exact ⟨(ih1 q hq).1, List.mem_cons_of_mem _ (ih1 q hq).2⟩
      · intro p hp q hq
        exact ⟨(ih2 p hp q hq).1, List.mem_cons_of_mem _ (ih2 p hp q hq).2⟩

theorem segments_map (sep : Int → Bool) (f : α → β) (a : α) (r : List (Int × α)) :
    segments sep (f a) (r.map fun p => (p.1, f p.2)) =
      Chain.map (Chain.map f) (segments sep a r) := by
  induction r generalizing a with
  | nil => rfl
  | cons p r ih =>
    obtain ⟨o, e⟩ := p
    by_cases ho : sep o = true
    · simp only [List.map_cons, segments, ho, if_true, ih e]
      simp [Chain.map]
    · simp only [List.map_cons, segments, ho, if_false, ih e]
      simp [Chain.map]

/-- Cutting at the operators of `hi` and then at those of `lo`, which are among
them, is cutting at `lo` and then each segment at `hi`. -/
theorem segments_segments (lo hi : Int → Bool) (h : ∀ o, lo o = true → hi o = true)
    (a : α) (r : List (Int × α)) :
    segments lo (segments hi a r).1 (segments hi a r).2 =
      Chain.map (fun c => segments hi c.1 c.2) (segments lo a r) := by
  induction r generalizing a with
  | nil => rfl
  | cons p r ih =>
    obtain ⟨o, e⟩ := p
    have ihe := ih e
    have hd : (segments lo e r).1.1 = e := segments_head lo e r
    have hd2 : (segments lo (segments hi e r).1 (segments hi e r).2).1.1 = (segments hi e r).1 :=
      segments_head lo _ _
    -- the first `hi` segment of the first `lo` segment
    have first : segments hi e (segments lo e r).1.2 =
        (segments lo (segments hi e r).1 (segments hi e r).2).1 := by
      rw [ihe]
      simp only [Chain.map]
      rw [hd]
    cases hlo : lo o with
    | true =>
      have hhi : hi o = true := h o hlo
      rw [segments_cons_cut hi a e o r hhi, segments_cons_cut lo a e o r hlo]
      simp only [Chain.map, List.map_cons]
      rw [segments_cons_cut lo _ _ o _ hlo, ihe]
      simp [Chain.map, segments]
    | false =>
      cases hhi : hi o with
      | true =>
        rw [segments_cons_cut hi a e o r hhi, segments_cons_keep lo a e o r hlo]
        simp only [Chain.map]
        rw [segments_cons_keep lo _ _ o _ hlo, segments_cons_cut hi a e o _ hhi, first]
        rw [hd2, ihe]
        simp only [Chain.map]
      | false =>
        rw [segments_cons_keep hi a e o r hhi, segments_cons_keep lo a e o r hlo]
        simp only [Chain.map]
        rw [segments_cons_keep hi a e o _ hhi, first, hd2]
        rw [segments_eq_of_head lo _ (segments hi e r).1 _, ihe]
        simp only [Chain.map]

end Segments

/-! ## The three passes and the reference parse -/

section Passes

theorem foldl_congr_mem {α β : Type} (f g : β → α → β) (l : List α) (b : β)
    (h : ∀ acc, ∀ x ∈ l, f acc x = g acc x) : l.foldl f b = l.foldl g b := by
  induction l generalizing b with
  | nil => rfl
  | cons x l ih =>
    simp only [List.foldl_cons]
    rw [h b x (List.mem_cons_self _ _)]
    exact ih _ fun acc y hy => h acc y (List.mem_cons_of_mem _ hy)

/-- A pass collapses every segment between the operators it leaves. -/
theorem collapse_eq_segments (hit : Int → Bool)
    (comb : Int → Option Expr → Option Expr → Option Expr)
    (a : Option Expr) (r : List (Int × Option Expr)) :
    collapse hit comb a r = Chain.map (Chain.fold comb) (segments (fun o => !hit o) a r) := by
  induction r generalizing a with
  | nil => rfl
  | cons p r ih =>
    obtain ⟨o, e⟩ := p
    cases ho : hit o with
    | true =>
      have hs : (fun o => !hit o) o = false := by simp [ho]
      rw [segments_cons_keep _ a e o r hs]
      simp only [collapse, ho, if_true]
      rw [ih (comb o a e), segments_eq_of_head _ (comb o a e) e r]
      simp [Chain.map, Chain.fold]
    | false =>
      have hs : (fun o => !hit o) o = true := by simp [ho]
      rw [segments_cons_cut _ a e o r hs]
      simp only [collapse, ho, Bool.false_eq_true, if_false]
      rw [ih e]
      simp [Chain.map, Chain.fold]

/-- A pass over a sequence all of whose operators it collapses is a fold from
the left. -/
theorem collapse_all (hit : Int → Bool)
    (comb : Int → Option Expr → Option Expr → Option Expr)
    (a : Option Expr) (r : List (Int × Option Expr)) (h : ∀ p ∈ r, hit p.1 = true) :
    collapse hit comb a r = (Chain.fold comb (a, r), []) := by
  induction r generalizing a with
  | nil => rfl
  | cons p r ih =>
    obtain ⟨o, e⟩ := p
    have ho : hit o = true := h (o, e) (List.mem_cons_self _ _)
    simp only [collapse, ho, if_true]
    rw [ih _ fun p hp => h p (List.mem_cons_of_mem _ hp)]
    simp [Chain.fold]

/-- The reducer on a token `t0` in slot 0 with operator code `o0`, followed by
the (operator, token) pairs `rest`: the power pass, the multiply/divide pass,
the leading sign on the first item, and the add/subtract pass. -/
theorem reduceExpression_eq (o0 : Int) (t0 : Option Expr) (rest : List (Int × Option Expr)) :
    reduceExpression (t0 :: rest.map Prod.snd) (o0 :: rest.map Prod.fst) =
      (collapse isAddSub combAdd
        (if o0 = o_sub then SignInvertedExpression (termsOf t0 rest).1 else (termsOf t0 rest).1)
        (termsOf t0 rest).2).1 := by
  have p1 := passLoop_eq_collapse isPower combPow rest (rest.length + 1) [] [] t0 o0 rfl
    (Nat.le_succ _)
  simp only [List.length_nil, Nat.zero_add, List.nil_append] at p1
  have p2 := passLoop_eq_collapse isMulDiv combMul (collapse isPower combPow t0 rest).2
    ((collapse isPower combPow t0 rest).2.length + 1) [] []
    (collapse isPower combPow t0 rest).1 o0 rfl (Nat.le_succ _)
  simp only [List.length_nil, Nat.zero_add, List.nil_append] at p2
  have p3 := fun x => passLoop_eq_collapse isAddSub combAdd (termsOf t0 rest).2
    ((termsOf t0 rest).2.length + 1) [] [] x o0 rfl (Nat.le_succ _)
  simp only [List.length_nil, Nat.zero_add, List.nil_append] at p3
  simp only [reduceExpression, powLoop_eq_passLoop, mulLoop_eq_passLoop, addLoop_eq_passLoop,
    List.length_cons, List.length_map, p1, p2]
  simp only [leadingSign, List.length_cons, Nat.zero_lt_succ, if_true, List.getD_cons_zero,
    List.set_cons_zero]
  by_cases h : o0 = o_sub
  · simp only [if_pos h]
    have := p3 (SignInvertedExpression (termsOf t0 rest).1)
    simp only [termsOf, List.length_map] at this ⊢
    rw [this]
  · simp only [if_neg h]
    have := p3 (termsOf t0 rest).1
    simp only [termsOf, List.length_map] at this ⊢
    rw [this]

end Passes

section Reference

theorem Chain.map_map {α β γ : Type} (f : α → β) (g : β → γ) (c : Chain α) :
    Chain.map g (Chain.map f c) = Chain.map (fun x => g (f x)) c := by
  simp [Chain.map]

theorem isOperator_cases (o : Int) (h : isOperator o = true) :
    o = o_pow ∨ o = o_npow ∨ o = o_mul ∨ o = o_nmul ∨ o = o_div ∨ o = o_ndiv ∨ o = o_add ∨
      o = o_sub := by
  simp only [isOperator, isPower, isMulDiv, isAddSub, Bool.or_eq_true, decide_eq_true_eq] at h
  tauto

theorem combPow_eq_powerOf (o : Int) (a b : Option Expr) (h : isPower o = true) :
    combPow o a b = powerOf a o b := by
  simp only [isPower, Bool.or_eq_true, decide_eq_true_eq] at h
  rcases h with rfl | rfl <;> simp [combPow, powerOf, o_pow, o_npow]

theorem combMul_eq_productOf (o : Int) (a b : Option Expr) (h : isMulDiv o = true) :
    combMul o a b = productOf a o b := by
  simp only [isMulDiv, Bool.or_eq_true, decide_eq_true_eq] at h
  rcases h with ((rfl | rfl) | rfl) | rfl <;>
    simp [combMul, productOf, o_mul, o_nmul, o_div, o_ndiv]

/-- The power pass and the multiply/divide pass compute the reference term of
a sequence without add/subtract operators. -/
theorem fold_term_eq (c : Chain (Option Expr))
    (h : ∀ o ∈ c.2.map Prod.fst, isAddSub o = false ∧ isOperator o = true) :
    Chain.fold combMul
        (Chain.map (Chain.fold combPow)
          (segments (fun o => isMulDiv o || isAddSub o) c.1 c.2)) =
      referenceTerm c := by
  have hc : segments (fun o => isMulDiv o || isAddSub o) c.1 c.2 = segments isMulDiv c.1 c.2 := by
    apply segments_congr
    intro p hp
    have := (h p.1 (List.mem_map_of_mem _ hp)).1
    simp [this]
  rw [hc]
  have hin := segments_inner_ops isMulDiv c.1 c.2
  have hcut := segments_cut_ops isMulDiv c.1 c.2
  have pw : ∀ d : Chain (Option Expr),
      (∀ q ∈ d.2, isMulDiv q.1 = false ∧ q.1 ∈ c.2.map Prod.fst) →
      d.2.foldl (fun acc p => combPow p.1 acc p.2) d.1 = referencePower d := by
    intro d hd
    simp only [referencePower]
    apply foldl_congr_mem
    intro acc q hq
    apply combPow_eq_powerOf
    have h1 := hd q hq
    have h2 := h q.1 h1.2
    have h3 := h1.1
    have h4 := h2.1
    have h5 := h2.2
    simp only [isOperator, h3, h4, Bool.or_false, Bool.or_eq_true] at h5
    simpa using h5
  simp only [Chain.fold, Chain.map, referenceTerm, List.foldl_map]
  rw [pw _ hin.1]
  apply foldl_congr_mem
  intro acc p hp
  rw [pw _ (hin.2 p hp), combMul_eq_productOf _ _ _ (hcut p hp).1]

/-- After the power pass and the multiply/divide pass the list holds the
reference terms of the sequence, between its add/subtract operators. -/
theorem termsOf_eq (t0 : Option Expr) (rest : List (Int × Option Expr))
    (h : ∀ o ∈ rest.map Prod.fst, isOperator o = true) :
    termsOf t0 rest = Chain.map referenceTerm (segments isAddSub t0 rest) := by
  have hP : collapse isPower combPow t0 rest =
      Chain.map (Chain.fold combPow) (segments (fun o => isMulDiv o || isAddSub o) t0 rest) := by
    rw [collapse_eq_segments]
    congr 1
    apply segments_congr
    intro p hp
    rcases isOperator_cases p.1 (h p.1 (List.mem_map_of_mem _ hp)) with
      h | h | h | h | h | h | h | h <;>
      simp [h, isPower, isMulDiv, isAddSub, o_pow, o_npow, o_mul, o_nmul, o_div, o_ndiv, o_add,
        o_sub]
  have hcutS := segments_cut_ops (fun o => isMulDiv o || isAddSub o) t0 rest
  rw [termsOf, collapse_eq_segments, hP]
  have hM : segments (fun o => !isMulDiv o)
        (Chain.map (Chain.fold combPow)
          (segments (fun o => isMulDiv o || isAddSub o) t0 rest)).1
        (Chain.map (Chain.fold combPow)
          (segments (fun o => isMulDiv o || isAddSub o) t0 rest)).2 =
      segments isAddSub
        (Chain.map (Chain.fold combPow)
          (segments (fun o => isMulDiv o || isAddSub o) t0 rest)).1
        (Chain.map (Chain.fold combPow)
          (segments (fun o => isMulDiv o || isAddSub o) t0 rest)).2 := by
    apply segments_congr
    intro p hp
    simp only [Chain.map, List.mem_map] at hp
    obtain ⟨q, hq, rfl⟩ := hp
    have h1 := hcutS q hq
    rcases isOperator_cases q.1 (h q.1 h1.2) with
      h | h | h | h | h | h | h | h <;>
      simp [h, isPower, isMulDiv, isAddSub, o_pow, o_npow, o_mul, o_nmul, o_div, o_ndiv, o_add,
        o_sub] at h1 ⊢
  rw [hM]
  have hnat := segments_map isAddSub (Chain.fold combPow)
    (segments (fun o => isMulDiv o || isAddSub o) t0 rest).1
    (segments (fun o => isMulDiv o || isAddSub o) t0 rest).2
  have hreg := segments_segments isAddSub (fun o => isMulDiv o || isAddSub o)
    (fun o ho => by simp [ho]) t0 rest
  simp only [Chain.map] at hnat ⊢
  rw [hnat, hreg]
  simp only [Chain.map, List.map_map]
  have hin := segments_inner_ops isAddSub t0 rest
  have e1 := fold_term_eq (segments isAddSub t0 rest).1
    (fun o ho => by
      obtain ⟨q, hq, rfl⟩ := List.mem_map.1 ho
      exact ⟨(hin.1 q hq).1, h _ (hin.1 q hq).2⟩)
  simp only [Chain.map] at e1
  rw [e1]
  congr 1
  apply List.map_congr_left
  intro p hp
  have e2 := fold_term_eq p.2
    (fun o ho => by
      obtain ⟨q, hq, rfl⟩ := List.mem_map.1 ho
      exact ⟨(hin.2 p hp q hq).1, h _ (hin.2 p hp q hq).2⟩)
  simp only [Chain.map] at e2
  simp only [Function.comp, e2]

/-- The add/subtract pass on terms, started from `first`, is the reference
sum. -/
theorem collapse_terms_eq (first : Option Expr) (t0 : Option Expr)
    (rest : List (Int × Option Expr)) :
    (collapse isAddSub combAdd first
        (Chain.map referenceTerm (segments isAddSub t0 rest)).2).1 =
      referenceSum first (segments isAddSub t0 rest).2 := by
  rw [collapse_all]
  · simp only [Chain.fold, Chain.map, List.foldl_map, referenceSum]
    apply foldl_congr_mem
    intro acc p _
    simp [combAdd, sumOf]
  · intro p hp
    simp only [Chain.map, List.mem_map] at hp
    obtain ⟨q, hq, rfl⟩ := hp
    exact (segments_cut_ops isAddSub t0 rest q hq).1

end Reference

/-! ## `parseExpression` and its bounded evaluator -/

section Fuel

theorem splitOn_length_le (sep : Char) (s : Str) : ∀ x ∈ splitOn sep s, x.length ≤ s.length := by
  induction s with
  | nil => intro x hx; simp [splitOn] at hx; simp [hx]
  | cons c cs ih =>
    intro x hx
    by_cases hc : c = sep
    · simp only [splitOn, hc, if_true, List.mem_cons] at hx
      rcases hx with rfl | hx
      · simp
      · have := ih x hx
        simp only [List.length_cons]
        omega
    · simp only [splitOn, hc, if_false] at hx
      cases hsp : splitOn sep cs with
      | nil =>
        rw [hsp] at hx
        simp at hx
        simp [hx]
      | cons h t =>
        rw [hsp] at hx ih
        simp only [List.mem_cons] at hx
        rcases hx with rfl | hx
        · have := ih h (List.mem_cons_self _ _)
          simp only [List.length_cons]
          omega
        · have := ih x (List.mem_cons_of_mem _ hx)
          simp only [List.length_cons]
          omega

theorem getD_splitOn_length_le (sep : Char) (s : Str) (i : Nat) :
    ((splitOn sep s).getD i []).length ≤ s.length := by
  by_cases h : i < (splitOn sep s).length
  · rw [List.getD_eq_getElem _ _ h]
    exact splitOn_length_le sep s _ (List.getElem_mem _)
  · rw [List.getD_eq_default _ _ (Nat.le_of_not_lt h)]
    simp

theorem dropWhile_length_le {α : Type} (p : α → Bool) (l : List α) :
    (l.dropWhile p).length ≤ l.length := by
  induction l with
  | nil => simp
  | cons x xs ih =>
    simp only [List.dropWhile]
    split
    · simp only [List.length_cons]; omega
    · simp

theorem TrimSpace_length_le (s : Str) : (TrimSpace s).length ≤ s.length := by
  simp only [TrimSpace, List.length_reverse]
  have h1 := dropWhile_length_le isSpace (s.dropWhile isSpace).reverse
  have h2 := dropWhile_length_le isSpace s
  simp only [List.length_reverse] at h1
  omega

theorem slice_length_le (s : Str) (a b : Nat) : (slice s a b).length ≤ s.length - a := by
  simp only [slice, List.length_take, List.length_drop]
  omega

theorem namedLoop_congr (cb cb' : Str → Run (Option Expr)) (U : List Str) (fields : List Str)
    (h : ∀ v ∈ fields, ∀ t, t.length ≤ v.length → cb t = cb' t) (ret : ArgMap) :
    namedLoop cb U fields ret = namedLoop cb' U fields ret := by
  induction fields generalizing ret with
  | nil => rfl
  | cons v vs ih =>
    have ih' := fun ret => ih (fun v hv => h v (List.mem_cons_of_mem _ hv)) ret
    have hv : cb (TrimSpace ((splitOn '=' v).getD 1 [])) =
        cb' (TrimSpace ((splitOn '=' v).getD 1 [])) :=
      h v (List.mem_cons_self _ _) _
        (le_trans (TrimSpace_length_le _) (getD_splitOn_length_le _ _ _))
    simp only [namedLoop, hv, ih']

theorem positionalLoop_congr (cb cb' : Str → Run (Option Expr)) (U : List Str)
    (fields : List Str) (h : ∀ v ∈ fields, ∀ t, t.length ≤ v.length → cb t = cb' t)
    (ret : ArgMap) :
    positionalLoop cb U fields ret = positionalLoop cb' U fields ret := by
  induction fields generalizing ret with
  | nil => rfl
  | cons v vs ih =>
    have ih' := fun ret => ih (fun v hv => h v (List.mem_cons_of_mem _ hv)) ret
    have hv : cb (TrimSpace v) = cb' (TrimSpace v) :=
      h v (List.mem_cons_self _ _) _ (TrimSpace_length_le _)
    simp only [positionalLoop, hv, ih']

theorem parseArgumentString_congr (cb cb' : Str → Run (Option Expr)) (s : Str) (U : List Str)
    (h : ∀ t, t.length ≤ s.length → cb t = cb' t) :
    parseArgumentString cb s U = parseArgumentString cb' s U := by
  have hf : ∀ v ∈ splitOn ',' s, ∀ t, t.length ≤ v.length → cb t = cb' t :=
    fun v hv t ht => h t (le_trans ht (splitOn_length_le _ _ v hv))
  simp only [parseArgumentString, namedLoop_congr cb cb' U _ hf,
    positionalLoop_congr cb cb' U _ hf]

theorem callArguments_congr (cb cb' : Str → Run (Option Expr)) (s : Str) (p0 p1 : Nat)
    (exp : Expr) (hs : s ≠ []) (h : ∀ t, t.length < s.length → cb t = cb' t) :
    callArguments cb s p0 p1 exp = callArguments cb' s p0 p1 exp := by
  simp only [callArguments]
  split
  · rfl
  · apply parseArgumentString_congr
    intro t ht
    apply h
    have := slice_length_le s (p0 + 1) (p1 - 1)
    have : 0 < s.length := List.length_pos.2 hs
    omega

theorem findNsfunc_ne_nil (s : Str) (r : Nat × Nat) (h : findNsfunc s = some r) : s ≠ [] := by
  rintro rfl
  simp [findNsfunc, leftmost, matchNsfunc] at h

theorem findNonfuncPar_ne_nil (s : Str) (r : Nat × Nat) (h : findNonfuncPar s = some r) :
    s ≠ [] := by
  rintro rfl
  simp [findNonfuncPar, leftmost, matchNonfuncPar] at h

theorem findStdfuncPar_ne_nil (s : Str) (r : Nat × Nat) (h : findStdfuncPar s = some r) :
    s ≠ [] := by
  rintro rfl
  simp [findStdfuncPar] at h

theorem parseNonStandardExpressionAux_congr (T : Tables) (cb cb' : Str → Run (Option Expr))
    (fuel : Nat) :
    ∀ (s : Str) (starti : Nat), (∀ t, t.length < s.length → cb t = cb' t) →
      parseNonStandardExpressionAux T cb fuel s starti =
        parseNonStandardExpressionAux T cb' fuel s starti := by
  induction fuel with
  | zero => intro s starti _; rfl
  | succ n ih =>
    intro s starti h
    simp only [parseNonStandardExpressionAux]
    cases hf : findNsfunc s with
    | none => rfl
    | some r =>
      obtain ⟨i0, i1⟩ := r
      have hs := findNsfunc_ne_nil s _ hf
      have hrec := ih (s.drop i1) (starti + i1)
        (fun t ht => h t (lt_of_lt_of_le ht (by simp)))
      have htok : nonStandardToken T cb s i0 i1 = nonStandardToken T cb' s i0 i1 := by
        simp only [nonStandardToken]
        split
        · rfl
        · split
          · rfl
          · split
            · rw [callArguments_congr cb cb' s _ _ _ hs h]
            · rfl
      simp only [htok, hrec]

theorem parseNonStandardExpression_congr (T : Tables) (cb cb' : Str → Run (Option Expr))
    (s : Str) (starti : Nat) (h : ∀ t, t.length < s.length → cb t = cb' t) :
    parseNonStandardExpression T cb s starti = parseNonStandardExpression T cb' s starti :=
  parseNonStandardExpressionAux_congr T cb cb' _ s starti h

theorem parseStandardExpressionsAux_congr (T : Tables) (cb cb' : Str → Run (Option Expr))
    (fuel : Nat) :
    ∀ (s : Str) (starti : Nat), (∀ t, t.length < s.length → cb t = cb' t) →
      parseStandardExpressionsAux T cb fuel s starti =
        parseStandardExpressionsAux T cb' fuel s starti := by
  induction fuel with
  | zero => intro s starti _; rfl
  | succ n ih =>
    intro s starti h
    simp only [parseStandardExpressionsAux]
    cases hf : findStdfuncPar s with
    | none => exact parseNonStandardExpression_congr T cb cb' s starti h
    | some r =>
      obtain ⟨i0, e1⟩ := r
      have hs := findStdfuncPar_ne_nil s _ hf
      have hrec := ih (s.drop (e1 - 1)) (starti + (e1 - 1))
        (fun t ht => h t (lt_of_lt_of_le ht (by simp)))
      have hpre := parseNonStandardExpression_congr T cb cb' (s.take i0) starti
        (fun t ht => h t (lt_of_lt_of_le ht (by simp)))
      have htok : ∀ p0 p1, standardToken T cb s i0 (e1 - 1) p0 p1 =
          standardToken T cb' s i0 (e1 - 1) p0 p1 := by
        intro p0 p1
        simp only [standardToken]
        split
        · rfl
        · rw [callArguments_congr cb cb' s _ _ _ hs h]
      simp only [htok, hrec, hpre]

theorem parseStandardExpressions_congr (T : Tables) (cb cb' : Str → Run (Option Expr))
    (s : Str) (starti : Nat) (h : ∀ t, t.length < s.length → cb t = cb' t) :
    parseStandardExpressions T cb s starti = parseStandardExpressions T cb' s starti :=
  parseStandardExpressionsAux_congr T cb cb' _ s starti h

theorem parseParenthesisEnclosedExpressionsAux_congr (T : Tables)
    (cb cb' : Str → Run (Option Expr)) (fuel : Nat) :
    ∀ (s : Str) (starti : Nat), (∀ t, t.length < s.length → cb t = cb' t) →
      parseParenthesisEnclosedExpressionsAux T cb fuel s starti =
        parseParenthesisEnclosedExpressionsAux T cb' fuel s starti := by
  induction fuel with
  | zero => intro s starti _; rfl
  | succ n ih =>
    intro s starti h
    simp only [parseParenthesisEnclosedExpressionsAux]
    have hstd := parseStandardExpressions_congr T cb cb' s starti h
    cases hf : findNonfuncPar s with
    | none => exact hstd
    | some r =>
      obtain ⟨i0, e1⟩ := r
      have hs := findNonfuncPar_ne_nil s _ hf
      have hpos : 0 < s.length := List.length_pos.2 hs
      have hrec := fun k => ih (s.drop k) (starti + k)
        (fun t ht => h t (lt_of_lt_of_le ht (by simp)))
      have hpre := fun k => parseStandardExpressions_congr T cb cb' (s.take k) starti
        (fun t ht => h t (lt_of_lt_of_le ht (by simp)))
      have hin : ∀ a b, cb (slice s (a + 1) b) = cb' (slice s (a + 1) b) := by
        intro a b
        apply h
        have := slice_length_le s (a + 1) b
        omega
      simp only [hstd, hrec, hpre, hin]

theorem parseExpressionBody_congr (T : Tables) (cb cb' : Str → Run (Option Expr)) (s : Str)
    (h : ∀ t, t.length < s.length → cb t = cb' t) :
    parseExpressionBody T cb s = parseExpressionBody T cb' s := by
  simp only [parseExpressionBody, parseParenthesisEnclosedExpressions,
    parseParenthesisEnclosedExpressionsAux_congr T cb cb' _ s 0 h]

theorem parseExpression_unfold (T : Tables) (s : Str) :
    parseExpression T s =
      parseExpressionBody T
        (fun t => if t.length < s.length then parseExpression T t else Run.done none) s := by
  rw [parseExpression]
  rfl

/-- The bounded evaluator computes `parseExpression` once the bound exceeds the
length of the text. -/
theorem parseExpression_eq_fuel (T : Tables) (n : Nat) :
    ∀ s : Str, s.length < n → parseExpression T s = parseExpressionFuel T n s := by
  induction n with
  | zero => intro s h; omega
  | succ n ih =>
    intro s hs
    rw [parseExpression_unfold, parseExpressionFuel]
    apply parseExpressionBody_congr
    intro t ht
    simp only [if_pos ht]
    exact ih t (by omega)

end Fuel

/-! ## Claims about the reducer -/

section ReducerClaims

theorem zip_maps {α β : Type} (os : List α) (ts : List β) (h : ts.length = os.length) :
    (os.zip ts).map Prod.snd = ts ∧ (os.zip ts).map Prod.fst = os :=
  ⟨List.map_snd_zip _ _ (le_of_eq h), List.map_fst_zip _ _ (le_of_eq h.symm)⟩

/-- C1: for every non-empty token sequence `t0 :: ts` with no leading operator
(slot 0 holds `o_inv`) and operator codes `os` in the slots after it that are
all among the eight codes, the three-pass reducer of `parseExpression` returns
exactly the tree of the reference three-tier left-associative parse. -/
theorem reduceExpression_eq_referenceParse (t0 : Option Expr) (ts : List (Option Expr))
    (os : List Int) (hlen : ts.length = os.length) (hops : ∀ o ∈ os, isOperator o = true) :
    reduceExpression (t0 :: ts) (o_inv :: os) = referenceParse t0 (os.zip ts) := by
  have hz := zip_maps os ts hlen
  have h := reduceExpression_eq o_inv t0 (os.zip ts)
  rw [hz.1, hz.2] at h
  rw [h, termsOf_eq t0 (os.zip ts) (by rw [hz.2]; exact hops)]
  have hne : ¬ (o_inv = o_sub) := by decide
  simp only [if_neg hne]
  exact collapse_terms_eq _ t0 (os.zip ts)

/-- Witness of C1 on the tokens of `1 + 2 * 3 ^ 4 - 5`. -/
theorem reduceExpression_eq_referenceParse_witness :
    [some (Expr.const (Number.fraction 2 1)), some (Expr.const (Number.fraction 3 1)),
        some (Expr.const (Number.fraction 4 1)), some (Expr.const (Number.fraction 5 1))].length =
      [o_add, o_mul, o_pow, o_sub].length ∧
    (∀ o ∈ [o_add, o_mul, o_pow, o_sub], isOperator o = true) ∧
    reduceExpression
        [some (Expr.const (Number.fraction 1 1)), some (Expr.const (Number.fraction 2 1)),
          some (Expr.const (Number.fraction 3 1)), some (Expr.const (Number.fraction 4 1)),
          some (Expr.const (Number.fraction 5 1))]
        [o_inv, o_add, o_mul, o_pow, o_sub] =
      referenceParse (some (Expr.const (Number.fraction 1 1)))
        ([o_add, o_mul, o_pow, o_sub].zip
          [some (Expr.const (Number.fraction 2 1)), some (Expr.const (Number.fraction 3 1)),
            some (Expr.const (Number.fraction 4 1)), some (Expr.const (Number.fraction 5 1))]) ∧
    referenceParse (some (Expr.const (Number.fraction 1 1)))
        ([o_add, o_mul, o_pow, o_sub].zip
          [some (Expr.const (Number.fraction 2 1)), some (Expr.const (Number.fraction 3 1)),
            some (Expr.const (Number.fraction 4 1)), some (Expr.const (Number.fraction 5 1))]) =
      some (Expr.sub
        (Expr.add (Expr.const (Number.fraction 1 1))
          (Expr.mul (Expr.const (Number.fraction 2 1))
            (Expr.pow (Expr.const (Number.fraction 3 1)) (Expr.const (Number.fraction 4 1)))))
        (Expr.const (Number.fraction 5 1))) :=
  ⟨rfl, by decide, reduceExpression_eq_referenceParse _ _ _ rfl (by decide), by decide⟩

end ReducerClaims

/-! ## The cascade on text without parentheses, dots and letters -/

section PlainText

theorem isN_not_isL (c : Char) (h : isN c = true) : isL c = false := by
  simp only [isN, isL, decide_eq_true_eq, decide_eq_false_iff_not] at *
  rw [h]
  decide

theorem leftmost_none (m : Str → Option Nat) (s : Str) (i : Nat)
    (h : ∀ t, t <:+ s → m t = none) : leftmost m i s = none := by
  induction s generalizing i with
  | nil => simp [leftmost, h [] (List.suffix_refl _)]
  | cons c cs ih =>
    simp only [leftmost, h (c :: cs) (List.suffix_refl _)]
    exact ih (i + 1) fun t ht => h t (List.IsSuffix.trans ht (List.suffix_cons c cs))

theorem mem_of_head?_dropWhile {α : Type} (p : α → Bool) (l : List α) (a : α)
    (h : (l.dropWhile p).head? = some a) : a ∈ l :=
  (List.dropWhile_suffix p).subset (List.mem_of_mem_head? h)

theorem findNonfuncPar_none (s : Str) (h : '(' ∉ s) : findNonfuncPar s = none := by
  apply leftmost_none
  intro t ht
  simp only [matchNonfuncPar]
  split
  · rename_i hh
    exact absurd (ht.subset (mem_of_head?_dropWhile _ _ _ hh)) h
  · rfl

theorem findStdfuncPar_none (s : Str) (h : '(' ∉ s) : findStdfuncPar s = none := by
  cases s with
  | nil => rfl
  | cons c r =>
    simp only [findStdfuncPar]
    split
    · rfl
    · split
      · rfl
      · split
        · rename_i hh
          exact absurd (List.mem_cons_of_mem _ (mem_of_head?_dropWhile _ _ _ hh)) h
        · rfl

theorem findNsfunc_none (s : Str) (h : '.' ∉ s) : findNsfunc s = none := by
  apply leftmost_none
  intro t ht
  simp only [matchNsfunc]
  split
  · rename_i hh
    exact absurd (ht.subset (mem_of_head?_dropWhile _ _ _ hh.2)) h
  · rfl

theorem findSdFloat_none (s : Str) (h : '.' ∉ s) : findSdFloat s = none := by
  apply leftmost_none
  intro t ht
  simp only [matchSdFloat]
  split
  · rename_i hh
    exact absurd (ht.subset (mem_of_head?_dropWhile _ _ _ hh)) h
  · rfl

theorem findUnknown_none (s : Str) (h : ∀ c ∈ s, isL c = false) : findUnknown s = none := by
  apply leftmost_none
  intro t ht
  simp only [matchUnknown]
  split
  · rename_i hh
    cases t with
    | nil => simp at hh
    | cons c cs =>
      simp only [List.head?_cons, Option.map_some', Option.some.injEq] at hh
      have := h c (ht.subset (List.mem_cons_self _ _))
      rw [this] at hh
      exact absurd hh (by decide)
  · rfl

/-- On a text without `(`, `.` and letters the first five stages find nothing
and the tokens are those of `parseIntExpressions`. -/
theorem cascade_plain (T : Tables) (cb : Str → Run (Option Expr)) (s : Str) (starti : Nat)
    (h1 : '(' ∉ s) (h2 : '.' ∉ s) (h3 : ∀ c ∈ s, isL c = false) :
    parseParenthesisEnclosedExpressions T cb s starti =
      Run.done (parseIntExpressions s starti) := by
  simp only [parseParenthesisEnclosedExpressions, parseParenthesisEnclosedExpressionsAux,
    findNonfuncPar_none s h1, parseStandardExpressions, parseStandardExpressionsAux,
    findStdfuncPar_none s h1, parseNonStandardExpression, parseNonStandardExpressionAux,
    findNsfunc_none s h2, parseUnknownExpressions, parseUnknownExpressionsAux,
    findUnknown_none s h3, parseFloatExpressions, parseFloatExpressionsAux,
    findSdFloat_none s h2]

theorem leftmost_shift (m : Str → Option Nat) (s : Str) (i : Nat) :
    leftmost m i s = (leftmost m 0 s).map fun p => (p.1 + i, p.2 + i) := by
  induction s generalizing i with
  | nil =>
    simp only [leftmost]
    cases m [] <;> simp [Nat.add_comm]
  | cons c cs ih =>
    simp only [leftmost]
    cases m (c :: cs) with
    | some n => simp [Nat.add_comm]
    | none =>
      simp only [ih (i + 1), ih (0 + 1)]
      cases leftmost m 0 cs with
      | none => rfl
      | some p => simp [Nat.add_comm, Nat.add_left_comm, Nat.add_assoc]

theorem takeWhile_append_stop {α : Type} (p : α → Bool) (a rest : List α)
    (ha : ∀ x ∈ a, p x = true) (hr : ∀ x, rest.head? = some x → p x = false) :
    (a ++ rest).takeWhile p = a := by
  induction a with
  | nil =>
    cases rest with
    | nil => rfl
    | cons x xs => simp [List.takeWhile, hr x rfl]
  | cons y ys ih =>
    have hy : p y = true := ha y (List.mem_cons_self _ _)
    rw [List.cons_append, List.takeWhile_cons, hy, if_pos rfl,
      ih fun x hx => ha x (List.mem_cons_of_mem _ hx)]

theorem findInt_digits (a rest : Str) (hne : a ≠ []) (ha : ∀ x ∈ a, isN x = true)
    (hr : ∀ x, rest.head? = some x → isN x = false) :
    findInt (a ++ rest) = some (0, a.length) := by
  have htw := takeWhile_append_stop isN a rest ha hr
  have hm : matchInt (a ++ rest) = some a.length := by
    simp only [matchInt, htw, if_pos hne]
  cases a with
  | nil => exact absurd rfl hne
  | cons y ys =>
    rw [findInt, List.cons_append, leftmost, ← List.cons_append, hm]
    simp

theorem findInt_skip (x : Char) (rest : Str) (hx : isN x = false) :
    findInt (x :: rest) = (findInt rest).map fun p => (p.1 + 1, p.2 + 1) := by
  simp only [findInt, leftmost, matchInt, List.takeWhile, hx]
  simp only [ne_eq, not_true_eq_false, if_false]
  exact leftmost_shift matchInt rest (0 + 1)

theorem slice_zero_append (a rest : Str) : slice (a ++ rest) 0 a.length = a := by
  simp [slice]

theorem slice_cons_succ (x : Char) (s : Str) (i j : Nat) :
    slice (x :: s) (i + 1) (j + 1) = slice s i j := by
  simp [slice]

/-- The integer stage on a run of digits followed by text that does not start
with a digit: one token, then the rest of the text. -/
theorem parseIntExpressionsAux_digits (fuel : Nat) (a rest : Str) (starti : Nat) (hne : a ≠ [])
    (ha : ∀ x ∈ a, isN x = true) (hr : ∀ x, rest.head? = some x → isN x = false) :
    parseIntExpressionsAux (fuel + 1) (a ++ rest) starti =
      { exp := intExpression a, lo := starti, hi := starti + a.length } ::
        (if rest = [] then [] else parseIntExpressionsAux fuel rest (starti + a.length)) := by
  have hpos : 0 < a.length := List.length_pos.2 hne
  simp only [parseIntExpressionsAux, findInt_digits a rest hne ha hr, slice_zero_append,
    if_pos hpos, Nat.add_zero, List.drop_left, List.length_append]
  cases rest with
  | nil => simp
  | cons x xs => simp

/-- The integer stage skips a character that is not a digit. -/
theorem parseIntExpressionsAux_skip (fuel : Nat) (x : Char) (rest : Str) (starti : Nat)
    (hx : isN x = false) :
    parseIntExpressionsAux (fuel + 1) (x :: rest) starti =
      parseIntExpressionsAux (fuel + 1) rest (starti + 1) := by
  simp only [parseIntExpressionsAux, findInt_skip x rest hx]
  cases findInt rest with
  | none => rfl
  | some p =>
    obtain ⟨i0, i1⟩ := p
    simp only [Option.map_some', slice_cons_succ, Nat.add_lt_add_iff_right, List.length_cons,
      List.drop_succ_cons]
    simp only [Nat.add_assoc, Nat.add_comm 1]

end PlainText

/-! ## Claims about lines of integer literals -/

section Literals

theorem slice_at (a : Str) (x : Char) (r : Str) :
    slice (a ++ x :: r) a.length (a.length + 1) = [x] := by
  simp [slice]

theorem slice_after (a : Str) (x : Char) (r : Str) (i j : Nat) :
    slice (a ++ x :: r) (a.length + 1 + i) (a.length + 1 + j) = slice r i j := by
  induction a with
  | nil => simp [slice, Nat.add_comm]
  | cons y ys ih =>
    have e1 : (y :: ys).length + 1 + i = (ys.length + 1 + i) + 1 := by simp; omega
    have e2 : (y :: ys).length + 1 + j = (ys.length + 1 + j) + 1 := by simp; omega
    rw [e1, e2, List.cons_append, slice_cons_succ, ih]

/-- The tokens of three runs of digits separated by two characters that are not
digits. -/
theorem parseIntExpressions_three (a b c : Str) (x y : Char) (ha : a ≠ [])
    (hb : b ≠ []) (hc : c ≠ []) (hda : ∀ d ∈ a, isN d = true) (hdb : ∀ d ∈ b, isN d = true)
    (hdc : ∀ d ∈ c, isN d = true) (hx : isN x = false) (hy : isN y = false) :
    parseIntExpressions (a ++ x :: (b ++ y :: c)) 0 =
      [{ exp := intExpression a, lo := 0, hi := a.length },
       { exp := intExpression b, lo := a.length + 1, hi := a.length + 1 + b.length },
       { exp := intExpression c, lo := a.length + 1 + b.length + 1,
         hi := a.length + 1 + b.length + 1 + c.length }] := by
  have hl : (a ++ x :: (b ++ y :: c)).length + 1 = (a.length + b.length + c.length + 2) + 1 := by
    simp only [List.length_append, List.length_cons]; omega
  have hcx : c = c ++ [] := by simp
  rw [parseIntExpressions, hl,
    parseIntExpressionsAux_digits _ a (x :: (b ++ y :: c)) 0 ha hda
      (fun d hd => by simp at hd; rw [← hd]; exact hx),
    if_neg (List.cons_ne_nil _ _),
    show a.length + b.length + c.length + 2 = (a.length + b.length + c.length + 1) + 1 from rfl,
    parseIntExpressionsAux_skip _ x _ _ hx,
    parseIntExpressionsAux_digits _ b (y :: c) _ hb hdb
      (fun d hd => by simp at hd; rw [← hd]; exact hy),
    if_neg (List.cons_ne_nil _ _),
    show a.length + b.length + c.length + 1 = (a.length + b.length + c.length) + 1 from rfl,
    parseIntExpressionsAux_skip _ y _ _ hy]
  conv_lhs => rw [hcx]
  rw [parseIntExpressionsAux_digits _ c [] _ hc hdc (fun d hd => by simp at hd), if_pos rfl]
  simp

/-- The operator texts taken by `parseExpression` between such tokens. -/
theorem opStrings_three (a b c : Str) (x y : Char) (ea eb ec : Option Expr) :
    opStrings (a ++ x :: (b ++ y :: c)) 0
        [{ exp := ea, lo := 0, hi := a.length },
         { exp := eb, lo := a.length + 1, hi := a.length + 1 + b.length },
         { exp := ec, lo := a.length + 1 + b.length + 1,
           hi := a.length + 1 + b.length + 1 + c.length }] =
      Run.done [[], [x], [y]] := by
  have h1 : a.length + 1 ≤ (a ++ x :: (b ++ y :: c)).length := by
    simp only [List.length_append, List.length_cons]; omega
  have h2 : a.length + 1 + b.length + 1 ≤ (a ++ x :: (b ++ y :: c)).length := by
    simp only [List.length_append, List.length_cons]; omega
  have s1 : slice (a ++ x :: (b ++ y :: c)) 0 0 = [] := by simp [slice]
  have s2 : slice (a ++ x :: (b ++ y :: c)) a.length (a.length + 1) = [x] := slice_at a x _
  have s3 : slice (a ++ x :: (b ++ y :: c)) (a.length + 1 + b.length)
      (a.length + 1 + b.length + 1) = [y] := by
    rw [Nat.add_assoc (a.length + 1) b.length 1, slice_after, slice_at]
  simp only [opStrings, Nat.le_refl, Nat.zero_le, and_self, if_true, Nat.le_succ, h1, h2, s1, s2,
    s3, Run.map, Nat.le_add_right]

/-- C2: power is left-associative end to end.  For all non-empty runs of digits
`a`, `b`, `c` the line `a^b^c` parses to `power(power(a, b), c)`; when the
three literals fit 64 bits this is not `power(a, power(b, c))`; and `2^3^2`
parses to `(2^3)^2`, whose exact value is 64, while `2^(3^2)` has the value
512. -/
theorem parseExpression_power_left_assoc (T : Tables) (a b c : Str) (ha : a ≠ [])
    (hb : b ≠ []) (hc : c ≠ []) (hda : ∀ d ∈ a, isN d = true) (hdb : ∀ d ∈ b, isN d = true)
    (hdc : ∀ d ∈ c, isN d = true) :
    parseExpression T (a ++ '^' :: (b ++ '^' :: c)) =
        Run.done (RaiseExpressionToPower
          (RaiseExpressionToPower (intExpression a) (intExpression b)) (intExpression c)) ∧
    (a.all Char.isDigit = true → b.all Char.isDigit = true → c.all Char.isDigit = true →
      digitsValue a < 2 ^ 63 → digitsValue b < 2 ^ 63 → digitsValue c < 2 ^ 63 →
      parseExpression T (a ++ '^' :: (b ++ '^' :: c)) =
          Run.done (some (Expr.pow
            (Expr.pow (Expr.const (Number.fraction (digitsValue a) 1))
              (Expr.const (Number.fraction (digitsValue b) 1)))
            (Expr.const (Number.fraction (digitsValue c) 1)))) ∧
        parseExpression T (a ++ '^' :: (b ++ '^' :: c)) ≠
          Run.done (RaiseExpressionToPower (intExpression a)
            (RaiseExpressionToPower (intExpression b) (intExpression c)))) ∧
    parseExpression T "2^3^2".toList =
        Run.done (some (Expr.pow
          (Expr.pow (Expr.const (Number.fraction 2 1)) (Expr.const (Number.fraction 3 1)))
          (Expr.const (Number.fraction 2 1)))) ∧
    exactValue (Expr.pow
        (Expr.pow (Expr.const (Number.fraction 2 1)) (Expr.const (Number.fraction 3 1)))
        (Expr.const (Number.fraction 2 1))) = some 64 ∧
    exactValue (Expr.pow (Expr.const (Number.fraction 2 1))
        (Expr.pow (Expr.const (Number.fraction 3 1)) (Expr.const (Number.fraction 2 1)))) =
      some 512 := by
  have hx : isN '^' = false := by decide
  have main : parseExpression T (a ++ '^' :: (b ++ '^' :: c)) =
      Run.done (RaiseExpressionToPower
        (RaiseExpressionToPower (intExpression a) (intExpression b)) (intExpression c)) := by
    have hplain : ∀ d ∈ a ++ '^' :: (b ++ '^' :: c), isN d = true ∨ d = '^' := by
      intro d hd
      simp only [List.mem_append, List.mem_cons] at hd
      rcases hd with h | h | h | h | h
      · exact Or.inl (hda d h)
      · exact Or.inr h
      · exact Or.inl (hdb d h)
      · exact Or.inr h
      · exact Or.inl (hdc d h)
    have h1 : '(' ∉ a ++ '^' :: (b ++ '^' :: c) := by
      intro hm
      rcases hplain _ hm with h | h
      · exact absurd h (by decide)
      · exact absurd h (by decide)
    have h2 : '.' ∉ a ++ '^' :: (b ++ '^' :: c) := by
      intro hm
      rcases hplain _ hm with h | h
      · exact absurd h (by decide)
      · exact absurd h (by decide)
    have h3 : ∀ d ∈ a ++ '^' :: (b ++ '^' :: c), isL d = false := by
      intro d hd
      rcases hplain d hd with h | h
      · exact isN_not_isL d h
      · rw [h]; decide
    rw [parseExpression_unfold, parseExpressionBody, cascade_plain T _ _ 0 h1 h2 h3,
      parseIntExpressions_three a b c '^' '^' ha hb hc hda hdb hdc hx hx]
    simp only [Run.bind, opStrings_three]
    rfl
  refine ⟨main, ?_, ?_, ?_, ?_⟩
  · intro da db dc va vb vc
    rw [main]
    simp only [intExpression, da, db, dc, va, vb, vc, and_self, if_true,
      NewExpressionWithConstant, MakeFraction, RaiseExpressionToPower]
    refine ⟨trivial, ?_⟩
    intro h
    injection h with h
    injection h with h
    injection h with h1 h2
    cases h1
  · rw [parseExpression_eq_fuel T 6 _ (by decide)]
    rfl
  · simp [exactValue]
    norm_num
  · simp [exactValue]
    norm_num

/-- Witness of C2 on the line `12^3^45`. -/
theorem parseExpression_power_left_assoc_witness :
    "12".toList ≠ [] ∧ "3".toList ≠ [] ∧ "45".toList ≠ [] ∧
    (∀ d ∈ "12".toList, isN d = true) ∧ (∀ d ∈ "3".toList, isN d = true) ∧
    (∀ d ∈ "45".toList, isN d = true) ∧
    parseExpression setupConstantExps ("12".toList ++ '^' :: ("3".toList ++ '^' :: "45".toList)) =
      Run.done (RaiseExpressionToPower
        (RaiseExpressionToPower (intExpression "12".toList) (intExpression "3".toList))
        (intExpression "45".toList)) :=
  ⟨by decide, by decide, by decide, by decide, by decide, by decide,
    (parseExpression_power_left_assoc setupConstantExps "12".toList "3".toList "45".toList
      (by decide) (by decide) (by decide) (by decide) (by decide) (by decide)).1⟩

end Literals

/-! ## Claims about the operator resolver -/

section Resolver

theorem resolveChars_withoutSpaces (v : Str) :
    ∀ foundOp : Int, resolveChars foundOp v = resolveChars foundOp (withoutSpaces v) := by
  induction v with
  | nil => intro foundOp; rfl
  | cons c cs ih =>
    intro foundOp
    by_cases hc : c = ' '
    · subst hc
      simp only [withoutSpaces] at ih ⊢
      simp only [resolveChars, if_true, ih foundOp, List.filter, ne_eq, not_true_eq_false,
        decide_False]
    · have hf : withoutSpaces (c :: cs) = c :: withoutSpaces cs := by
        simp [withoutSpaces, hc]
      rw [hf]
      simp only [resolveChars, if_neg hc, ih]

theorem resolveChars_minus (o : Int) (cs : Str) (h : isOperator o = true) :
    resolveChars o ('-' :: cs) = resolveChars (counterpart o) cs := by
  rcases isOperator_cases o h with h | h | h | h | h | h | h | h <;>
    subst h <;> rfl

theorem counterpart_counterpart (o : Int) (h : isOperator o = true) :
    isOperator (counterpart o) = true ∧ counterpart (counterpart o) = o := by
  rcases isOperator_cases o h with h | h | h | h | h | h | h | h <;>
    subst h <;> decide

/-- After a base operator every `-` toggles the code. -/
theorem resolveChars_replicate (k : Nat) :
    ∀ o : Int, isOperator o = true →
      resolveChars o (List.replicate k '-') =
        some (if k % 2 = 0 then o else counterpart o) := by
  induction k with
  | zero => intro o _; rfl
  | succ n ih =>
    intro o h
    have hc := counterpart_counterpart o h
    rw [List.replicate_succ, resolveChars_minus o _ h, ih _ hc.1, hc.2]
    by_cases hn : n % 2 = 0
    · have : (n + 1) % 2 ≠ 0 := by omega
      simp [hn, this]
    · have : (n + 1) % 2 = 0 := by omega
      simp [hn, this]

theorem resolveChars_base (b : Char) (cs : Str) (hb : b ∈ baseOperators) :
    resolveChars (-1) (b :: cs) = resolveChars (plainCode b) cs ∧
      isOperator (plainCode b) = true := by
  simp only [baseOperators, List.mem_cons, List.mem_singleton, List.not_mem_nil, or_false] at hb
  rcases hb with h | h | h | h | h <;> subst h <;> exact ⟨rfl, by decide⟩

theorem resolveChars_other (o : Int) (c : Char) (cs : Str) (h : isOperator o = true)
    (h1 : c ≠ '-') (h2 : c ≠ ' ') : resolveChars o (c :: cs) = none := by
  have ho : o ≠ -1 := by
    rintro rfl
    exact absurd h (by decide)
  simp only [resolveChars, if_neg h1, if_neg h2, if_neg ho]

theorem resolveChars_replicate_other (k : Nat) (c : Char) (rest : Str) (h1 : c ≠ '-')
    (h2 : c ≠ ' ') :
    ∀ o : Int, isOperator o = true →
      resolveChars o (List.replicate k '-' ++ c :: rest) = none := by
  induction k with
  | zero => intro o h; exact resolveChars_other o c rest h h1 h2
  | succ n ih =>
    intro o h
    rw [List.replicate_succ, List.cons_append, resolveChars_minus o _ h]
    exact ih _ (counterpart_counterpart o h).1

theorem resolveOperator_of_ne_nil (i : Nat) (v : Str) (h : v ≠ []) :
    resolveOperator i v = resolveChars (-1) (withoutSpaces v) := by
  have : ¬ (v.length = 0 ∧ i ≠ 0) := by
    intro hh
    exact h (List.length_eq_zero.1 hh.1)
  rw [resolveOperator, if_neg this, resolveChars_withoutSpaces]

theorem resolveOperators_none (vs : List Str) :
    ∀ n : Nat, (∃ v ∈ vs, ∀ i, resolveOperator i v = none) → resolveOperators n vs = none := by
  induction vs with
  | nil => intro n h; obtain ⟨v, hv, _⟩ := h; simp at hv
  | cons w ws ih =>
    intro n h
    obtain ⟨v, hv, hnone⟩ := h
    rcases List.mem_cons.1 hv with rfl | hv
    · simp only [resolveOperators, hnone n]
    · simp only [resolveOperators]
      cases resolveOperator n w with
      | none => rfl
      | some op => simp only [ih (n + 1) ⟨v, hv, hnone⟩]

/-- C3: operator sign toggling.  An operator text that, spaces apart, is a base
operator character `b` followed by `k` characters `-` resolves to the plain
code of `b` when `k` is even and to its counterpart when `k` is odd; a text
that has another non-space character after `b` does not resolve, and then the
whole list of operators does not resolve (`parseExpression` returns nil).  So
`2*-3` parses to `2*(-3)`, of value -6, `2*--3` to `2*3`, of value 6, and
`2--3` to `2+3`, of value 5. -/
theorem resolveOperator_sign_toggling (i : Nat) (v : Str) (b : Char) (k : Nat)
    (hb : b ∈ baseOperators) (hv : withoutSpaces v = b :: List.replicate k '-') :
    resolveOperator i v = some (if k % 2 = 0 then plainCode b else counterpart (plainCode b)) ∧
    (∀ (w : Str) (c : Char) (rest : Str), c ≠ '-' →
      withoutSpaces w = b :: (List.replicate k '-' ++ c :: rest) →
      (∀ j, resolveOperator j w = none) ∧
      ∀ (n : Nat) (vs : List Str), w ∈ vs → resolveOperators n vs = none) ∧
    parseExpression setupConstantExps "2*+3".toList = Run.done none ∧
    parseExpression setupConstantExps "2*-3".toList =
      Run.done (some (Expr.mul (Expr.const (Number.fraction 2 1))
        (Expr.neg (Expr.const (Number.fraction 3 1))))) ∧
    exactValue (Expr.mul (Expr.const (Number.fraction 2 1))
        (Expr.neg (Expr.const (Number.fraction 3 1)))) = some (-6) ∧
    parseExpression setupConstantExps "2*--3".toList =
      Run.done (some (Expr.mul (Expr.const (Number.fraction 2 1))
        (Expr.const (Number.fraction 3 1)))) ∧
    exactValue (Expr.mul (Expr.const (Number.fraction 2 1))
        (Expr.const (Number.fraction 3 1))) = some 6 ∧
    parseExpression setupConstantExps "2--3".toList =
      Run.done (some (Expr.add (Expr.const (Number.fraction 2 1))
        (Expr.const (Number.fraction 3 1)))) ∧
    exactValue (Expr.add (Expr.const (Number.fraction 2 1))
        (Expr.const (Number.fraction 3 1))) = some 5 := by
  have hne : ∀ w : Str, ∀ l : Str, withoutSpaces w = b :: l → w ≠ [] := by
    intro w l hw h
    rw [h] at hw
    simp [withoutSpaces] at hw
  refine ⟨?_, ?_, ?_, ?_, ?_, ?_, ?_, ?_, ?_⟩
  · rw [resolveOperator_of_ne_nil i v (hne v _ hv), hv, (resolveChars_base b _ hb).1,
      resolveChars_replicate k _ (resolveChars_base b [] hb).2]
  · intro w c rest hc hw
    have hsp : c ≠ ' ' := by
      have hm : c ∈ withoutSpaces w := by rw [hw]; simp
      simp only [withoutSpaces, List.mem_filter, decide_eq_true_eq] at hm
      exact hm.2
    have hnone : ∀ j, resolveOperator j w = none := by
      intro j
      rw [resolveOperator_of_ne_nil j w (hne w _ hw), hw, (resolveChars_base b _ hb).1,
        resolveChars_replicate_other k c rest hc hsp _ (resolveChars_base b [] hb).2]
    exact ⟨hnone, fun n vs hmem => resolveOperators_none vs n ⟨w, hmem, hnone⟩⟩
  · rw [parseExpression_eq_fuel _ 5 _ (by decide)]; rfl
  · rw [parseExpression_eq_fuel _ 5 _ (by decide)]; rfl
  · simp [exactValue]; norm_num
  · rw [parseExpression_eq_fuel _ 6 _ (by decide)]; rfl
  · simp [exactValue]; norm_num
  · rw [parseExpression_eq_fuel _ 5 _ (by decide)]; rfl
  · simp [exactValue]; norm_num

/-- Witness of C3 on the operator text `* - -` in slot 1. -/
theorem resolveOperator_sign_toggling_witness :
    '*' ∈ baseOperators ∧ withoutSpaces "* - -".toList = '*' :: List.replicate 2 '-' ∧
    resolveOperator 1 "* - -".toList =
      some (if 2 % 2 = 0 then plainCode '*' else counterpart (plainCode '*')) :=
  ⟨by decide, by decide,
    (resolveOperator_sign_toggling 1 "* - -".toList '*' 2 (by decide) (by decide)).1⟩

end Resolver

/-! ## Claims about implicit multiplication -/

section Implicit

/-- C4: implicit multiplication on empty operator text.  When a token starts
where the previous one ended (`lo = lasti`), the operator text taken for it is
empty; an empty text in a slot other than the first resolves to the multiply
code; and two tokens under that code are combined as a product.  The line
`2(3+1)` parses to `product(2, group(sum(3, 1)))`, of value 8. -/
theorem implicit_multiplication_on_empty_text (T : Tables) (s : Str) (lasti i : Nat)
    (v : PElement) (vs : List PElement) (t0 t1 : Option Expr)
    (hadj : v.lo = lasti) (hin : v.lo ≤ s.length) (hi : i ≠ 0) :
    opStrings s lasti (v :: vs) = (opStrings s v.hi vs).map (fun rest => [] :: rest) ∧
    resolveOperator i [] = some o_mul ∧
    reduceExpression [t0, t1] [o_inv, o_mul] = MultiplyExpressions t0 t1 ∧
    parseExpression T "2(3+1)".toList =
      Run.done (some (Expr.mul (Expr.const (Number.fraction 2 1))
        (Expr.group (Expr.add (Expr.const (Number.fraction 3 1))
          (Expr.const (Number.fraction 1 1)))))) ∧
    exactValue (Expr.mul (Expr.const (Number.fraction 2 1))
        (Expr.group (Expr.add (Expr.const (Number.fraction 3 1))
          (Expr.const (Number.fraction 1 1))))) = some 8 := by
  refine ⟨?_, ?_, ?_, ?_, ?_⟩
  · have hs : slice s lasti v.lo = [] := by simp [slice, hadj]
    have hc : lasti ≤ v.lo ∧ v.lo ≤ s.length := ⟨le_of_eq hadj.symm, hin⟩
    simp only [opStrings, if_pos hc, hs]
  · simp [resolveOperator, hi, resolveChars]
  · rfl
  · rw [parseExpression_eq_fuel T 7 _ (by decide)]; rfl
  · simp [exactValue]; norm_num

/-- Witness of C4 on the two tokens of `2(3+1)`, whose spans are `[0, 1)` and
`[1, 6)`. -/
theorem implicit_multiplication_on_empty_text_witness :
    (1 : Nat) = 1 ∧ 1 ≤ "2(3+1)".toList.length ∧ (1 : Nat) ≠ 0 ∧
    resolveOperator 1 [] = some o_mul ∧
    reduceExpression [some (Expr.const (Number.fraction 2 1)), some (Expr.unknown ['x'])]
        [o_inv, o_mul] =
      MultiplyExpressions (some (Expr.const (Number.fraction 2 1))) (some (Expr.unknown ['x'])) :=
  ⟨rfl, by decide, by decide,
    (implicit_multiplication_on_empty_text setupConstantExps "2(3+1)".toList 1 1
      { exp := some (Expr.unknown ['x']), lo := 1, hi := 6 } []
      (some (Expr.const (Number.fraction 2 1))) (some (Expr.unknown ['x']))
      rfl (by decide) (by decide)).2.1,
    (implicit_multiplication_on_empty_text setupConstantExps "2(3+1)".toList 1 1
      { exp := some (Expr.unknown ['x']), lo := 1, hi := 6 } []
      (some (Expr.const (Number.fraction 2 1))) (some (Expr.unknown ['x']))
      rfl (by decide) (by decide)).2.2.1⟩

/-- C5 (the code on the line `2 3`): the operator text between the two tokens
is one space, which resolves to `o_inv` and not to the multiply code; no pass
of the reducer combines the second token, and the line parses to the exact
constant 2, of value 2, where the specification gives the product, of value
6. -/
theorem parseExpression_space_separated (T : Tables) :
    resolveOperator 1 [' '] = some o_inv ∧
    parseExpression T "2 3".toList = Run.done (some (Expr.const (Number.fraction 2 1))) ∧
    parseExpression T "2 3".toList ≠
      Run.done (MultiplyExpressions (intExpression "2".toList) (intExpression "3".toList)) ∧
    exactValue (Expr.const (Number.fraction 2 1)) = some 2 := by
  have h : parseExpression T "2 3".toList = Run.done (some (Expr.const (Number.fraction 2 1))) := by
    rw [parseExpression_eq_fuel T 4 _ (by decide)]; rfl
  refine ⟨rfl, h, ?_, ?_⟩
  · rw [h]; decide
  · simp [exactValue]

end Implicit

/-! ## Claims about the leading sign -/

section LeadingSign

/-- C6 (as stated, refuted): on the tokens of `-2^2` the reducer returns
`-(2^2)`, the sign inversion of the whole power, and not what it returns
without the leading operator on the sign-inverted first token, which is
`(-2)^2`; the line `-2^2` parses to `-(2^2)`. -/
theorem leading_minus_not_on_first_token :
    reduceExpression
        [some (Expr.const (Number.fraction 2 1)), some (Expr.const (Number.fraction 2 1))]
        [o_sub, o_pow] =
      some (Expr.neg (Expr.pow (Expr.const (Number.fraction 2 1))
        (Expr.const (Number.fraction 2 1)))) ∧
    reduceExpression
        [SignInvertedExpression (some (Expr.const (Number.fraction 2 1))),
          some (Expr.const (Number.fraction 2 1))]
        [o_inv, o_pow] =
      some (Expr.pow (Expr.neg (Expr.const (Number.fraction 2 1)))
        (Expr.const (Number.fraction 2 1))) ∧
    reduceExpression
        [some (Expr.const (Number.fraction 2 1)), some (Expr.const (Number.fraction 2 1))]
        [o_sub, o_pow] ≠
      reduceExpression
        [SignInvertedExpression (some (Expr.const (Number.fraction 2 1))),
          some (Expr.const (Number.fraction 2 1))]
        [o_inv, o_pow] ∧
    parseExpression setupConstantExps "-2^2".toList =
      Run.done (some (Expr.neg (Expr.pow (Expr.const (Number.fraction 2 1))
        (Expr.const (Number.fraction 2 1))))) := by
  refine ⟨rfl, rfl, by decide, ?_⟩
  rw [parseExpression_eq_fuel _ 5 _ (by decide)]; rfl

/-- C6 (amended): for every token sequence `t0 :: ts` whose leading operator
slot holds the plain `-` and whose other operator codes `os` are among the
eight, the reducer returns the reference sum in which the whole first term (the
first token with every power and multiply/divide operand up to the first
add/subtract operator) is sign-inverted. -/
theorem reduceExpression_leading_minus (t0 : Option Expr) (ts : List (Option Expr))
    (os : List Int) (hlen : ts.length = os.length) (hops : ∀ o ∈ os, isOperator o = true) :
    reduceExpression (t0 :: ts) (o_sub :: os) =
      referenceSum
        (SignInvertedExpression (referenceTerm (segments isAddSub t0 (os.zip ts)).1))
        (segments isAddSub t0 (os.zip ts)).2 := by
  have hz := zip_maps os ts hlen
  have h := reduceExpression_eq o_sub t0 (os.zip ts)
  rw [hz.1, hz.2] at h
  rw [h, termsOf_eq t0 (os.zip ts) (by rw [hz.2]; exact hops)]
  simp only [if_true]
  exact collapse_terms_eq _ t0 (os.zip ts)

/-- Witness of the amended C6 on the tokens of `-2^2+3`. -/
theorem reduceExpression_leading_minus_witness :
    [some (Expr.const (Number.fraction 2 1)), some (Expr.const (Number.fraction 3 1))].length =
      [o_pow, o_add].length ∧
    (∀ o ∈ [o_pow, o_add], isOperator o = true) ∧
    reduceExpression
        [some (Expr.const (Number.fraction 2 1)), some (Expr.const (Number.fraction 2 1)),
          some (Expr.const (Number.fraction 3 1))]
        [o_sub, o_pow, o_add] =
      referenceSum
        (SignInvertedExpression (referenceTerm (segments isAddSub
          (some (Expr.const (Number.fraction 2 1)))
          ([o_pow, o_add].zip
            [some (Expr.const (Number.fraction 2 1)),
              some (Expr.const (Number.fraction 3 1))])).1))
        (segments isAddSub (some (Expr.const (Number.fraction 2 1)))
          ([o_pow, o_add].zip
            [some (Expr.const (Number.fraction 2 1)),
              some (Expr.const (Number.fraction 3 1))])).2 ∧
    reduceExpression
        [some (Expr.const (Number.fraction 2 1)), some (Expr.const (Number.fraction 2 1)),
          some (Expr.const (Number.fraction 3 1))]
        [o_sub, o_pow, o_add] =
      some (Expr.add
        (Expr.neg (Expr.pow (Expr.const (Number.fraction 2 1))
          (Expr.const (Number.fraction 2 1))))
        (Expr.const (Number.fraction 3 1))) :=
  ⟨rfl, by decide, reduceExpression_leading_minus _ _ _ rfl (by decide), by decide⟩

end LeadingSign

/-! ## Claims about the cascade -/

section Cascade

theorem cascade_eq_fuel (T : Tables) (n : Nat) (s : Str) (starti : Nat) (h : s.length ≤ n) :
    parseParenthesisEnclosedExpressions T (parseExpression T) s starti =
      parseParenthesisEnclosedExpressions T (parseExpressionFuel T n) s starti :=
  parseParenthesisEnclosedExpressionsAux_congr T _ _ _ s starti
    (fun t ht => parseExpression_eq_fuel T n t (by omega))

/-- C7 (the code on the line `ln(2)+1`): after the call `ln(2)`, whose span is
`[0, 5)`, stage 2 goes on from the opening parenthesis, not from the end of the
call, so the argument is parsed a second time as a token of span `[3, 4)`.  The
spans are not in increasing order, the operator text `s[5:3]` is out of range,
and `parseExpression` panics.  The same happens after a namespace call, as in
`m.pi(2)+1`. -/
theorem spans_overlap_after_call :
    (parseParenthesisEnclosedExpressions setupConstantExps (parseExpression setupConstantExps)
        "ln(2)+1".toList 0).map (fun vs => vs.map fun v => (v.lo, v.hi)) =
      Run.done [(0, 5), (3, 4), (6, 7)] ∧
    parseExpression setupConstantExps "ln(2)+1".toList = Run.panic ∧
    (parseParenthesisEnclosedExpressions setupConstantExps (parseExpression setupConstantExps)
        "m.pi(2)+1".toList 0).map (fun vs => vs.map fun v => (v.lo, v.hi)) =
      Run.done [(0, 7), (5, 6), (8, 9)] ∧
    parseExpression setupConstantExps "m.pi(2)+1".toList = Run.panic := by
  refine ⟨?_, ?_, ?_, ?_⟩
  · rw [cascade_eq_fuel _ 7 _ _ (by decide)]; rfl
  · rw [parseExpression_eq_fuel _ 8 _ (by decide)]; rfl
  · rw [cascade_eq_fuel _ 9 _ _ (by decide)]; rfl
  · rw [parseExpression_eq_fuel _ 10 _ (by decide)]; rfl

/-- C8 (the code on the line `2*ln(3)`): the pattern of stage 2 is anchored at
the start of the text, so it does not match `2*ln(3)`; the name `ln` becomes a
free variable, the text `(` before the token 3 is not an operator, and the line
parses to nil.  At the start of the text the call is recognised: `ln(3)` parses
to the template `ln` called with `a := 3`. -/
theorem call_after_operator_not_recognised :
    findStdfuncPar "2*ln(3)".toList = none ∧
    (parseParenthesisEnclosedExpressions setupConstantExps (parseExpression setupConstantExps)
        "2*ln(3)".toList 0) =
      Run.done
        [{ exp := some (Expr.const (Number.fraction 2 1)), lo := 0, hi := 1 },
         { exp := some (Expr.unknown "ln".toList), lo := 2, hi := 4 },
         { exp := some (Expr.const (Number.fraction 3 1)), lo := 5, hi := 6 }] ∧
    parseExpression setupConstantExps "2*ln(3)".toList = Run.done none ∧
    parseExpression setupConstantExps "ln(3)".toList =
      Run.done (some (Expr.ln (Expr.const (Number.fraction 3 1)))) := by
  refine ⟨rfl, ?_, ?_, ?_⟩
  · rw [cascade_eq_fuel _ 7 _ _ (by decide)]; rfl
  · rw [parseExpression_eq_fuel _ 8 _ (by decide)]; rfl
  · rw [parseExpression_eq_fuel _ 6 _ (by decide)]; rfl

theorem firstParenthesisLoop_open (r : Str) (i : Nat) (ret0 : Int) (pc : Nat) :
    firstParenthesisLoop ('(' :: r) i ret0 pc =
      firstParenthesisLoop r (i + 1) (if ret0 = -1 then (i : Int) else ret0) (pc + 1) := by
  simp [firstParenthesisLoop]

theorem firstParenthesisLoop_close (r : Str) (i : Nat) (ret0 : Int) (d : Nat) :
    firstParenthesisLoop (')' :: r) i ret0 (d + 2) =
      firstParenthesisLoop r (i + 1) ret0 (d + 1) := by
  simp [firstParenthesisLoop]

theorem firstParenthesisLoop_last (r : Str) (i : Nat) (ret0 : Int) :
    firstParenthesisLoop (')' :: r) i ret0 1 = (ret0, ((i + 1 : Nat) : Int)) := by
  simp [firstParenthesisLoop]

theorem firstParenthesisLoop_other (c : Char) (r : Str) (i : Nat) (ret0 : Int) (pc : Nat)
    (h1 : c ≠ '(') (h2 : c ≠ ')') :
    firstParenthesisLoop (c :: r) i ret0 pc = firstParenthesisLoop r (i + 1) ret0 pc := by
  simp [firstParenthesisLoop, h1, h2]

/-- Inside properly nested text the loop of `firstParenthesisIndex` does not
return; it returns at the parenthesis that closes the one open before the
text. -/
theorem firstParenthesisLoop_nested (t : Str) :
    ∀ (depth i : Nat) (ret0 : Int) (rest : Str), nested t depth = true → ret0 ≠ -1 →
      firstParenthesisLoop (t ++ ')' :: rest) i ret0 (depth + 1) =
        (ret0, ((i + t.length + 1 : Nat) : Int)) := by
  induction t with
  | nil =>
    intro depth i ret0 rest h _
    simp only [nested, decide_eq_true_eq] at h
    subst h
    rw [List.nil_append, firstParenthesisLoop_last]
    rfl
  | cons c cs ih =>
    intro depth i ret0 rest h hr
    have hl : i + 1 + cs.length + 1 = i + (c :: cs).length + 1 := by
      simp only [List.length_cons]; omega
    by_cases h1 : c = '('
    · subst h1
      simp only [nested, if_true] at h
      rw [List.cons_append, firstParenthesisLoop_open, if_neg hr,
        ih (depth + 1) (i + 1) ret0 rest h hr, hl]
    · by_cases h2 : c = ')'
      · subst h2
        simp only [nested, if_neg h1, if_true, Bool.and_eq_true, decide_eq_true_eq] at h
        obtain ⟨hd, hn⟩ := h
        obtain ⟨d, rfl⟩ : ∃ d, depth = d + 1 := ⟨depth - 1, by omega⟩
        rw [List.cons_append, firstParenthesisLoop_close,
          ih d (i + 1) ret0 rest (by simpa using hn) hr, hl]
      · simp only [nested, if_neg h1, if_neg h2] at h
        rw [List.cons_append, firstParenthesisLoop_other c _ _ _ _ h1 h2,
          ih depth (i + 1) ret0 rest h hr, hl]

/-- C9: bare parenthesis groups re-enter the parser.  For every text `t` whose
parentheses are properly nested, `parseExpression("(" + t + ")")` is the group
built on `parseExpression(t)`: the grouped expression, nil when
`parseExpression(t)` is nil (and a panic when it panics); and `()` parses to
nil.  So `(2+3)` parses to the group of the sum of 2 and 3, and groups nest:
`((2+3)*4)` parses to the group of the product of the group `(2+3)` and 4. -/
theorem parseExpression_group (T : Tables) (t : Str) (h : properlyNested t = true) :
    parseExpression T ('(' :: (t ++ [')'])) =
        (parseExpression T t).map ParenthesisEnclosedExpression ∧
    parseExpression T "()".toList = Run.done none ∧
    (∀ e, parseExpression T t = Run.done (some e) →
      parseExpression T ('(' :: (t ++ [')'])) = Run.done (some (Expr.group e))) ∧
    parseExpression T "(2+3)".toList =
      Run.done (some (Expr.group
        (Expr.add (Expr.const (Number.fraction 2 1)) (Expr.const (Number.fraction 3 1))))) ∧
    parseExpression T "((2+3)*4)".toList =
      Run.done (some (Expr.group (Expr.mul
        (Expr.group
          (Expr.add (Expr.const (Number.fraction 2 1)) (Expr.const (Number.fraction 3 1))))
        (Expr.const (Number.fraction 4 1))))) := by
  have empty : parseExpression T [] = Run.done none := by
    rw [parseExpression_eq_fuel T 1 _ (by decide)]; rfl
  have main : parseExpression T ('(' :: (t ++ [')'])) =
      (parseExpression T t).map ParenthesisEnclosedExpression := by
    rw [parseExpression_unfold, parseExpressionBody, parseParenthesisEnclosedExpressions]
    have hfind : findNonfuncPar ('(' :: (t ++ [')'])) = some (0, 1) := by
      have hN : isN '(' = false := by decide
      simp [findNonfuncPar, leftmost, matchNonfuncPar, List.dropWhile, List.takeWhile, hN]
    have hloop : firstParenthesisIndex (List.drop 0 ('(' :: (t ++ [')']))) =
        (0, ((t.length + 2 : Nat) : Int)) := by
      have := firstParenthesisLoop_nested t 0 1 ((0 : Nat) : Int) [] h (by decide)
      rw [List.drop_zero, firstParenthesisIndex, firstParenthesisLoop_open, if_pos rfl, this,
        show 1 + t.length + 1 = t.length + 2 by omega]
      rfl
    simp only [parseParenthesisEnclosedExpressionsAux, hfind, hloop]
    have hlen : ('(' :: (t ++ [')'])).length = t.length + 2 := by simp
    have e0 : ((0 : Int) + ((0 : Nat) : Int)).toNat = 0 := by simp
    have e1 : (((t.length + 2 : Nat) : Int) + ((0 : Nat) : Int)).toNat = t.length + 2 := by
      simp
      omega
    simp only [e0, e1, hlen, ne_eq, not_true_eq_false, false_and, if_false, Nat.lt_irrefl,
      Nat.add_zero, gt_iff_lt]
    have hsl : slice ('(' :: (t ++ [')'])) (0 + 1) (t.length + 2 - 1) = t := by
      simp [slice]
    by_cases ht : t = []
    · subst ht
      simp [Run.bind, Run.map, opStrings, slice, resolveOperators, resolveOperator, resolveChars,
        reduceExpression, powLoop, mulLoop, addLoop, leadingSign, empty,
        ParenthesisEnclosedExpression]
      decide
    · have hpos : 0 < t.length := List.length_pos.2 ht
      have hge : ¬ (0 + 1 ≥ t.length + 2 - 1) := by omega
      have hlt : t.length < t.length + 2 := by omega
      have h02 : 0 < t.length + 2 := by omega
      simp only [if_pos h02, if_neg hge, hsl, if_pos hlt]
      cases parseExpression T t with
      | panic => rfl
      | done e =>
        simp only [Run.bind, Run.map, opStrings, Nat.le_refl, Nat.zero_le, and_self, if_true,
          List.length_cons, List.length_append, List.length_singleton]
        rfl
  refine ⟨main, ?_, ?_, ?_, ?_⟩
  · rw [parseExpression_eq_fuel T 3 _ (by decide)]; rfl
  · intro e he
    rw [main, he]
    rfl
  · rw [parseExpression_eq_fuel T 6 _ (by decide)]; rfl
  · rw [parseExpression_eq_fuel T 10 _ (by decide)]; rfl

theorem parseExpression_group_witness :
    properlyNested "2*(3+1)".toList = true ∧
    parseExpression setupConstantExps "2*(3+1)".toList =
      Run.done (some (Expr.mul (Expr.const (Number.fraction 2 1))
        (Expr.group
          (Expr.add (Expr.const (Number.fraction 3 1)) (Expr.const (Number.fraction 1 1)))))) ∧
    parseExpression setupConstantExps ('(' :: ("2*(3+1)".toList ++ [')'])) =
      Run.done (some (Expr.group (Expr.mul (Expr.const (Number.fraction 2 1))
        (Expr.group
          (Expr.add (Expr.const (Number.fraction 3 1))
            (Expr.const (Number.fraction 1 1))))))) :=
  ⟨by decide, by rw [parseExpression_eq_fuel _ 8 _ (by decide)]; rfl,
    (parseExpression_group setupConstantExps "2*(3+1)".toList (by decide)).2.2.1 _
      (by rw [parseExpression_eq_fuel _ 8 _ (by decide)]; rfl)⟩

end Cascade

/-! ## Claims about argument binding -/

section Arguments

theorem lookup_cons_self {β : Type} (x : Str) (b : β) (m : List (Str × β)) :
    List.lookup x ((x, b) :: m) = some b := by
  simp [List.lookup]

theorem lookup_cons_ne {β : Type} (x a : Str) (b : β) (m : List (Str × β)) (h : x ≠ a) :
    List.lookup x ((a, b) :: m) = List.lookup x m := by
  have : (x == a) = false := by simpa using h
  simp [List.lookup, this]

theorem lookup_append_single {β : Type} (l : List (Str × β)) (k x : Str) (v : β) :
    List.lookup x (l ++ [(k, v)]) =
      match List.lookup x l with
      | some w => some w
      | none => if x = k then some v else none := by
  induction l with
  | nil =>
    by_cases hx : x = k
    · subst hx; simp [lookup_cons_self]
    · rw [List.nil_append, lookup_cons_ne x k v [] hx]
      simp [hx]
  | cons p l ih =>
    obtain ⟨a, b⟩ := p
    by_cases hx : x = a
    · subst hx; rw [List.cons_append, lookup_cons_self, lookup_cons_self]
    · rw [List.cons_append, lookup_cons_ne x a b _ hx, lookup_cons_ne x a b _ hx, ih]

end Arguments

section Arguments2

theorem splitOn_length (sep : Char) (s : Str) : (splitOn sep s).length = s.count sep + 1 := by
  induction s with
  | nil => rfl
  | cons c cs ih =>
    by_cases hc : c = sep
    · subst hc
      simp [splitOn, ih]
    · have hc' : (c == sep) = false := by simpa using hc
      simp only [splitOn, if_neg hc, List.count_cons, hc', Bool.false_eq_true, if_false,
        Nat.add_zero]
      cases hsp : splitOn sep cs with
      | nil => rw [hsp] at ih; simp at ih
      | cons h t => rw [hsp] at ih; simpa using ih

end Arguments2

section Arguments3

theorem lookup_eq_none_iff_not_mem {β : Type} (l : List (Str × β)) (x : Str) :
    List.lookup x l = none ↔ x ∉ l.map Prod.fst := by
  induction l with
  | nil => simp
  | cons q l ih =>
    obtain ⟨k, e⟩ := q
    by_cases hx : x = k
    · subst hx
      rw [lookup_cons_self]
      constructor
      · intro h; cases h
      · intro h; exact absurd (List.mem_cons_self x (l.map Prod.fst)) h
    · rw [lookup_cons_ne x k e l hx, ih]
      constructor
      · intro h hm
        rcases List.mem_cons.1 hm with h1 | h1
        · exact hx h1
        · exact h h1
      · intro h hm
        exact h (List.mem_cons_of_mem _ hm)

end Arguments3

section Arguments4

end Arguments4

section Arguments5

end Arguments5

/-! ## The fuel of the stage functions is never exhausted -/

section StageFuel

/-- A match of the leftmost search is not empty and lies inside the text, when
the anchored matcher only gives such matches. -/
theorem leftmost_bounds (m : Str → Option Nat)
    (hm : ∀ t n, m t = some n → 0 < n ∧ n ≤ t.length) (s : Str) :
    ∀ (i a b : Nat), leftmost m i s = some (a, b) → i ≤ a ∧ a < b ∧ b ≤ i + s.length := by
  induction s with
  | nil =>
    intro i a b h
    simp only [leftmost] at h
    cases hn : m [] with
    | none => rw [hn] at h; cases h
    | some n =>
      have := hm [] n hn
      simp at this
      omega
  | cons c cs ih =>
    intro i a b h
    simp only [leftmost] at h
    cases hn : m (c :: cs) with
    | some n =>
      rw [hn] at h
      simp only [Option.some.injEq, Prod.mk.injEq] at h
      have := hm (c :: cs) n hn
      obtain ⟨rfl, rfl⟩ := h
      exact ⟨le_refl _, by omega, by omega⟩
    | none =>
      rw [hn] at h
      have := ih (i + 1) a b h
      simp only [List.length_cons]
      omega

theorem length_takeWhile_add_dropWhile {α : Type} (p : α → Bool) (l : List α) :
    (l.takeWhile p).length + (l.dropWhile p).length = l.length := by
  rw [← List.length_append, List.takeWhile_append_dropWhile]

theorem length_pos_of_head? {α : Type} (l : List α) (a : α) (h : l.head? = some a) :
    0 < l.length := by
  cases l with
  | nil => cases h
  | cons x xs => simp

theorem matchInt_bounds (t : Str) (n : Nat) (h : matchInt t = some n) :
    0 < n ∧ n ≤ t.length := by
  simp only [matchInt] at h
  split at h
  · rename_i hne
    simp only [Option.some.injEq] at h
    subst h
    have := length_takeWhile_add_dropWhile isN t
    exact ⟨List.length_pos.2 hne, by omega⟩
  · cases h

theorem matchSdFloat_bounds (t : Str) (n : Nat) (h : matchSdFloat t = some n) :
    0 < n ∧ n ≤ t.length := by
  simp only [matchSdFloat] at h
  split at h
  · rename_i hd
    split at h
    · simp only [Option.some.injEq] at h
      subst h
      have h1 := length_takeWhile_add_dropWhile isN t
      have h2 := length_takeWhile_add_dropWhile isN (t.dropWhile isN).tail
      have h3 := length_pos_of_head? _ _ hd
      have h4 : (t.dropWhile isN).tail.length = (t.dropWhile isN).length - 1 := by simp
      exact ⟨by omega, by omega⟩
    · cases h
  · cases h

theorem matchNsfunc_bounds (t : Str) (n : Nat) (h : matchNsfunc t = some n) :
    1 < n ∧ n ≤ t.length := by
  simp only [matchNsfunc] at h
  split at h
  · rename_i hd
    split at h
    · rename_i hp
      simp only [Option.some.injEq] at h
      subst h
      have h1 := length_takeWhile_add_dropWhile isLN t
      have h2 := length_takeWhile_add_dropWhile isLN (t.dropWhile isLN).tail
      have h3 := length_pos_of_head? _ _ hd.2
      have h4 : (t.dropWhile isLN).tail.length = (t.dropWhile isLN).length - 1 := by simp
      have h5 : 0 < ((t.dropWhile isLN).tail.takeWhile isLN).length := by
        cases hh : (t.dropWhile isLN).tail.takeWhile isLN with
        | nil => rw [hh] at hp; simp at hp
        | cons x xs => simp
      exact ⟨by omega, by omega⟩
    · cases h
  · cases h

theorem matchNonfuncPar_bounds (t : Str) (n : Nat) (h : matchNonfuncPar t = some n) :
    0 < n ∧ n ≤ t.length := by
  simp only [matchNonfuncPar] at h
  split at h
  · rename_i hd
    simp only [Option.some.injEq] at h
    subst h
    have h1 := length_takeWhile_add_dropWhile isN t
    have h3 := length_pos_of_head? _ _ hd
    exact ⟨by omega, by omega⟩
  · cases h

theorem findStdfuncPar_bounds (s : Str) (i0 e1 : Nat) (h : findStdfuncPar s = some (i0, e1)) :
    i0 = 0 ∧ 3 ≤ e1 ∧ e1 ≤ s.length := by
  cases s with
  | nil => cases h
  | cons c r =>
    simp only [findStdfuncPar] at h
    split at h
    · cases h
    · split at h
      · cases h
      · rename_i hne
        split at h
        · rename_i hd
          simp only [Option.some.injEq, Prod.mk.injEq] at h
          obtain ⟨rfl, rfl⟩ := h
          have h1 := length_takeWhile_add_dropWhile isLN r
          have h3 := length_pos_of_head? _ _ hd
          have h5 : 0 < (r.takeWhile isLN).length := List.length_pos.2 hne
          simp only [List.length_cons]
          exact ⟨trivial, by omega, by omega⟩
        · cases h

/-- The end index returned by `firstParenthesisIndex` lies after the index
reached, when text is left. -/
theorem firstParenthesisLoop_snd (t : Str) :
    ∀ (i : Nat) (ret0 : Int) (pc : Nat),
      ((i : Int) ≤ (firstParenthesisLoop t i ret0 pc).2 ∧
        (firstParenthesisLoop t i ret0 pc).2 ≤ ((i + t.length : Nat) : Int)) ∧
      (t ≠ [] → ((i + 1 : Nat) : Int) ≤ (firstParenthesisLoop t i ret0 pc).2) := by
  induction t with
  | nil =>
    intro i ret0 pc
    simp [firstParenthesisLoop]
  | cons c cs ih =>
    intro i ret0 pc
    have hrec := fun r p => ih (i + 1) r p
    have hlen : i + (c :: cs).length = i + 1 + cs.length := by simp only [List.length_cons]; omega
    rw [hlen]
    by_cases h1 : c = '('
    · subst h1
      rw [firstParenthesisLoop_open]
      have := (hrec (if ret0 = -1 then (i : Int) else ret0) (pc + 1)).1
      refine ⟨⟨?_, this.2⟩, fun _ => this.1⟩
      have := this.1
      push_cast at this ⊢
      omega
    · by_cases h2 : c = ')'
      · subst h2
        cases pc with
        | zero =>
          have e : firstParenthesisLoop (')' :: cs) i ret0 0 =
              firstParenthesisLoop cs (i + 1) ret0 0 := by
            simp [firstParenthesisLoop]
          rw [e]
          have := (hrec ret0 0).1
          refine ⟨⟨?_, this.2⟩, fun _ => this.1⟩
          have := this.1
          push_cast at this ⊢
          omega
        | succ d =>
          cases d with
          | zero =>
            rw [firstParenthesisLoop_last]
            push_cast
            exact ⟨⟨by omega, by omega⟩, fun _ => by omega⟩
          | succ d =>
            rw [firstParenthesisLoop_close]
            have := (hrec ret0 (d + 1)).1
            refine ⟨⟨?_, this.2⟩, fun _ => this.1⟩
            have := this.1
            push_cast at this ⊢
            omega
      · rw [firstParenthesisLoop_other c _ _ _ _ h1 h2]
        have := (hrec ret0 pc).1
        refine ⟨⟨?_, this.2⟩, fun _ => this.1⟩
        have := this.1
        push_cast at this ⊢
        omega

theorem parseIntExpressionsAux_fuel (n : Nat) :
    ∀ (m : Nat) (s : Str) (starti : Nat), s.length < n → s.length < m →
      parseIntExpressionsAux n s starti = parseIntExpressionsAux m s starti := by
  induction n with
  | zero => intro m s starti h; omega
  | succ n ih =>
    intro m s starti hn hm
    cases m with
    | zero => omega
    | succ m =>
      simp only [parseIntExpressionsAux]
      cases hf : findInt s with
      | none => rfl
      | some r =>
        obtain ⟨i0, i1⟩ := r
        have hb := leftmost_bounds matchInt matchInt_bounds s 0 i0 i1 hf
        have hd : (s.drop i1).length < n ∧ (s.drop i1).length < m := by
          simp only [List.length_drop]; omega
        simp only [ih m (s.drop i1) (starti + i1) hd.1 hd.2]

theorem parseFloatExpressionsAux_fuel (n : Nat) :
    ∀ (m : Nat) (s : Str) (starti : Nat), s.length < n → s.length < m →
      parseFloatExpressionsAux n s starti = parseFloatExpressionsAux m s starti := by
  induction n with
  | zero => intro m s starti h; omega
  | succ n ih =>
    intro m s starti hn hm
    cases m with
    | zero => omega
    | succ m =>
      simp only [parseFloatExpressionsAux]
      cases hf : findSdFloat s with
      | none => rfl
      | some r =>
        obtain ⟨i0, i1⟩ := r
        have hb := leftmost_bounds matchSdFloat matchSdFloat_bounds s 0 i0 i1 hf
        have hd : (s.drop i1).length < n ∧ (s.drop i1).length < m := by
          simp only [List.length_drop]; omega
        simp only [ih m (s.drop i1) (starti + i1) hd.1 hd.2]

theorem parseNonStandardExpressionAux_fuel (T : Tables) (cb : Str → Run (Option Expr))
    (n : Nat) :
    ∀ (m : Nat) (s : Str) (starti : Nat), s.length < n → s.length < m →
      parseNonStandardExpressionAux T cb n s starti =
        parseNonStandardExpressionAux T cb m s starti := by
  induction n with
  | zero => intro m s starti h; omega
  | succ n ih =>
    intro m s starti hn hm
    cases m with
    | zero => omega
    | succ m =>
      simp only [parseNonStandardExpressionAux]
      cases hf : findNsfunc s with
      | none => rfl
      | some r =>
        obtain ⟨i0, i1⟩ := r
        have hb := leftmost_bounds matchNsfunc
          (fun t k h => ⟨by have := matchNsfunc_bounds t k h; omega,
            (matchNsfunc_bounds t k h).2⟩) s 0 i0 i1 hf
        have hd : (s.drop i1).length < n ∧ (s.drop i1).length < m := by
          simp only [List.length_drop]; omega
        simp only [ih m (s.drop i1) (starti + i1) hd.1 hd.2]

theorem parseStandardExpressionsAux_fuel (T : Tables) (cb : Str → Run (Option Expr))
    (n : Nat) :
    ∀ (m : Nat) (s : Str) (starti : Nat), s.length < n → s.length < m →
      parseStandardExpressionsAux T cb n s starti =
        parseStandardExpressionsAux T cb m s starti := by
  induction n with
  | zero => intro m s starti h; omega
  | succ n ih =>
    intro m s starti hn hm
    cases m with
    | zero => omega
    | succ m =>
      simp only [parseStandardExpressionsAux]
      cases hf : findStdfuncPar s with
      | none => rfl
      | some r =>
        obtain ⟨i0, e1⟩ := r
        have hb := findStdfuncPar_bounds s i0 e1 hf
        have hd : (s.drop (e1 - 1)).length < n ∧ (s.drop (e1 - 1)).length < m := by
          simp only [List.length_drop]; omega
        simp only [ih m (s.drop (e1 - 1)) (starti + (e1 - 1)) hd.1 hd.2]

theorem parseParenthesisEnclosedExpressionsAux_fuel (T : Tables)
    (cb : Str → Run (Option Expr)) (n : Nat) :
    ∀ (m : Nat) (s : Str) (starti : Nat), s.length < n → s.length < m →
      parseParenthesisEnclosedExpressionsAux T cb n s starti =
        parseParenthesisEnclosedExpressionsAux T cb m s starti := by
  induction n with
  | zero => intro m s starti h; omega
  | succ n ih =>
    intro m s starti hn hm
    cases m with
    | zero => omega
    | succ m =>
      simp only [parseParenthesisEnclosedExpressionsAux]
      cases hf : findNonfuncPar s with
      | none => rfl
      | some r =>
        obtain ⟨i0, e1⟩ := r
        have hb := leftmost_bounds matchNonfuncPar matchNonfuncPar_bounds s 0 i0 e1 hf
        have hne : s.drop i0 ≠ [] := by
          intro h
          have := congrArg List.length h
          simp only [List.length_drop, List.length_nil] at this
          omega
        have hp := (firstParenthesisLoop_snd (s.drop i0) 0 (-1) 0).2 hne
        have hk : 1 ≤ ((firstParenthesisIndex (s.drop i0)).2 + (i0 : Int)).toNat := by
          rw [firstParenthesisIndex]
          push_cast at hp
          omega
        have hd : ∀ k, 1 ≤ k → (s.drop k).length < n ∧ (s.drop k).length < m := by
          intro k hk
          simp only [List.length_drop]; omega
        simp only [ih m (s.drop _) (starti + _) (hd _ hk).1 (hd _ hk).2]

end StageFuel

section ReducerFuel

theorem length_removeAt {α : Type} (xs : List α) (i : Nat) (h : i < xs.length) :
    (removeAt xs i).length = xs.length - 1 := by
  simp only [removeAt, List.length_append, List.length_take, List.length_drop]
  omega

/-- A loop of the reducer needs at most `len(operators) - i` rounds: with that
much fuel or more the result does not depend on the fuel. -/
theorem passLoop_fuel (hit : Int → Bool)
    (comb : Int → Option Expr → Option Expr → Option Expr) (n : Nat) :
    ∀ (m i : Nat) (exps : List (Option Expr)) (ops : List Int),
      ops.length - i ≤ n → ops.length - i ≤ m →
      passLoop hit comb n i exps ops = passLoop hit comb m i exps ops := by
  induction n with
  | zero =>
    intro m i exps ops hn _
    cases m with
    | zero => rfl
    | succ m =>
      have : ¬ i < ops.length := by omega
      simp only [passLoop, if_neg this]
  | succ n ih =>
    intro m i exps ops hn hm
    cases m with
    | zero =>
      have : ¬ i < ops.length := by omega
      simp only [passLoop, if_neg this]
    | succ m =>
      simp only [passLoop]
      by_cases hi : i < ops.length
      · simp only [if_pos hi]
        have h1 : (removeAt ops i).length - i ≤ n ∧ (removeAt ops i).length - i ≤ m := by
          rw [length_removeAt ops i hi]; omega
        have h2 : ops.length - (i + 1) ≤ n ∧ ops.length - (i + 1) ≤ m := by omega
        rw [ih m i _ (removeAt ops i) h1.1 h1.2, ih m (i + 1) exps ops h2.1 h2.2]
      · simp only [if_neg hi]

end ReducerFuel

section StageFuelWrappers

/-- The integer stage with any fuel above the length of the text is
`parseIntExpressions`. -/
theorem parseIntExpressions_fuel (n : Nat) (s : Str) (starti : Nat) (h : s.length < n) :
    parseIntExpressionsAux n s starti = parseIntExpressions s starti :=
  parseIntExpressionsAux_fuel n (s.length + 1) s starti h (Nat.lt_succ_self _)

theorem parseFloatExpressions_fuel (n : Nat) (s : Str) (starti : Nat) (h : s.length < n) :
    parseFloatExpressionsAux n s starti = parseFloatExpressions s starti :=
  parseFloatExpressionsAux_fuel n (s.length + 1) s starti h (Nat.lt_succ_self _)

theorem parseNonStandardExpression_fuel (T : Tables) (cb : Str → Run (Option Expr)) (n : Nat)
    (s : Str) (starti : Nat) (h : s.length < n) :
    parseNonStandardExpressionAux T cb n s starti = parseNonStandardExpression T cb s starti :=
  parseNonStandardExpressionAux_fuel T cb n (s.length + 1) s starti h (Nat.lt_succ_self _)

theorem parseStandardExpressions_fuel (T : Tables) (cb : Str → Run (Option Expr)) (n : Nat)
    (s : Str) (starti : Nat) (h : s.length < n) :
    parseStandardExpressionsAux T cb n s starti = parseStandardExpressions T cb s starti :=
  parseStandardExpressionsAux_fuel T cb n (s.length + 1) s starti h (Nat.lt_succ_self _)

theorem parseParenthesisEnclosedExpressions_fuel (T : Tables) (cb : Str → Run (Option Expr))
    (n : Nat) (s : Str) (starti : Nat) (h : s.length < n) :
    parseParenthesisEnclosedExpressionsAux T cb n s starti =
      parseParenthesisEnclosedExpressions T cb s starti :=
  parseParenthesisEnclosedExpressionsAux_fuel T cb n (s.length + 1) s starti h
    (Nat.lt_succ_self _)

/-- The bounded evaluator does not depend on its bound once the bound exceeds
the length of the text. -/
theorem parseExpressionFuel_stable (T : Tables) (n m : Nat) (s : Str) (hn : s.length < n)
    (hm : s.length < m) : parseExpressionFuel T n s = parseExpressionFuel T m s := by
  rw [← parseExpression_eq_fuel T n s hn, ← parseExpression_eq_fuel T m s hm]

end StageFuelWrappers

/-! ## Claims about name resolution -/

section Names

theorem splitOn_of_not_mem (sep : Char) (s : Str) (h : sep ∉ s) : splitOn sep s = [s] := by
  induction s with
  | nil => rfl
  | cons c cs ih =>
    have hc : ¬ c = sep := fun e => h (by simp [e])
    have hcs : sep ∉ cs := fun e => h (List.mem_cons_of_mem _ e)
    simp only [splitOn, if_neg hc, ih hcs]

theorem splitOn_append_sep (sep : Char) (pre post : Str) (h : sep ∉ pre) :
    splitOn sep (pre ++ sep :: post) = pre :: splitOn sep post := by
  induction pre with
  | nil => simp [splitOn]
  | cons c cs ih =>
    have hc : ¬ c = sep := fun e => h (by simp [e])
    have hcs : sep ∉ cs := fun e => h (List.mem_cons_of_mem _ e)
    rw [List.cons_append, splitOn, if_neg hc, ih hcs]

theorem first_split (c : Char) (s : Str) (h : c ∈ s) :
    ∃ pre post, s = pre ++ c :: post ∧ c ∉ pre := by
  induction s with
  | nil => simp at h
  | cons d ds ih =>
    by_cases hd : d = c
    · exact ⟨[], ds, by simp [hd], by simp⟩
    · have hmem : c ∈ ds := by
        rcases List.mem_cons.1 h with e | e
        · exact absurd e.symm hd
        · exact e
      obtain ⟨pre, post, e, hp⟩ := ih hmem
      refine ⟨d :: pre, post, by simp [e], ?_⟩
      intro hm
      rcases List.mem_cons.1 hm with e' | e'
      · exact hd e'.symm
      · exact hp e'

theorem count_split (c : Char) (pre post : Str) (h : c ∉ pre) :
    (pre ++ c :: post).count c = post.count c + 1 := by
  rw [List.count_append, List.count_cons_self, List.count_eq_zero.2 h]
  omega

theorem parseVarName_plain (s : Str) (h : '.' ∉ TrimSpace s) :
    parseVarName s = (some Namespace.standardFuncs, TrimSpace s) := by
  simp [parseVarName, splitOn_of_not_mem _ _ h]

theorem parseVarName_dotted (s pre post : Str) (e : TrimSpace s = pre ++ '.' :: post)
    (hpre : '.' ∉ pre) (hpost : '.' ∉ post) :
    parseVarName s = (prefixNamespace pre, post) := by
  have hs : splitOn '.' (TrimSpace s) = [pre, post] := by
    rw [e, splitOn_append_sep _ _ _ hpre, splitOn_of_not_mem _ _ hpost]
  simp only [parseVarName, hs, prefixNamespace, selectedNamespace]
  by_cases h1 : pre = []
  · simp [h1]
  · by_cases h2 : pre = ['u']
    · simp [h2]
    · simp [h1, h2]

theorem parseVarName_many (s : Str) (h : 1 < (TrimSpace s).count '.') :
    parseVarName s = (none, []) := by
  have hl := splitOn_length '.' (TrimSpace s)
  have h1 : ¬ (splitOn '.' (TrimSpace s)).length = 1 := by omega
  have h2 : ¬ (splitOn '.' (TrimSpace s)).length = 2 := by omega
  simp only [parseVarName, if_neg h1, if_neg h2]

theorem prefixNamespace_eq_none (p : Str) :
    prefixNamespace p = none ↔ p ∉ [[], ['u'], ['m'], ['c'], ['p']] := by
  simp only [prefixNamespace, List.mem_cons, List.mem_singleton, List.not_mem_nil, or_false,
    not_or]
  by_cases h0 : p = []
  · simp [h0]
  by_cases h1 : p = ['u']
  · simp [h1]
  by_cases h2 : p = ['m']
  · simp [h2]
  by_cases h3 : p = ['c']
  · simp [h3]
  by_cases h4 : p = ['p']
  · simp [h4]
  simp [h0, h1, h2, h3, h4]

/-- C13: `parseVarName`, on the name trimmed of surrounding spaces: without a
`.` it returns the function table and the whole name; with exactly one `.` it
returns the table the prefix selects (the empty prefix or `u` the user
variables, `m`, `c`, `p` the constants) and the text after the dot; it returns
no namespace exactly when the name has more than one `.`, or one `.` and a
prefix that is none of the five. -/
theorem parseVarName_resolution (s : Str) :
    ('.' ∉ TrimSpace s → parseVarName s = (some Namespace.standardFuncs, TrimSpace s)) ∧
    (∀ pre post, TrimSpace s = pre ++ '.' :: post → '.' ∉ pre → '.' ∉ post →
      parseVarName s = (prefixNamespace pre, post)) ∧
    ((parseVarName s).1 = none ↔
      (1 < (TrimSpace s).count '.' ∨
        ∃ pre post, TrimSpace s = pre ++ '.' :: post ∧ '.' ∉ pre ∧ '.' ∉ post ∧
          pre ∉ [[], ['u'], ['m'], ['c'], ['p']])) := by
  refine ⟨parseVarName_plain s, fun pre post e h1 h2 => parseVarName_dotted s pre post e h1 h2, ?_⟩
  constructor
  · intro hnone
    by_cases hmem : '.' ∈ TrimSpace s
    · obtain ⟨pre, post, e, hpre⟩ := first_split _ _ hmem
      by_cases hpost : '.' ∈ post
      · left
        rw [e, count_split _ _ _ hpre]
        have := List.count_pos_iff.2 hpost
        omega
      · right
        refine ⟨pre, post, e, hpre, hpost, ?_⟩
        rw [parseVarName_dotted s pre post e hpre hpost] at hnone
        exact (prefixNamespace_eq_none pre).1 hnone
    · rw [parseVarName_plain s hmem] at hnone
      exact absurd hnone (by simp)
  · rintro (h | ⟨pre, post, e, hpre, hpost, hp⟩)
    · rw [parseVarName_many s h]
    · rw [parseVarName_dotted s pre post e hpre hpost]
      exact (prefixNamespace_eq_none pre).2 hp

theorem parseVarName_resolution_witness :
    parseVarName " m.pi ".toList = (prefixNamespace "m".toList, "pi".toList) ∧
      prefixNamespace "m".toList = some Namespace.mathematicalConstants :=
  ⟨(parseVarName_resolution " m.pi ".toList).2.1 "m".toList "pi".toList (by decide) (by decide)
    (by decide), by decide⟩

end Names

/-! ## Claims about `firstParenthesisIndex` -/

section FirstParenthesis

theorem firstParenthesisLoop_stray (r : Str) (i : Nat) (ret0 : Int) :
    firstParenthesisLoop (')' :: r) i ret0 0 = firstParenthesisLoop r (i + 1) ret0 0 := by
  simp [firstParenthesisLoop]

theorem firstParenthesisLoop_before (pre : Str) :
    ∀ (i : Nat) (ret0 : Int) (rest : Str), '(' ∉ pre →
      firstParenthesisLoop (pre ++ rest) i ret0 0 =
        firstParenthesisLoop rest (i + pre.length) ret0 0 := by
  induction pre with
  | nil => intro i ret0 rest _; rfl
  | cons c cs ih =>
    intro i ret0 rest h
    have hc : c ≠ '(' := fun e => h (by simp [e])
    have hcs : '(' ∉ cs := fun e => h (List.mem_cons_of_mem _ e)
    have hl : i + 1 + cs.length = i + (c :: cs).length := by
      simp only [List.length_cons]; omega
    by_cases h2 : c = ')'
    · subst h2
      rw [List.cons_append, firstParenthesisLoop_stray, ih (i + 1) ret0 rest hcs, hl]
    · rw [List.cons_append, firstParenthesisLoop_other c _ _ _ _ hc h2,
        ih (i + 1) ret0 rest hcs, hl]

theorem firstParenthesisLoop_unclosed (u : Str) :
    ∀ (d i : Nat) (ret0 : Int), ret0 ≠ -1 →
      (∀ t rest, u = t ++ ')' :: rest → nested t d = false) →
      firstParenthesisLoop u i ret0 (d + 1) = (ret0, ((i + u.length : Nat) : Int)) := by
  induction u with
  | nil => intro d i ret0 _ _; rfl
  | cons c cs ih =>
    intro d i ret0 hr h
    have hl : i + 1 + cs.length = i + (c :: cs).length := by
      simp only [List.length_cons]; omega
    by_cases h1 : c = '('
    · subst h1
      rw [firstParenthesisLoop_open, if_neg hr, ih (d + 1) (i + 1) ret0 hr, hl]
      intro t rest e
      have := h ('(' :: t) rest (by rw [e, List.cons_append])
      simpa [nested] using this
    · by_cases h2 : c = ')'
      · subst h2
        cases d with
        | zero =>
          have := h [] cs rfl
          simp [nested] at this
        | succ d =>
          rw [firstParenthesisLoop_close, ih d (i + 1) ret0 hr, hl]
          intro t rest e
          have := h (')' :: t) rest (by rw [e, List.cons_append])
          simpa [nested] using this
      · rw [firstParenthesisLoop_other c _ _ _ _ h1 h2, ih d (i + 1) ret0 hr, hl]
        intro t rest e
        have := h (c :: t) rest (by rw [e, List.cons_append])
        simpa [nested, h1, h2] using this

theorem nested_append_close (t : Str) :
    ∀ d, nested t d = true → nested (t ++ [')']) (d + 1) = true := by
  induction t with
  | nil => intro d h; simp only [nested, decide_eq_true_eq] at h; subst h; simp [nested]
  | cons c cs ih =>
    intro d h
    by_cases h1 : c = '('
    · subst h1
      simp only [nested, if_true] at h
      simpa [nested] using ih (d + 1) h
    · by_cases h2 : c = ')'
      · subst h2
        simp only [nested, if_neg h1, if_true, Bool.and_eq_true, decide_eq_true_eq] at h
        obtain ⟨hd, hn⟩ := h
        obtain ⟨d, rfl⟩ : ∃ e, d = e + 1 := ⟨d - 1, by omega⟩
        have := ih d (by simpa using hn)
        simpa [nested] using this
      · simp only [nested, if_neg h1, if_neg h2] at h
        simpa [nested, h1, h2] using ih d h

theorem firstParenthesisLoop_none (s : Str) :
    ∀ (i : Nat) (ret0 : Int), '(' ∉ s →
      firstParenthesisLoop s i ret0 0 = (ret0, ((i + s.length : Nat) : Int)) := by
  intro i ret0 h
  have := firstParenthesisLoop_before s i ret0 [] h
  rw [List.append_nil] at this
  rw [this]
  rfl

/-- C19: `firstParenthesisIndex` finds the first balanced group.  In a text
`pre ( t ) rest`, where `pre` has no `(` (it may have `)`) and the parentheses
of `t` are properly nested, the result is `[i, j]` with `i` the index of that
first `(` and `j` one past the `)` that closes it, so that `s[i:j]` is
`( t )`, properly nested; in a text `pre ( u` where no `)` of `u` closes the
first `(`, the result is `[i, len(s)]`; in a text without `(` it is
`[-1, len(s)]`. -/
theorem firstParenthesisIndex_first_group (s : Str) :
    ('(' ∉ s → firstParenthesisIndex s = (-1, (s.length : Int))) ∧
    (∀ pre t rest, s = pre ++ '(' :: (t ++ ')' :: rest) → '(' ∉ pre → nested t 0 = true →
      firstParenthesisIndex s = ((pre.length : Int), ((pre.length + t.length + 2 : Nat) : Int)) ∧
      slice s pre.length (pre.length + t.length + 2) = '(' :: (t ++ [')']) ∧
      properlyNested ('(' :: (t ++ [')'])) = true) ∧
    (∀ pre u, s = pre ++ '(' :: u → '(' ∉ pre →
      (∀ t rest, u = t ++ ')' :: rest → nested t 0 = false) →
      firstParenthesisIndex s = ((pre.length : Int), (s.length : Int))) := by
  refine ⟨?_, ?_, ?_⟩
  · intro h
    rw [firstParenthesisIndex, firstParenthesisLoop_none s 0 (-1) h, Nat.zero_add]
  · intro pre t rest e hpre ht
    refine ⟨?_, ?_, ?_⟩
    · rw [e, firstParenthesisIndex, firstParenthesisLoop_before pre 0 (-1) _ hpre,
        firstParenthesisLoop_open, if_pos rfl,
        firstParenthesisLoop_nested t 0 (0 + pre.length + 1) _ rest ht (by omega)]
      simp only [Nat.zero_add]
      rw [show pre.length + 1 + t.length + 1 = pre.length + t.length + 2 by omega]
    · rw [e, slice, List.drop_left, show pre.length + t.length + 2 - pre.length =
        ('(' :: (t ++ [')'])).length by simp; omega]
      have : '(' :: (t ++ ')' :: rest) = ('(' :: (t ++ [')'])) ++ rest := by simp
      rw [this, List.take_left]
    · have := nested_append_close t 0 ht
      simpa [properlyNested, nested] using this
  · intro pre u e hpre hu
    rw [e, firstParenthesisIndex, firstParenthesisLoop_before pre 0 (-1) _ hpre,
      firstParenthesisLoop_open, if_pos rfl,
      firstParenthesisLoop_unclosed u 0 (0 + pre.length + 1) _ (by omega) hu]
    simp only [Nat.zero_add, List.length_append, List.length_cons]
    rw [show pre.length + 1 + u.length = pre.length + (u.length + 1) by omega]

theorem firstParenthesisIndex_first_group_witness :
    firstParenthesisIndex ")a(b(c)d)e(".toList = (2, 9) ∧
      slice ")a(b(c)d)e(".toList 2 9 = "(b(c)d)".toList :=
  ⟨((firstParenthesisIndex_first_group ")a(b(c)d)e(".toList).2.1 ")a".toList "b(c)d".toList
      "e(".toList (by decide) (by decide) (by decide)).1,
    ((firstParenthesisIndex_first_group ")a(b(c)d)e(".toList).2.1 ")a".toList "b(c)d".toList
      "e(".toList (by decide) (by decide) (by decide)).2.1⟩

end FirstParenthesis

/-! ## Claims about the text after the last token -/

section Trailing

theorem takeWhile_isN_append (u t : Str) (ht : ∀ c ∈ t, isN c = false) :
    (u ++ t).takeWhile isN = u.takeWhile isN := by
  induction u with
  | nil =>
    cases t with
    | nil => rfl
    | cons x xs => simp [List.takeWhile, ht x (List.mem_cons_self _ _)]
  | cons c cs ih =>
    rw [List.cons_append, List.takeWhile_cons, List.takeWhile_cons, ih]

theorem matchInt_append (u t : Str) (ht : ∀ c ∈ t, isN c = false) :
    matchInt (u ++ t) = matchInt u := by
  simp only [matchInt, takeWhile_isN_append u t ht]

theorem matchInt_none (t : Str) (ht : ∀ c ∈ t, isN c = false) : matchInt t = none := by
  have := matchInt_append [] t ht
  rw [List.nil_append] at this
  rw [this]
  rfl

theorem findInt_none (t : Str) (ht : ∀ c ∈ t, isN c = false) : findInt t = none := by
  apply leftmost_none
  intro u hu
  exact matchInt_none u fun c hc => ht c (hu.subset hc)

theorem leftmost_matchInt_append (s t : Str) (ht : ∀ c ∈ t, isN c = false) (i : Nat) :
    leftmost matchInt i (s ++ t) = leftmost matchInt i s := by
  induction s generalizing i with
  | nil =>
    rw [List.nil_append, leftmost_none matchInt t i fun u hu =>
      matchInt_none u fun c hc => ht c (hu.subset hc)]
    rfl
  | cons c cs ih =>
    rw [List.cons_append, leftmost, leftmost, ← List.cons_append, matchInt_append _ _ ht]
    cases matchInt (c :: cs) with
    | some n => rfl
    | none => exact ih (i + 1)

theorem findInt_append (s t : Str) (ht : ∀ c ∈ t, isN c = false) :
    findInt (s ++ t) = findInt s :=
  leftmost_matchInt_append s t ht 0

theorem findInt_bounds (s : Str) (a b : Nat) (h : findInt s = some (a, b)) :
    a < b ∧ b ≤ s.length := by
  have := leftmost_bounds matchInt matchInt_bounds s 0 a b h
  omega

theorem slice_append_of_le (s t : Str) (a b : Nat) (hb : b ≤ s.length) :
    slice (s ++ t) a b = slice s a b := by
  by_cases hab : a ≤ b
  · rw [slice, slice, List.drop_append_of_le_length (by omega),
      List.take_append_of_le_length (by rw [List.length_drop]; omega)]
  · simp [slice, show b - a = 0 by omega]

theorem parseIntExpressionsAux_nil (n starti : Nat) : parseIntExpressionsAux n [] starti = [] := by
  cases n with
  | zero => rfl
  | succ n => rfl

/-- The integer stage does not read text without digits that follows its
text. -/
theorem parseIntExpressionsAux_append (t : Str) (ht : ∀ c ∈ t, isN c = false) (n : Nat) :
    ∀ (s : Str) (starti : Nat),
      parseIntExpressionsAux n (s ++ t) starti = parseIntExpressionsAux n s starti := by
  induction n with
  | zero => intro s starti; rfl
  | succ n ih =>
    intro s starti
    simp only [parseIntExpressionsAux, findInt_append s t ht]
    cases hf : findInt s with
    | none => rfl
    | some p =>
      obtain ⟨i0, i1⟩ := p
      have hb := findInt_bounds s i0 i1 hf
      simp only []
      rw [slice_append_of_le s t i0 i1 hb.2, List.drop_append_of_le_length hb.2, ih]
      congr 1
      by_cases h1 : i1 < s.length
      · rw [if_pos h1, if_pos (by rw [List.length_append]; omega)]
      · have hd : s.drop i1 = [] := List.drop_eq_nil_of_le (by omega)
        rw [if_neg h1, hd, parseIntExpressionsAux_nil]
        split <;> rfl

theorem parseIntExpressions_append (s t : Str) (ht : ∀ c ∈ t, isN c = false) (starti : Nat) :
    parseIntExpressions (s ++ t) starti = parseIntExpressions s starti := by
  rw [parseIntExpressions, parseIntExpressionsAux_append t ht,
    parseIntExpressions_fuel _ s starti (by rw [List.length_append]; omega)]

theorem parseIntExpressionsAux_lo (n : Nat) :
    ∀ (s : Str) (starti : Nat), ∀ v ∈ parseIntExpressionsAux n s starti,
      v.lo ≤ starti + s.length := by
  induction n with
  | zero => intro s starti v hv; simp [parseIntExpressionsAux] at hv
  | succ n ih =>
    intro s starti v hv
    simp only [parseIntExpressionsAux] at hv
    cases hf : findInt s with
    | none => rw [hf] at hv; simp at hv
    | some p =>
      obtain ⟨i0, i1⟩ := p
      have hb := findInt_bounds s i0 i1 hf
      rw [hf] at hv
      simp only [] at hv
      rcases List.mem_append.1 hv with h | h
      · rw [if_pos hb.1] at h
        rw [List.mem_singleton] at h
        subst h
        simp only []
        omega
      · by_cases h1 : i1 < s.length
        · rw [if_pos h1] at h
          have := ih _ _ v h
          rw [List.length_drop] at this
          omega
        · rw [if_neg h1] at h
          simp at h

theorem opStrings_append (s t : Str) :
    ∀ (vs : List PElement) (lasti : Nat), (∀ v ∈ vs, v.lo ≤ s.length) →
      opStrings (s ++ t) lasti vs = opStrings s lasti vs := by
  intro vs
  induction vs with
  | nil => intro lasti _; rfl
  | cons v vs ih =>
    intro lasti h
    have hv := h v (List.mem_cons_self _ _)
    simp only [opStrings, ih v.hi fun w hw => h w (List.mem_cons_of_mem _ hw),
      slice_append_of_le s t lasti v.lo hv, List.length_append]
    by_cases hc : lasti ≤ v.lo
    · rw [if_pos ⟨hc, by omega⟩, if_pos ⟨hc, hv⟩]
    · rw [if_neg (fun e => hc e.1), if_neg (fun e => hc e.1)]

theorem plain_of_literals (s : Str)
    (hs : ∀ c ∈ s, isN c = true ∨ c ∈ [' ', '^', '*', '/', '+', '-']) :
    '(' ∉ s ∧ '.' ∉ s ∧ ∀ c ∈ s, isL c = false := by
  refine ⟨fun h => ?_, fun h => ?_, fun c hc => ?_⟩
  · rcases hs _ h with e | e
    · exact absurd e (by decide)
    · exact absurd e (by decide)
  · rcases hs _ h with e | e
    · exact absurd e (by decide)
    · exact absurd e (by decide)
  · rcases hs c hc with e | e
    · exact isN_not_isL c e
    · simp only [List.mem_cons, List.mem_singleton, List.not_mem_nil, or_false] at e
      rcases e with rfl | rfl | rfl | rfl | rfl | rfl <;> decide

/-- C20 (as stated, refuted): the line `2` is an integer literal and the
character U+00BD (the fraction one half) is no letter, no digit, no `.` and no
`(`, but it is in the class `\pN`: on the
line made of `2` and that character stage 6 matches both as one literal, which
`ParseInt` refuses, and the line parses to nil, while `2` parses to the exact
constant 2. -/
theorem numeral_after_last_token_is_read :
    (∀ c ∈ "2".toList, c.isDigit = true) ∧
    (∀ c ∈ [Char.ofNat 0xBD],
      isL c = false ∧ c.isDigit = false ∧ c ≠ '.' ∧ c ≠ '(') ∧
    isN (Char.ofNat 0xBD) = true ∧
    parseParenthesisEnclosedExpressions setupConstantExps (parseExpression setupConstantExps)
        ("2".toList ++ [Char.ofNat 0xBD]) 0 =
      Run.done [{ exp := none, lo := 0, hi := 2 }] ∧
    parseExpression setupConstantExps ("2".toList ++ [Char.ofNat 0xBD]) = Run.done none ∧
    parseExpression setupConstantExps "2".toList =
      Run.done (some (Expr.const (Number.fraction 2 1))) := by
  refine ⟨by decide, by decide, by decide, ?_, ?_, ?_⟩
  · rw [cascade_eq_fuel _ 3 _ _ (by decide)]; rfl
  · rw [parseExpression_eq_fuel _ 3 _ (by decide)]; rfl
  · rw [parseExpression_eq_fuel _ 2 _ (by decide)]; rfl

/-- C20 (amended): the text after the last token is never validated.  For
every line `s` made only of integer literals (characters of the class `\pN`),
spaces and the characters `^ * / + -`, and every text `t` without a letter, a
character of the class `\pN` (a digit or another numeral), a `.` and a `(`,
`parseExpression(s + t)` is `parseExpression(s)`; in particular `2+` and `2$`
parse to the exact constant 2. -/
theorem parseExpression_ignores_trailing_text (T : Tables) (s t : Str)
    (hs : ∀ c ∈ s, isN c = true ∨ c ∈ [' ', '^', '*', '/', '+', '-'])
    (ht : ∀ c ∈ t, isL c = false ∧ isN c = false ∧ c ≠ '.' ∧ c ≠ '(') :
    parseExpression T (s ++ t) = parseExpression T s ∧
    parseExpression T "2+".toList = Run.done (some (Expr.const (Number.fraction 2 1))) ∧
    parseExpression T "2$".toList = Run.done (some (Expr.const (Number.fraction 2 1))) := by
  refine ⟨?_, ?_, ?_⟩
  · obtain ⟨h1, h2, h3⟩ := plain_of_literals s hs
    have g1 : '(' ∉ s ++ t := by
      intro h
      rcases List.mem_append.1 h with e | e
      · exact h1 e
      · exact (ht _ e).2.2.2 rfl
    have g2 : '.' ∉ s ++ t := by
      intro h
      rcases List.mem_append.1 h with e | e
      · exact h2 e
      · exact (ht _ e).2.2.1 rfl
    have g3 : ∀ c ∈ s ++ t, isL c = false := by
      intro c h
      rcases List.mem_append.1 h with e | e
      · exact h3 c e
      · exact (ht c e).1
    have hd : ∀ c ∈ t, isN c = false := fun c hc => (ht c hc).2.1
    have hlo : ∀ v ∈ parseIntExpressions s 0, v.lo ≤ s.length := by
      intro v hv
      have := parseIntExpressionsAux_lo _ s 0 v hv
      omega
    rw [parseExpression_unfold T (s ++ t), parseExpression_unfold T s, parseExpressionBody,
      parseExpressionBody, cascade_plain T _ (s ++ t) 0 g1 g2 g3, cascade_plain T _ s 0 h1 h2 h3,
      parseIntExpressions_append s t hd]
    simp only [Run.bind, opStrings_append s t _ 0 hlo]
  · rw [parseExpression_eq_fuel T 3 _ (by decide)]; rfl
  · rw [parseExpression_eq_fuel T 3 _ (by decide)]; rfl

theorem parseExpression_ignores_trailing_text_witness :
    parseExpression setupConstantExps ("2 * 3".toList ++ " )$".toList) =
      parseExpression setupConstantExps "2 * 3".toList :=
  (parseExpression_ignores_trailing_text setupConstantExps "2 * 3".toList " )$".toList
    (by decide) (by decide)).1

end Trailing

/-! ## Claims about bare identifiers -/

section Identifiers

end Identifiers

/-! ## Claims about decimal literals -/

section Decimals

theorem dropWhile_append_stop {α : Type} (p : α → Bool) (a rest : List α)
    (ha : ∀ x ∈ a, p x = true) (hr : ∀ x, rest.head? = some x → p x = false) :
    (a ++ rest).dropWhile p = rest := by
  induction a with
  | nil =>
    cases rest with
    | nil => rfl
    | cons x xs => simp [List.dropWhile, hr x rfl]
  | cons y ys ih =>
    have hy : p y = true := ha y (List.mem_cons_self _ _)
    rw [List.cons_append, List.dropWhile_cons, hy, if_pos rfl,
      ih fun x hx => ha x (List.mem_cons_of_mem _ hx)]

theorem takeWhile_all {α : Type} (p : α → Bool) (a : List α) (ha : ∀ x ∈ a, p x = true) :
    a.takeWhile p = a := by
  have := takeWhile_append_stop p a [] ha (fun x hx => by cases hx)
  rwa [List.append_nil] at this

theorem matchSdFloat_literal (d1 d2 : Str) (h1 : ∀ c ∈ d1, isN c = true)
    (h2 : ∀ c ∈ d2, isN c = true) (hne : d1 ≠ [] ∨ d2 ≠ []) :
    matchSdFloat (d1 ++ '.' :: d2) = some (d1.length + 1 + d2.length) := by
  have hstop : ∀ x, ('.' :: d2).head? = some x → isN x = false := by
    intro x hx
    simp only [List.head?_cons, Option.some.injEq] at hx
    subst hx
    decide
  simp only [matchSdFloat, takeWhile_append_stop isN d1 _ h1 hstop,
    dropWhile_append_stop isN d1 _ h1 hstop, List.head?_cons, List.tail_cons,
    takeWhile_all isN d2 h2, if_true, if_pos hne]

theorem findSdFloat_literal (d1 d2 : Str) (h1 : ∀ c ∈ d1, isN c = true)
    (h2 : ∀ c ∈ d2, isN c = true) (hne : d1 ≠ [] ∨ d2 ≠ []) :
    findSdFloat (d1 ++ '.' :: d2) = some (0, d1.length + 1 + d2.length) := by
  have hm := matchSdFloat_literal d1 d2 h1 h2 hne
  cases d1 with
  | nil =>
    rw [findSdFloat, List.nil_append, leftmost, ← List.nil_append ('.' :: d2), hm]
    simp
  | cons y ys =>
    rw [findSdFloat, List.cons_append, leftmost, ← List.cons_append, hm]
    simp

/-- Stage 5 on a decimal literal: one token, built by `floatExpression` from
the whole literal. -/
theorem parseFloatExpressions_literal (d1 d2 : Str) (starti : Nat)
    (h1 : ∀ c ∈ d1, isN c = true) (h2 : ∀ c ∈ d2, isN c = true) (hne : d1 ≠ [] ∨ d2 ≠ []) :
    parseFloatExpressions (d1 ++ '.' :: d2) starti =
      [{ exp := floatExpression (d1 ++ '.' :: d2), lo := starti,
         hi := starti + (d1.length + 1 + d2.length) }] := by
  have hlen : (d1 ++ '.' :: d2).length = d1.length + 1 + d2.length := by
    simp only [List.length_append, List.length_cons]; omega
  have hs : slice (d1 ++ '.' :: d2) 0 (d1.length + 1 + d2.length) = d1 ++ '.' :: d2 := by
    rw [← hlen, slice, List.drop_zero, Nat.sub_zero, List.take_length]
  rw [parseFloatExpressions, parseFloatExpressionsAux, findSdFloat_literal d1 d2 h1 h2 hne]
  simp only [hs, hlen, Nat.lt_irrefl, if_false, gt_iff_lt, List.nil_append, List.append_nil,
    Nat.add_zero]
  rw [if_pos (by omega)]

/-- The expression `floatExpression` builds from a decimal literal: its digits,
the number of digits after the dot, and the number of its digits modulo 256 as
count of significant figures. -/
theorem floatExpression_literal (d1 d2 : Str)
    (h1 : ∀ c ∈ d1, isN c = true) (h2 : ∀ c ∈ d2, isN c = true)
    (hfloat : floatExpression (d1 ++ '.' :: d2) ≠ none) :
    floatExpression (d1 ++ '.' :: d2) =
      some (Expr.const (MakeSDFloat (digitsValue (d1 ++ d2)) d2.length
        ((d1.length + d2.length) % 256))) := by
  have hstop : ∀ x, ('.' :: d2).head? = some x → isN x = false := by
    intro x hx
    simp only [List.head?_cons, Option.some.injEq] at hx
    subst hx
    decide
  have hf : (d1 ++ '.' :: d2).filter isN = d1 ++ d2 := by
    rw [List.filter_append, List.filter_cons_of_neg (by decide),
      List.filter_eq_self.2 h1, List.filter_eq_self.2 h2]
  have hk : ((d1 ++ '.' :: d2).dropWhile isN).tail = d2 := by
    rw [dropWhile_append_stop isN d1 _ h1 hstop, List.tail_cons]
  have hl : (d1 ++ '.' :: d2).length - 1 = d1.length + d2.length := by
    simp only [List.length_append, List.length_cons]; omega
  simp only [floatExpression, hf, hk, hl] at hfloat ⊢
  split
  · rfl
  · rename_i hh
    rw [if_neg hh] at hfloat
    exact absurd rfl hfloat

set_option exponentiation.threshold 1100 in
set_option maxRecDepth 100000 in
/-- C16 (as stated, refuted): the decimal literal made of a dot and 256 digits
`1` parses as a float, has 256 digit characters, and stage 5 gives it the
significant-figure count 0. -/
theorem significant_figures_wrap :
    parseFloatExpressions ('.' :: List.replicate 256 '1') 0 =
      [{ exp := some (Expr.const
            (MakeSDFloat (digitsValue (List.replicate 256 '1')) 256 0)),
         lo := 0, hi := 257 }] ∧
    (('.' :: List.replicate 256 '1').filter isN).length = 256 := by
  have h2 : ∀ c ∈ List.replicate 256 '1', isN c = true := by
    intro c hc
    rw [List.eq_of_mem_replicate hc]
    decide
  have hfl : floatExpression ([] ++ '.' :: List.replicate 256 '1') ≠ none := by
    simp only [floatExpression, List.nil_append]
    decide
  have e := floatExpression_literal [] (List.replicate 256 '1') (by simp) h2 hfl
  have p := parseFloatExpressions_literal [] (List.replicate 256 '1') 0 (by simp) h2
    (Or.inr (by simp))
  rw [e] at p
  simp only [List.nil_append, List.length_nil, List.length_replicate] at p
  refine ⟨p, ?_⟩
  decide

set_option exponentiation.threshold 1100 in
/-- C16 (amended): for every decimal literal (digits `d1`, a dot, digits `d2`,
at least one digit) with fewer than 256 digit characters that parses as a
float, stage 5 produces one token, a measured constant whose
significant-figure count is the number of digit characters of the literal;
`12.34` carries 4 and `0.05` carries 3. -/
theorem decimal_literal_significant_figures (T : Tables) (d1 d2 : Str) (starti : Nat)
    (h1 : ∀ c ∈ d1, isN c = true) (h2 : ∀ c ∈ d2, isN c = true) (hne : d1 ≠ [] ∨ d2 ≠ [])
    (hlen : d1.length + d2.length < 256)
    (hfloat : floatExpression (d1 ++ '.' :: d2) ≠ none) :
    parseFloatExpressions (d1 ++ '.' :: d2) starti =
      [{ exp := some (Expr.const
            (MakeSDFloat (digitsValue (d1 ++ d2)) d2.length (d1.length + d2.length))),
         lo := starti, hi := starti + (d1.length + 1 + d2.length) }] ∧
    parseExpression T "12.34".toList = Run.done (some (Expr.const (MakeSDFloat 1234 2 4))) ∧
    parseExpression T "0.05".toList = Run.done (some (Expr.const (MakeSDFloat 5 2 3))) := by
  refine ⟨?_, ?_, ?_⟩
  · rw [parseFloatExpressions_literal d1 d2 starti h1 h2 hne,
      floatExpression_literal d1 d2 h1 h2 hfloat, Nat.mod_eq_of_lt hlen]
  · rw [parseExpression_eq_fuel T 6 _ (by decide)]; rfl
  · rw [parseExpression_eq_fuel T 5 _ (by decide)]; rfl

set_option exponentiation.threshold 1100 in
theorem decimal_literal_significant_figures_witness :
    parseFloatExpressions ("12".toList ++ '.' :: "34".toList) 0 =
      [{ exp := some (Expr.const
            (MakeSDFloat (digitsValue ("12".toList ++ "34".toList)) "34".toList.length
              ("12".toList.length + "34".toList.length))),
         lo := 0, hi := 0 + ("12".toList.length + 1 + "34".toList.length) }] :=
  (decimal_literal_significant_figures setupConstantExps "12".toList "34".toList 0
    (by decide) (by decide) (Or.inl (by decide)) (by decide) (by decide)).1

end Decimals

/-! ## Claims about the tokens the reducer consumes -/

section Consumes

theorem passLoopCount_add (hit : Int → Bool)
    (comb : Int → Option Expr → Option Expr → Option Expr) (r : List (Int × Option Expr)) :
    ∀ (fuel : Nat) (opre : List Int) (a : Option Expr) (o0 : Int), r.length ≤ fuel →
      passLoopCount hit fuel (opre.length + 1) (opre ++ o0 :: r.map Prod.fst) +
        (collapse hit comb a r).2.length = r.length := by
  induction r with
  | nil =>
    intro fuel opre a o0 _
    cases fuel with
    | zero => rfl
    | succ n => simp [passLoopCount, collapse]
  | cons p r ih =>
    intro fuel opre a o0 hfuel
    obtain ⟨o, e⟩ := p
    cases fuel with
    | zero => simp at hfuel
    | succ n =>
      have hn : r.length ≤ n := by simpa using hfuel
      have hi : opre.length + 1 < (opre ++ o0 :: (List.map Prod.fst ((o, e) :: r))).length := by
        simp
      have hv : (opre ++ o0 :: (List.map Prod.fst ((o, e) :: r))).getD (opre.length + 1) o_inv
          = o := getD_append_cons_succ opre o0 o _ _
      rw [passLoopCount, if_pos hi, hv]
      by_cases hh : hit o = true
      · rw [if_pos hh]
        have e4 : removeAt (opre ++ o0 :: List.map Prod.fst ((o, e) :: r)) (opre.length + 1) =
            opre ++ o0 :: r.map Prod.fst := removeAt_append_cons_succ opre o0 o _
        have := ih n opre (comb o a e) o0 hn
        rw [e4]
        simp only [collapse, hh, if_true, List.length_cons]
        omega
      · rw [if_neg hh]
        have := ih n (opre ++ [o0]) e o hn
        simp only [List.length_append, List.length_singleton, List.append_assoc,
          List.singleton_append] at this
        simp only [List.map_cons, collapse, hh, Bool.false_eq_true, if_false, List.length_cons]
        omega

theorem collapse_ops (hit : Int → Bool)
    (comb : Int → Option Expr → Option Expr → Option Expr) (r : List (Int × Option Expr)) :
    ∀ a p, p ∈ (collapse hit comb a r).2 → hit p.1 = false ∧ p.1 ∈ r.map Prod.fst := by
  induction r with
  | nil => intro a p hp; simp [collapse] at hp
  | cons q r ih =>
    obtain ⟨o, e⟩ := q
    intro a p hp
    by_cases hh : hit o = true
    · simp only [collapse, hh, if_true] at hp
      have := ih _ p hp
      exact ⟨this.1, List.mem_cons_of_mem _ this.2⟩
    · simp only [collapse, hh, Bool.false_eq_true, if_false] at hp
      rcases List.mem_cons.1 hp with rfl | hp
      · exact ⟨by simpa using hh, List.mem_cons_self _ _⟩
      · have := ih _ p hp
        exact ⟨this.1, List.mem_cons_of_mem _ this.2⟩

theorem collapse_assembles (hit : Int → Bool)
    (comb : Int → Option Expr → Option Expr → Option Expr)
    (hcomb : ∀ o a b l1 l2, hit o = true → Assembles l1 a → Assembles l2 b →
      ∃ e, comb o (some a) (some b) = some e ∧ Assembles (l1 ++ l2) e)
    (r : List (Int × Option Expr)) :
    ∀ (L l0 : List Expr) (a : Expr), Assembles l0 a → AssemblesAll L r →
      ∃ l0' a' L', (collapse hit comb (some a) r).1 = some a' ∧ Assembles l0' a' ∧
        AssemblesAll L' (collapse hit comb (some a) r).2 ∧ l0' ++ L' = l0 ++ L := by
  induction r with
  | nil =>
    intro L l0 a ha hall
    cases hall
    exact ⟨l0, a, [], rfl, ha, AssemblesAll.nil, rfl⟩
  | cons q r ih =>
    intro L l0 a ha hall
    cases hall with
    | cons o he hrest =>
      rename_i l L1 e
      by_cases hh : hit o = true
      · obtain ⟨e', he', hasm⟩ := hcomb o a e l0 l hh ha he
        obtain ⟨l0', a', L', h1, h2, h3, h4⟩ := ih L1 (l0 ++ l) e' hasm hrest
        refine ⟨l0', a', L', ?_, h2, ?_, ?_⟩
        · simp only [collapse, hh, if_true, he']; exact h1
        · simp only [collapse, hh, if_true, he']; exact h3
        · rw [h4, List.append_assoc]
      · obtain ⟨l', e', L'', h1, h2, h3, h4⟩ := ih L1 l e he hrest
        refine ⟨l0, a, l' ++ L'', ?_, ha, ?_, ?_⟩
        · simp only [collapse, hh, Bool.false_eq_true, if_false]
        · simp only [collapse, hh, Bool.false_eq_true, if_false]
          rw [h1]
          exact AssemblesAll.cons o h2 h3
        · rw [h4]

theorem assemblesAll_tokens (es : List Expr) :
    ∀ os : List Int, es.length = os.length → AssemblesAll es (os.zip (es.map some)) := by
  induction es with
  | nil => intro os h; cases os with
    | nil => exact AssemblesAll.nil
    | cons o os => simp at h
  | cons e es ih =>
    intro os h
    cases os with
    | nil => simp at h
    | cons o os =>
      have := AssemblesAll.cons o (Assembles.token e) (ih os (by simpa using h))
      simpa using this

theorem combPow_assembles (o : Int) (a b : Expr) (l1 l2 : List Expr) (_h : isPower o = true)
    (ha : Assembles l1 a) (hb : Assembles l2 b) :
    ∃ e, combPow o (some a) (some b) = some e ∧ Assembles (l1 ++ l2) e := by
  by_cases h : o = o_pow
  · exact ⟨_, by simp [combPow, h, RaiseExpressionToPower], Assembles.pow ha hb⟩
  · exact ⟨_, by simp [combPow, h, RaiseExpressionToPower, SignInvertedExpression],
      Assembles.pow ha (Assembles.neg hb)⟩

theorem combMul_assembles (o : Int) (a b : Expr) (l1 l2 : List Expr) (h : isMulDiv o = true)
    (ha : Assembles l1 a) (hb : Assembles l2 b) :
    ∃ e, combMul o (some a) (some b) = some e ∧ Assembles (l1 ++ l2) e := by
  simp only [isMulDiv, Bool.or_eq_true, decide_eq_true_eq] at h
  rcases h with ((h | h) | h) | h
  · exact ⟨_, by simp [combMul, h, MultiplyExpressions], Assembles.mul ha hb⟩
  · exact ⟨_, by simp [combMul, h, MultiplyExpressions, SignInvertedExpression, o_nmul, o_mul],
      Assembles.mul ha (Assembles.neg hb)⟩
  · exact ⟨_, by simp [combMul, h, DivideExpressions, o_div, o_nmul, o_mul],
      Assembles.div ha hb⟩
  · exact ⟨_, by simp [combMul, h, DivideExpressions, SignInvertedExpression, o_ndiv, o_div,
      o_nmul, o_mul], Assembles.div ha (Assembles.neg hb)⟩

theorem combAdd_assembles (o : Int) (a b : Expr) (l1 l2 : List Expr) (_h : isAddSub o = true)
    (ha : Assembles l1 a) (hb : Assembles l2 b) :
    ∃ e, combAdd o (some a) (some b) = some e ∧ Assembles (l1 ++ l2) e := by
  by_cases h : o = o_add
  · exact ⟨_, by simp [combAdd, h, AddExpressions], Assembles.add ha hb⟩
  · exact ⟨_, by simp [combAdd, h, SubtractExpressions], Assembles.sub ha hb⟩

theorem reducePasses_eq (o0 : Int) (t0 : Option Expr) (rest : List (Int × Option Expr)) :
    reducePasses (t0 :: rest.map Prod.snd) (o0 :: rest.map Prod.fst) =
      ((collapse isAddSub combAdd
          (if o0 = o_sub then SignInvertedExpression (termsOf t0 rest).1
            else (termsOf t0 rest).1) (termsOf t0 rest).2).1 ::
        (collapse isAddSub combAdd
          (if o0 = o_sub then SignInvertedExpression (termsOf t0 rest).1
            else (termsOf t0 rest).1) (termsOf t0 rest).2).2.map Prod.snd,
       o0 :: (collapse isAddSub combAdd
          (if o0 = o_sub then SignInvertedExpression (termsOf t0 rest).1
            else (termsOf t0 rest).1) (termsOf t0 rest).2).2.map Prod.fst) := by
  have p1 := passLoop_eq_collapse isPower combPow rest (rest.length + 1) [] [] t0 o0 rfl
    (Nat.le_succ _)
  simp only [List.length_nil, Nat.zero_add, List.nil_append] at p1
  have p2 := passLoop_eq_collapse isMulDiv combMul (collapse isPower combPow t0 rest).2
    ((collapse isPower combPow t0 rest).2.length + 1) [] []
    (collapse isPower combPow t0 rest).1 o0 rfl (Nat.le_succ _)
  simp only [List.length_nil, Nat.zero_add, List.nil_append] at p2
  have p3 := fun x => passLoop_eq_collapse isAddSub combAdd (termsOf t0 rest).2
    ((termsOf t0 rest).2.length + 1) [] [] x o0 rfl (Nat.le_succ _)
  simp only [List.length_nil, Nat.zero_add, List.nil_append] at p3
  simp only [reducePasses, powLoop_eq_passLoop, mulLoop_eq_passLoop, addLoop_eq_passLoop,
    List.length_cons, List.length_map, p1, p2]
  simp only [leadingSign, List.length_cons, Nat.zero_lt_succ, if_true, List.getD_cons_zero,
    List.set_cons_zero]
  by_cases h : o0 = o_sub
  · simp only [if_pos h]
    have := p3 (SignInvertedExpression (termsOf t0 rest).1)
    simp only [termsOf, List.length_map] at this ⊢
    rw [this]
  · simp only [if_neg h]
    have := p3 (termsOf t0 rest).1
    simp only [termsOf, List.length_map] at this ⊢
    rw [this]

theorem combinations_add (o0 : Int) (t0 x : Option Expr) (rest : List (Int × Option Expr)) :
    combinations (t0 :: rest.map Prod.snd) (o0 :: rest.map Prod.fst) +
      (collapse isAddSub combAdd x (termsOf t0 rest).2).2.length = rest.length := by
  have p1 := passLoop_eq_collapse isPower combPow rest (rest.length + 1) [] [] t0 o0 rfl
    (Nat.le_succ _)
  simp only [List.length_nil, Nat.zero_add, List.nil_append] at p1
  have p2 := passLoop_eq_collapse isMulDiv combMul (collapse isPower combPow t0 rest).2
    ((collapse isPower combPow t0 rest).2.length + 1) [] []
    (collapse isPower combPow t0 rest).1 o0 rfl (Nat.le_succ _)
  simp only [List.length_nil, Nat.zero_add, List.nil_append] at p2
  have c1 := passLoopCount_add isPower combPow rest (rest.length + 1) [] t0 o0 (Nat.le_succ _)
  have c2 := passLoopCount_add isMulDiv combMul (collapse isPower combPow t0 rest).2
    ((collapse isPower combPow t0 rest).2.length + 1) [] (collapse isPower combPow t0 rest).1 o0
    (Nat.le_succ _)
  have c3 := passLoopCount_add isAddSub combAdd (termsOf t0 rest).2
    ((termsOf t0 rest).2.length + 1) [] x o0 (Nat.le_succ _)
  simp only [List.length_nil, Nat.zero_add, List.nil_append] at c1 c2 c3
  simp only [combinations, powLoop_eq_passLoop, mulLoop_eq_passLoop, List.length_cons,
    List.length_map, p1, p2]
  simp only [termsOf] at c3 ⊢
  omega

theorem passLoop_length_le (hit : Int → Bool)
    (comb : Int → Option Expr → Option Expr → Option Expr) (fuel : Nat) :
    ∀ (i : Nat) (exps : List (Option Expr)) (ops : List Int),
      (passLoop hit comb fuel i exps ops).2.length ≤ ops.length := by
  induction fuel with
  | zero => intro i exps ops; exact le_refl _
  | succ n ih =>
    intro i exps ops
    rw [passLoop]
    by_cases h1 : i < ops.length
    · rw [if_pos h1]
      split
      · have := ih i ((removeAt exps i).set (i - 1)
          (comb (ops.getD i o_inv) (exps.getD (i - 1) none) (exps.getD i none)))
          (removeAt ops i)
        rw [length_removeAt ops i h1] at this
        omega
      · exact ih (i + 1) exps ops
    · rw [if_neg h1]

/-- The loops of the reducer end within `len(operators)` rounds: given more
rounds they return the same lists. -/
theorem reducePassesFuel_eq (fuel : Nat) (exps : List (Option Expr)) (ops : List Int)
    (h : ops.length ≤ fuel) : reducePassesFuel fuel exps ops = reducePasses exps ops := by
  simp only [reducePassesFuel, reducePasses, powLoop_eq_passLoop, mulLoop_eq_passLoop,
    addLoop_eq_passLoop]
  have e1 : passLoop isPower combPow fuel 1 exps ops =
      passLoop isPower combPow ops.length 1 exps ops :=
    passLoop_fuel _ _ _ _ _ _ _ (by omega) (by omega)
  have l1 := passLoop_length_le isPower combPow ops.length 1 exps ops
  rw [e1]
  have e2 : ∀ xs (os : List Int), os.length ≤ ops.length →
      passLoop isMulDiv combMul fuel 1 xs os =
        passLoop isMulDiv combMul os.length 1 xs os :=
    fun xs os ho => passLoop_fuel _ _ _ _ _ _ _ (by omega) (by omega)
  rw [e2 _ _ l1]
  have l2 := passLoop_length_le isMulDiv combMul
    (passLoop isPower combPow ops.length 1 exps ops).2.length 1
    (passLoop isPower combPow ops.length 1 exps ops).1
    (passLoop isPower combPow ops.length 1 exps ops).2
  exact passLoop_fuel _ _ _ _ _ _ _ (by omega) (by omega)

theorem reduceExpression_eq_head (exps : List (Option Expr)) (ops : List Int) :
    reduceExpression exps ops =
      match (reducePasses exps ops).1 with
      | [] => none
      | e :: _ => e := rfl

/-- C18: the reducer consumes every token.  For every sequence of `n + 1`
tokens that are not nil, with any operator code in slot 0 and operator codes in
the slots `1..n` that are all among the eight, the three loops end (given more
rounds than `len(operators)` they return the same lists), they build exactly
`n` combinations, they leave exactly one expression in `exps`, which
`parseExpression` returns, and that expression is assembled from the tokens,
each used exactly once, in their order. -/
theorem reducer_consumes_every_token (o0 : Int) (e0 : Expr) (es : List Expr) (os : List Int)
    (hlen : es.length = os.length) (hops : ∀ o ∈ os, isOperator o = true) :
    ∃ e, reducePasses (some e0 :: es.map some) (o0 :: os) = ([some e], [o0]) ∧
      reduceExpression (some e0 :: es.map some) (o0 :: os) = some e ∧
      Assembles (e0 :: es) e ∧
      combinations (some e0 :: es.map some) (o0 :: os) = os.length ∧
      ∀ fuel, (o0 :: os).length ≤ fuel →
        reducePassesFuel fuel (some e0 :: es.map some) (o0 :: os) =
          reducePasses (some e0 :: es.map some) (o0 :: os) := by
  have hz := zip_maps os (es.map some) (by simp [hlen])
  have hzl : (os.zip (es.map some)).length = os.length := by simp [hlen]
  have hall := assemblesAll_tokens es os hlen
  obtain ⟨l1, a1, L1, hP1, hA1, hAll1, hl1⟩ :=
    collapse_assembles isPower combPow combPow_assembles (os.zip (es.map some)) es [e0] e0
      (Assembles.token e0) hall
  have hM : termsOf (some e0) (os.zip (es.map some)) =
      collapse isMulDiv combMul (some a1)
        (collapse isPower combPow (some e0) (os.zip (es.map some))).2 := by
    rw [termsOf, hP1]
  obtain ⟨l2, a2, L2, hM1, hA2, hAll2, hl2⟩ :=
    collapse_assembles isMulDiv combMul combMul_assembles _ L1 l1 a1 hA1 hAll1
  rw [← hM] at hM1 hAll2
  have hops3 : ∀ p ∈ (termsOf (some e0) (os.zip (es.map some))).2, isAddSub p.1 = true := by
    intro p hp
    rw [hM] at hp
    obtain ⟨hm, hmem⟩ := collapse_ops isMulDiv combMul _ _ p hp
    obtain ⟨q, hq, hqp⟩ := List.mem_map.1 hmem
    obtain ⟨hpw, hmem2⟩ := collapse_ops isPower combPow _ _ q hq
    rw [hz.2] at hmem2
    have hop := hops q.1 hmem2
    rw [hqp] at hpw hop
    simp only [isOperator, hpw, hm, Bool.false_or] at hop
    exact hop
  obtain ⟨a3, hX, hA3⟩ : ∃ a3,
      (if o0 = o_sub then SignInvertedExpression (termsOf (some e0) (os.zip (es.map some))).1
        else (termsOf (some e0) (os.zip (es.map some))).1) = some a3 ∧ Assembles l2 a3 := by
    rw [hM1]
    by_cases h : o0 = o_sub
    · exact ⟨_, by rw [if_pos h]; rfl, Assembles.neg hA2⟩
    · exact ⟨_, by rw [if_neg h], hA2⟩
  obtain ⟨l3, a', L3, hF1, hA', hAll3, hl3⟩ :=
    collapse_assembles isAddSub combAdd combAdd_assembles _ L2 l2 a3 hA3 hAll2
  have hF2 : (collapse isAddSub combAdd (some a3)
      (termsOf (some e0) (os.zip (es.map some))).2).2 = [] := by
    rw [collapse_all _ _ _ _ hops3]
  rw [hF2] at hAll3
  have hL3 : L3 = [] := by cases hAll3; rfl
  have hpass := reducePasses_eq o0 (some e0) (os.zip (es.map some))
  rw [hz.1, hz.2, hX, hF1, hF2] at hpass
  have hcount := combinations_add o0 (some e0) (some a3) (os.zip (es.map some))
  rw [hz.1, hz.2, hF2, hzl] at hcount
  refine ⟨a', hpass, ?_, ?_, by simpa using hcount, fun fuel hf => reducePassesFuel_eq fuel _ _ hf⟩
  · rw [reduceExpression_eq_head, hpass]
  · have : l3 = e0 :: es := by
      have := hl3
      rw [hL3, List.append_nil, hl2, hl1] at this
      simpa using this
    rw [← this]
    exact hA'

theorem reducer_consumes_every_token_witness :
    ∃ e,
      reducePasses
          (some (Expr.unknown ['a']) ::
            [Expr.unknown ['b'], Expr.unknown ['c'], Expr.unknown ['d']].map some)
          (o_sub :: [o_add, o_nmul, o_pow]) = ([some e], [o_sub]) ∧
      reduceExpression
          (some (Expr.unknown ['a']) ::
            [Expr.unknown ['b'], Expr.unknown ['c'], Expr.unknown ['d']].map some)
          (o_sub :: [o_add, o_nmul, o_pow]) = some e ∧
      Assembles
        (Expr.unknown ['a'] :: [Expr.unknown ['b'], Expr.unknown ['c'], Expr.unknown ['d']]) e ∧
      combinations
          (some (Expr.unknown ['a']) ::
            [Expr.unknown ['b'], Expr.unknown ['c'], Expr.unknown ['d']].map some)
          (o_sub :: [o_add, o_nmul, o_pow]) = [o_add, o_nmul, o_pow].length ∧
      ∀ fuel, (o_sub :: [o_add, o_nmul, o_pow]).length ≤ fuel →
        reducePassesFuel fuel
            (some (Expr.unknown ['a']) ::
              [Expr.unknown ['b'], Expr.unknown ['c'], Expr.unknown ['d']].map some)
            (o_sub :: [o_add, o_nmul, o_pow]) =
          reducePasses
            (some (Expr.unknown ['a']) ::
              [Expr.unknown ['b'], Expr.unknown ['c'], Expr.unknown ['d']].map some)
            (o_sub :: [o_add, o_nmul, o_pow]) :=
  reducer_consumes_every_token o_sub (Expr.unknown ['a'])
    [Expr.unknown ['b'], Expr.unknown ['c'], Expr.unknown ['d']] [o_add, o_nmul, o_pow] rfl
    (by decide)

end Consumes

/-! ## Claims about missing tokens -/

section Missing

theorem opStrings_length (s : Str) :
    ∀ (vs : List PElement) (lasti : Nat) (texts : List Str),
      opStrings s lasti vs = Run.done texts → texts.length = vs.length := by
  intro vs
  induction vs with
  | nil =>
    intro lasti texts h
    simp only [opStrings, Run.done.injEq] at h
    rw [← h]
    rfl
  | cons v vs ih =>
    intro lasti texts h
    simp only [opStrings] at h
    split at h
    · cases hr : opStrings s v.hi vs with
      | panic => rw [hr] at h; cases h
      | done rest =>
        rw [hr] at h
        simp only [Run.map, Run.done.injEq] at h
        rw [← h, List.length_cons, List.length_cons, ih v.hi rest hr]
    · cases h

theorem resolveOperators_length :
    ∀ (vs : List Str) (i : Nat) (ops : List Int),
      resolveOperators i vs = some ops → ops.length = vs.length := by
  intro vs
  induction vs with
  | nil =>
    intro i ops h
    simp only [resolveOperators, Option.some.injEq] at h
    rw [← h]
    rfl
  | cons v vs ih =>
    intro i ops h
    simp only [resolveOperators] at h
    cases h1 : resolveOperator i v with
    | none => rw [h1] at h; cases h
    | some op =>
      rw [h1] at h
      cases h2 : resolveOperators (i + 1) vs with
      | none => rw [h2] at h; cases h
      | some rest =>
        rw [h2] at h
        simp only [Option.some.injEq] at h
        rw [← h, List.length_cons, List.length_cons, ih (i + 1) rest h2]

theorem combPow_none (o : Int) (a b : Option Expr) (h : a = none ∨ b = none) :
    combPow o a b = none := by
  cases a <;> cases b <;>
    simp_all [combPow, RaiseExpressionToPower, SignInvertedExpression]

theorem combMul_none (o : Int) (a b : Option Expr) (h : a = none ∨ b = none) :
    combMul o a b = none := by
  cases a <;> cases b <;>
    simp_all [combMul, MultiplyExpressions, DivideExpressions, SignInvertedExpression]

theorem combAdd_none (o : Int) (a b : Option Expr) (h : a = none ∨ b = none) :
    combAdd o a b = none := by
  cases a <;> cases b <;>
    simp_all [combAdd, AddExpressions, SubtractExpressions]

/-- A pass of the reducer keeps a missing item missing: a combination with a
missing operand is missing. -/
theorem collapse_none (hit : Int → Bool)
    (comb : Int → Option Expr → Option Expr → Option Expr)
    (hcomb : ∀ o a b, (a = none ∨ b = none) → comb o a b = none)
    (r : List (Int × Option Expr)) :
    ∀ a, (a = none ∨ ∃ p ∈ r, p.2 = none) →
      ((collapse hit comb a r).1 = none ∨ ∃ p ∈ (collapse hit comb a r).2, p.2 = none) := by
  induction r with
  | nil => intro a h; simpa [collapse] using h
  | cons q r ih =>
    obtain ⟨o, e⟩ := q
    intro a h
    by_cases hh : hit o = true
    · simp only [collapse, hh, if_true]
      apply ih
      rcases h with h | ⟨p, hp, hn⟩
      · exact Or.inl (hcomb o a e (Or.inl h))
      · rcases List.mem_cons.1 hp with rfl | hp
        · exact Or.inl (hcomb o a _ (Or.inr hn))
        · exact Or.inr ⟨p, hp, hn⟩
    · simp only [collapse, hh, Bool.false_eq_true, if_false]
      rcases h with h | ⟨p, hp, hn⟩
      · exact Or.inl h
      · right
        have hin : e = none ∨ ∃ p ∈ r, p.2 = none := by
          rcases List.mem_cons.1 hp with rfl | hp
          · exact Or.inl hn
          · exact Or.inr ⟨p, hp, hn⟩
        rcases ih e hin with h1 | ⟨p', hp', hn'⟩
        · exact ⟨(o, (collapse hit comb e r).1), List.mem_cons_self _ _, h1⟩
        · exact ⟨p', List.mem_cons_of_mem _ hp', hn'⟩

theorem termsOf_ops (t0 : Option Expr) (rest : List (Int × Option Expr))
    (h : ∀ o ∈ rest.map Prod.fst, isOperator o = true) :
    ∀ p ∈ (termsOf t0 rest).2, isAddSub p.1 = true := by
  intro p hp
  rw [termsOf] at hp
  obtain ⟨hm, hmem⟩ := collapse_ops isMulDiv combMul _ _ p hp
  obtain ⟨q, hq, hqp⟩ := List.mem_map.1 hmem
  obtain ⟨hpw, hmem2⟩ := collapse_ops isPower combPow _ _ q hq
  have hop := h q.1 hmem2
  rw [hqp] at hpw hop
  simp only [isOperator, hpw, hm, Bool.false_or] at hop
  exact hop

/-- The reducer on tokens of which one is missing, under operator codes that
are among the eight in every slot after the first: the result is missing. -/
theorem reduceExpression_none (ts : List (Option Expr)) (ops : List Int)
    (hlen : ops.length = ts.length) (hmiss : none ∈ ts)
    (hops : ∀ o ∈ ops.tail, isOperator o = true) : reduceExpression ts ops = none := by
  cases ts with
  | nil => simp at hmiss
  | cons t0 ts =>
    cases ops with
    | nil => simp at hlen
    | cons o0 os =>
      have hl : ts.length = os.length := by simpa using hlen.symm
      have hz := zip_maps os ts hl
      have h := reduceExpression_eq o0 t0 (os.zip ts)
      rw [hz.1, hz.2] at h
      rw [h]
      have hops' : ∀ o ∈ (os.zip ts).map Prod.fst, isOperator o = true := by
        rw [hz.2]; exact hops
      have h0 : t0 = none ∨ ∃ p ∈ os.zip ts, p.2 = none := by
        rcases List.mem_cons.1 hmiss with e | e
        · exact Or.inl e.symm
        · right
          rw [← hz.1] at e
          obtain ⟨p, hp, hpe⟩ := List.mem_map.1 e
          exact ⟨p, hp, hpe⟩
      have h1 := collapse_none isPower combPow combPow_none (os.zip ts) t0 h0
      have h2 := collapse_none isMulDiv combMul combMul_none _ _ h1
      have h3 : (if o0 = o_sub then SignInvertedExpression (termsOf t0 (os.zip ts)).1
            else (termsOf t0 (os.zip ts)).1) = none ∨
          ∃ p ∈ (termsOf t0 (os.zip ts)).2, p.2 = none := by
        rcases h2 with e | e
        · left
          rw [termsOf, e]
          split <;> rfl
        · exact Or.inr e
      have h4 := collapse_none isAddSub combAdd combAdd_none _ _ h3
      rw [collapse_all _ _ _ _ (termsOf_ops t0 _ hops')] at h4 ⊢
      simpa using h4

/-- C11 (as stated, refuted): the reference `q.z` cannot be resolved (`q` is no
namespace, the line `q.z` parses to nil), yet the lines `m.pi(q.z)` and
`ln(b = q.z)`, in which it is written, do not parse to nil: the argument of a
call on an expression without free variables, and an entry that names no free
variable of the callee, are never parsed. -/
theorem unbound_argument_not_parsed :
    parseVarName "q.z".toList = (none, "z".toList) ∧
    parseExpression setupConstantExps "q.z".toList = Run.done none ∧
    parseExpression setupConstantExps "m.pi(q.z)".toList =
      Run.done (some (Expr.const (MakeSDFloat 3141592653589793 15 15))) ∧
    parseExpression setupConstantExps "ln(b = q.z)".toList =
      Run.done (some (Expr.ln (Expr.unknown "a".toList))) := by
  refine ⟨by decide, ?_, ?_, ?_⟩
  · rw [parseExpression_eq_fuel _ 4 _ (by decide)]; rfl
  · rw [parseExpression_eq_fuel _ 10 _ (by decide)]; rfl
  · rw [parseExpression_eq_fuel _ 12 _ (by decide)]; rfl

/-- C11 (amended): contagious failure at line level.  For every line on which
the cascade returns its tokens `values` and the slicing returns the operator
texts: if a token is missing and, whenever the texts resolve, the operator
codes after the first slot are all among the eight, then `parseExpression`
returns nil for the whole line.  (The builders, modelled from the
specification, give a missing result on a missing operand.) -/
theorem missing_token_makes_line_missing (T : Tables) (s : Str) (values : List PElement)
    (texts : List Str)
    (hvalues : parseParenthesisEnclosedExpressions T (parseExpression T) s 0 = Run.done values)
    (htexts : opStrings s 0 values = Run.done texts)
    (hmiss : ∃ v ∈ values, v.exp = none)
    (hops : ∀ operators, resolveOperators 0 texts = some operators →
      ∀ o ∈ operators.tail, isOperator o = true) :
    parseExpression T s = Run.done none := by
  rw [parseExpression_eq_fuel T (s.length + 1) s (Nat.lt_succ_self _)]
  show parseExpressionBody T (parseExpressionFuel T s.length) s = Run.done none
  simp only [parseExpressionBody]
  rw [← cascade_eq_fuel T s.length s 0 (le_refl _), hvalues]
  simp only [Run.bind, htexts]
  cases hres : resolveOperators 0 texts with
  | none => rfl
  | some operators =>
    simp only []
    rw [reduceExpression_none _ operators _ _ (hops operators hres)]
    · rw [List.length_map, resolveOperators_length texts 0 operators hres,
        opStrings_length s values 0 texts htexts]
    · obtain ⟨v, hv, hn⟩ := hmiss
      exact List.mem_map.2 ⟨v, hv, hn⟩

theorem missing_token_makes_line_missing_witness :
    parseExpression setupConstantExps "2+q.z".toList = Run.done none :=
  missing_token_makes_line_missing setupConstantExps "2+q.z".toList
    [{ exp := some (Expr.const (Number.fraction 2 1)), lo := 0, hi := 1 },
      { exp := none, lo := 2, hi := 5 }]
    ["".toList, "+".toList]
    (by rw [cascade_eq_fuel _ 6 _ _ (by decide)]; rfl) rfl
    ⟨{ exp := none, lo := 2, hi := 5 }, by simp, rfl⟩
    (fun operators h => by
      have e : resolveOperators 0 ["".toList, "+".toList] = some [o_inv, o_add] := by decide
      rw [e] at h
      simp only [Option.some.injEq] at h
      subst h
      decide)

end Missing

/-! ## Claims about `parseLine` -/

section Lines

/-- The function `parseLine` computed with the bounded evaluator. -/
theorem parseLine_eq_fuel (T : Tables) (n : Nat) (line : Str) (h : line.length < n) :
    parseLine T line = parseLineBody (parseExpressionFuel T n) T line := by
  have hs := TrimSpace_length_le line
  have e1 : ∀ k, parseExpression T ((TrimSpace line).drop k) =
      parseExpressionFuel T n ((TrimSpace line).drop k) := fun k =>
    parseExpression_eq_fuel T n _ (by rw [List.length_drop]; omega)
  have e2 : parseExpression T (TrimSpace line) = parseExpressionFuel T n (TrimSpace line) :=
    parseExpression_eq_fuel T n _ (by omega)
  simp only [parseLine, parseLineBody, e1, e2]

theorem Table.any_iff_mem (t : Table) (k : Str) :
    (t.any fun p => p.1 == k) = true ↔ k ∈ t.map Prod.fst := by
  simp only [List.any_eq_true, beq_iff_eq, List.mem_map]

theorem Table.lookup_replace_ne (t : Table) (k x : Str) (v : Expr) (hx : x ≠ k) :
    List.lookup x (t.map fun p => if p.1 == k then (k, v) else p) = List.lookup x t := by
  induction t with
  | nil => rfl
  | cons p t ih =>
    obtain ⟨a, b⟩ := p
    by_cases ha : a = k
    · subst ha
      have : (a == a) = true := by simp
      simp only [List.map_cons, this, if_true]
      rw [lookup_cons_ne x a v _ hx, lookup_cons_ne x a b _ hx, ih]
    · have : (a == k) = false := by simpa using ha
      simp only [List.map_cons, this, Bool.false_eq_true, if_false]
      by_cases hxa : x = a
      · subst hxa; rw [lookup_cons_self, lookup_cons_self]
      · rw [lookup_cons_ne x a b _ hxa, lookup_cons_ne x a b _ hxa, ih]

theorem Table.lookup_replace_self (t : Table) (k : Str) (v : Expr) (hk : k ∈ t.map Prod.fst) :
    List.lookup k (t.map fun p => if p.1 == k then (k, v) else p) = some v := by
  induction t with
  | nil => simp at hk
  | cons p t ih =>
    obtain ⟨a, b⟩ := p
    by_cases ha : a = k
    · subst ha
      have : (a == a) = true := by simp
      simp only [List.map_cons, this, if_true]
      rw [lookup_cons_self]
    · have hf : (a == k) = false := by simpa using ha
      simp only [List.map_cons, hf, Bool.false_eq_true, if_false]
      rw [lookup_cons_ne k a b _ (fun e => ha e.symm)]
      apply ih
      rw [List.map_cons, List.mem_cons] at hk
      rcases hk with e | e
      · exact absurd e.symm ha
      · exact e

/-- The assignment `m[k] = v` leaves every other entry as it was. -/
theorem Table.lookup_assign_ne (t : Table) (k x : Str) (v : Expr) (hx : x ≠ k) :
    List.lookup x (Table.assign t k v) = List.lookup x t := by
  rw [Table.assign]
  split
  · exact Table.lookup_replace_ne t k x v hx
  · rw [lookup_append_single, if_neg hx]
    cases List.lookup x t <;> rfl

/-- After the assignment `m[k] = v` the entry of `k` is `v`. -/
theorem Table.lookup_assign_self (t : Table) (k : Str) (v : Expr) :
    List.lookup k (Table.assign t k v) = some v := by
  rw [Table.assign]
  split
  · rename_i h
    exact Table.lookup_replace_self t k v ((Table.any_iff_mem t k).1 h)
  · rename_i h
    rw [lookup_append_single, if_pos rfl]
    have hnone : List.lookup k t = none := by
      rw [lookup_eq_none_iff_not_mem]
      exact fun hm => h ((Table.any_iff_mem t k).2 hm)
    rw [hnone]

/-- The tables after a line: those before it, or, after an assignment line
whose expression is not nil, those with the one entry of `userVars`
assigned. -/
theorem parseLine_tables (T : Tables) (line : Str) :
    (parseLine T line).1 = T ∨
    ∃ ind exp, strIndex "list ".toList (TrimSpace line) = none ∧
      strIndex "<<".toList (TrimSpace line) = some ind ∧
      parseExpression T ((TrimSpace line).drop (ind + 2)) = Run.done (some exp) ∧
      (parseLine T line).1 =
        { T with userVars :=
            Table.assign T.userVars (parseVarName ((TrimSpace line).take ind)).2 exp } := by
  simp only [parseLine, parseLineBody]
  split
  · exact Or.inl rfl
  · cases hl : strIndex "list ".toList (TrimSpace line) with
    | some ind =>
      simp only []
      split <;> exact Or.inl rfl
    | none =>
      simp only []
      cases ha : strIndex "<<".toList (TrimSpace line) with
      | none =>
        simp only []
        split <;> exact Or.inl rfl
      | some ind =>
        simp only []
        cases hp : parseExpression T ((TrimSpace line).drop (ind + 2)) with
        | panic => exact Or.inl rfl
        | done r =>
          cases r with
          | none => exact Or.inl rfl
          | some exp => exact Or.inr ⟨ind, exp, trivial, rfl, hp, rfl⟩

/-- C15: only the user variables are ever written.  For every line,
`parseLine` leaves the tables of mathematical, chemical and physical constants
and the function table as they were; the user variables are as they were, or
the line is an assignment `name << expr` whose expression parses to `exp`, not
nil, and they are the user variables with `exp` assigned at the key of `name`,
whatever namespace `name` designates: every entry under another key is as it
was.  Nothing changes when the expression parses to nil, and nothing on a line
without `<<`.  (`parseExpression` reads the tables and returns an expression;
it has no table to write.) -/
theorem parseLine_writes_only_userVars (T : Tables) (line : Str) :
    (parseLine T line).1.mathematicalConstants = T.mathematicalConstants ∧
    (parseLine T line).1.chemicalConstants = T.chemicalConstants ∧
    (parseLine T line).1.physicalConstants = T.physicalConstants ∧
    (parseLine T line).1.standardFuncs = T.standardFuncs ∧
    ((parseLine T line).1.userVars = T.userVars ∨
      ∃ ind exp, strIndex "<<".toList (TrimSpace line) = some ind ∧
        parseExpression T ((TrimSpace line).drop (ind + 2)) = Run.done (some exp) ∧
        (parseLine T line).1.userVars =
          Table.assign T.userVars (parseVarName ((TrimSpace line).take ind)).2 exp) ∧
    (∀ ind k, strIndex "<<".toList (TrimSpace line) = some ind →
      k ≠ (parseVarName ((TrimSpace line).take ind)).2 →
      List.lookup k (parseLine T line).1.userVars = List.lookup k T.userVars) ∧
    (∀ ind, strIndex "<<".toList (TrimSpace line) = some ind →
      parseExpression T ((TrimSpace line).drop (ind + 2)) = Run.done none →
      (parseLine T line).1 = T) ∧
    (strIndex "<<".toList (TrimSpace line) = none → (parseLine T line).1 = T) := by
  rcases parseLine_tables T line with h | ⟨ind, exp, _, ha, hp, h⟩
  · rw [h]
    exact ⟨rfl, rfl, rfl, rfl, Or.inl rfl, fun _ _ _ _ => rfl, fun _ _ _ => rfl, fun _ => rfl⟩
  · rw [h]
    refine ⟨rfl, rfl, rfl, rfl, Or.inr ⟨ind, exp, ha, hp, rfl⟩, ?_, ?_, ?_⟩
    · intro ind' k hi hk
      rw [ha] at hi
      simp only [Option.some.injEq] at hi
      subst hi
      exact Table.lookup_assign_ne _ _ _ _ hk
    · intro ind' hi hn
      rw [ha] at hi
      simp only [Option.some.injEq] at hi
      subst hi
      rw [hp] at hn
      cases hn
    · intro hn
      rw [ha] at hn
      cases hn

theorem parseLine_writes_only_userVars_witness :
    (parseLine setupConstantExps "m.pi << 7".toList).1 =
      { setupConstantExps with
        userVars := [("pi".toList, Expr.const (Number.fraction 7 1))] } ∧
    List.lookup "e".toList (parseLine setupConstantExps "m.pi << 7".toList).1.userVars =
      List.lookup "e".toList setupConstantExps.userVars :=
  ⟨by rw [parseLine_eq_fuel _ 10 _ (by decide)]; rfl,
    (parseLine_writes_only_userVars setupConstantExps "m.pi << 7".toList).2.2.2.2.2.1 5
      "e".toList (by decide) (by decide)⟩

/-- C12 (the code on the line `u.x.y`): `parseVarName` rejects the name
`u.x.y`, but stage 3 never hands it that name: it matches `u.x` and then `.y`,
two references joined by an implicit multiplication.  After the lines
`u.x << 2` and `u.y << 3` the line `u.x.y` parses to the product of 2 and 3,
not to nil. -/
theorem multi_dot_reference_parses_to_product :
    parseVarName "u.x.y".toList = (none, []) ∧
    (parseLine (parseLine setupConstantExps "u.x << 2".toList).1 "u.y << 3".toList).1 =
      { setupConstantExps with
        userVars := [("x".toList, Expr.const (Number.fraction 2 1)),
          ("y".toList, Expr.const (Number.fraction 3 1))] } ∧
    parseParenthesisEnclosedExpressions
        { setupConstantExps with
          userVars := [("x".toList, Expr.const (Number.fraction 2 1)),
            ("y".toList, Expr.const (Number.fraction 3 1))] }
        (parseExpression
          { setupConstantExps with
            userVars := [("x".toList, Expr.const (Number.fraction 2 1)),
              ("y".toList, Expr.const (Number.fraction 3 1))] })
        "u.x.y".toList 0 =
      Run.done [{ exp := some (Expr.const (Number.fraction 2 1)), lo := 0, hi := 3 },
        { exp := some (Expr.const (Number.fraction 3 1)), lo := 3, hi := 5 }] ∧
    parseExpression
        { setupConstantExps with
          userVars := [("x".toList, Expr.const (Number.fraction 2 1)),
            ("y".toList, Expr.const (Number.fraction 3 1))] }
        "u.x.y".toList =
      Run.done (some (Expr.mul (Expr.const (Number.fraction 2 1))
        (Expr.const (Number.fraction 3 1)))) := by
  have h1 : parseLine setupConstantExps "u.x << 2".toList =
      ({ setupConstantExps with userVars := [("x".toList, Expr.const (Number.fraction 2 1))] },
        Run.done false) := by
    rw [parseLine_eq_fuel _ 9 _ (by decide)]; rfl
  refine ⟨by decide, ?_, ?_, ?_⟩
  · rw [h1, parseLine_eq_fuel _ 9 _ (by decide)]; rfl
  · rw [cascade_eq_fuel _ 6 _ _ (by decide)]; rfl
  · rw [parseExpression_eq_fuel _ 6 _ (by decide)]; rfl

/-- C14 (the code on the line `u.list << 5`): the text `5` parses to the exact
constant 5, but the line contains `list `, so `parseLine` takes it for a list
command and assigns nothing; the reference `u.list` parses to nil afterwards.
On the line `u.x << 5` the assignment is made and `u.x` parses to 5. -/
theorem assignment_to_key_list_not_made :
    parseExpression setupConstantExps "5".toList =
      Run.done (some (Expr.const (Number.fraction 5 1))) ∧
    strIndex "list ".toList (TrimSpace "u.list << 5".toList) = some 2 ∧
    parseLine setupConstantExps "u.list << 5".toList = (setupConstantExps, Run.done false) ∧
    parseExpression (parseLine setupConstantExps "u.list << 5".toList).1 "u.list".toList =
      Run.done none ∧
    parseLine setupConstantExps "u.x << 5".toList =
      ({ setupConstantExps with userVars := [("x".toList, Expr.const (Number.fraction 5 1))] },
        Run.done false) ∧
    parseExpression (parseLine setupConstantExps "u.x << 5".toList).1 "u.x".toList =
      Run.done (some (Expr.const (Number.fraction 5 1))) := by
  have h1 : parseLine setupConstantExps "u.list << 5".toList =
      (setupConstantExps, Run.done false) := by
    rw [parseLine_eq_fuel _ 12 _ (by decide)]; rfl
  have h2 : parseLine setupConstantExps "u.x << 5".toList =
      ({ setupConstantExps with userVars := [("x".toList, Expr.const (Number.fraction 5 1))] },
        Run.done false) := by
    rw [parseLine_eq_fuel _ 9 _ (by decide)]; rfl
  refine ⟨?_, by decide, h1, ?_, h2, ?_⟩
  · rw [parseExpression_eq_fuel _ 2 _ (by decide)]; rfl
  · rw [h1, parseExpression_eq_fuel _ 7 _ (by decide)]; rfl
  · rw [h2, parseExpression_eq_fuel _ 4 _ (by decide)]; rfl

end Lines

/-! ## Claims about bare identifiers: every token that is an identifier -/

section TokenSoundness

theorem slice_eq_take_drop (s : Str) (a b : Nat) : slice s a b = (s.drop a).take (b - a) := rfl

theorem isIdentifier_head (x : Str) (h : isIdentifier x = true) :
    ∃ c r, x = c :: r ∧ isL c = true := by
  cases x with
  | nil => simp [isIdentifier] at h
  | cons c r =>
    simp only [isIdentifier, List.head?_cons, Option.map_some', Option.some.injEq,
      Bool.and_eq_true, decide_eq_true_eq] at h
    exact ⟨c, r, rfl, h.1⟩

end TokenSoundness

/-! ## Claims about bare identifiers: the token of an identifier -/

section TokenExistence

theorem isLN_of_isL (c : Char) (h : isL c = true) : isLN c = true := by
  simp [isLN, h]

theorem getElem_identifier_start (pre x post : Str) (hx : isIdentifier x = true) :
    ∃ c, (pre ++ (x ++ post))[pre.length]? = some c ∧ isL c = true := by
  obtain ⟨c, r, ex, hc⟩ := isIdentifier_head x hx
  refine ⟨c, ?_, hc⟩
  rw [List.getElem?_append_right (le_refl _), ex]
  simp

end TokenExistence

end CalcShell
